import Mathlib

set_option autoImplicit false

/-!
# LZ78 encoder with a dictionary binary tree (`ass2e.c`)

A shallow embedding of `ass2e.c` and the properties of its specification.

Modelling conventions.

* Memory.  Every `node_t` allocated by `insert_in_order_branch` lives in a
  node store (`tree_t.nodes`); the address of a node is its position in the
  store, a fresh allocation is appended at the end, and `NULL` is `none`.
  The `data_t` a node points to is stored inside the node.  A `data_t` that
  is freed again (the hit branch of `process_char`) never enters the store.
* Recursion.  `recursive_search_tree` and `recursive_insert` follow pointers,
  so they take a fuel argument; running out of fuel, or following a pointer
  that is not allocated, yields `none`.  The callers pass one more than the
  number of allocated nodes, and the theorems prove that this is always
  enough on the states the encoder reaches.
* `char` is the signed 8 bit type of the usual x86 ABI (the only reading
  under which the loop of `main` ends at end of file): the `int` returned by
  `getchar` is converted by `to_char`, and `%c` prints the byte `to_uchar`.
* The `int` counters (`index`, `temp`, `pre`, `count`, `ch_count`) are
  natural numbers; signed overflow (more than `2^31 - 1` input bytes) is
  undefined behaviour in C and outside the model.
* `stdout` is the list of factors printed, one `(byte, number)` pair for each
  `printf("%c%d\n", ...)`.
* `getchar_process` is split into the branch taken for a char (`read_char`)
  and the branch taken at `EOF` (`flush`).  `process_bytes` and `encode` run
  the encoder on a byte sequence directly (`process_char` on each byte, then
  the flush); `main_loop` and `main` go through the test `c != EOF` of
  `getchar_process`, and `main_eq_encode` relates the two.
* Notions of the specification that the program has no code for are defined
  next to the model: the LZ78 expansion (`phrase_table`, `expand`), the
  phrase a node spells (`phrase_of`), the in-order traversal (`inorder`), the
  slot at which a search ends (`search_end`, the walk of
  `recursive_search_tree` that remembers where the pointer it follows is
  stored), and the reference encoder with a finite map (`ref_encode`).
* The invariants are `Inv` (counters, links, search paths, phrases) and
  `TreeInv` (no shared nodes, phrase lengths in right subtrees); `run_inv` and
  `run_treeinv` establish them for every input.
-/

namespace Ass2e

/-! ## Constants -/

/-- Return value of `getchar_process` at the end of the input. -/
def ENDPROCESS : Int := 0

/-- Return value of `getchar_process` after a character was processed. -/
def CONTPROCESS : Int := 1

/-- The value comparison outcomes are compared against. -/
def CUTOFF : Int := 0

/-- Comparison outcome "go left". -/
def LESSTHAN : Int := -1

/-- Initial value of the counters. -/
def RESET : Nat := 0

/-- The end-of-file value returned by `getchar`. -/
def EOF : Int := -1

/-! ## Types -/

/-- The `data_t` record: the prefix node, the index and the extension char. -/
structure data_t where
  prefix_node : Option Nat
  index : Nat
  ch : Int
  deriving DecidableEq, Repr

/-- The `node_t` record, with the `data_t` it points to stored in place. -/
structure node_t where
  data : data_t
  left : Option Nat
  rght : Option Nat
  deriving DecidableEq, Repr

/-- The dictionary: `tree_t` (its `root`) together with the node store that
holds every allocated `node_t`. -/
structure tree_t where
  nodes : List node_t
  root : Option Nat
  deriving DecidableEq, Repr

/-- The `index_t` record. -/
structure index_t where
  temp : Nat
  pre : Nat
  count : Nat
  deriving DecidableEq, Repr

/-- Everything `main` owns: the dictionary, the counters, `*temp_node`,
`*temp_ch` (`none` is `NULL`), `ch_count`, and the lines printed so far. -/
structure state_t where
  dict : tree_t
  index : index_t
  temp_node : Option Nat
  temp_ch : Option Int
  ch_count : Nat
  out : List (Nat × Nat)
  deriving DecidableEq, Repr

/-! ## Characters -/

/-- Conversion of an `int` to (signed) `char`, as in `c=getchar()`. -/
def to_char (g : Int) : Int :=
  if g % 256 < 128 then g % 256 else g % 256 - 256

/-- The byte written by `%c` for a `char` argument. -/
def to_uchar (c : Int) : Nat :=
  (c % 256).toNat

/-! ## The tree -/

/-- The function `make_empty_tree`. -/
def make_empty_tree : tree_t :=
  { nodes := [], root := none }

/-- The function `init_index`. -/
def init_index : index_t :=
  { temp := RESET, pre := RESET, count := RESET }

/-- The comparison function `dictcmp`. -/
def dictcmp (key node : data_t) : Int :=
  if key.prefix_node ≠ node.prefix_node then LESSTHAN
  else key.ch - node.ch

/-- The function `recursive_search_tree`, on the node store `h`. -/
def recursive_search_tree (h : List node_t) :
    Nat → Option Nat → data_t → Option (Option Nat)
  | 0, _, _ => none
  | _ + 1, none, _ => some none
  | fuel + 1, some r, key =>
    match h[r]? with
    | none => none
    | some n =>
      let outcome := dictcmp key n.data
      if outcome < CUTOFF then recursive_search_tree h fuel n.left key
      else if outcome > CUTOFF then recursive_search_tree h fuel n.rght key
      else some (some r)

/-- Where `search_branch` and `insert_in_order_branch` start: the root of
the tree for a `NULL` branch, the right child of the branch otherwise. -/
def branch_start (tree : tree_t) (branch : Option Nat) : Option (Option Nat) :=
  match branch with
  | none => some tree.root
  | some b =>
    match tree.nodes[b]? with
    | none => none
    | some bn => some bn.rght

/-- The function `search_branch`. -/
def search_branch (tree : tree_t) (key : data_t) (branch : Option Nat) :
    Option (Option Nat) :=
  match branch_start tree branch with
  | none => none
  | some start =>
    recursive_search_tree tree.nodes (tree.nodes.length + 1) start key

/-- The assignment `a->left = v`. -/
def set_left (h : List node_t) (a : Nat) (v : Option Nat) : List node_t :=
  match h[a]? with
  | none => h
  | some n => h.set a { n with left := v }

/-- The assignment `a->rght = v`. -/
def set_rght (h : List node_t) (a : Nat) (v : Option Nat) : List node_t :=
  match h[a]? with
  | none => h
  | some n => h.set a { n with rght := v }

/-- The function `recursive_insert`: returns the new node store and the
pointer the caller stores back. -/
def recursive_insert :
    Nat → List node_t → Option Nat → Nat → Option (List node_t × Option Nat)
  | 0, _, _, _ => none
  | _ + 1, h, none, node => some (h, some node)
  | fuel + 1, h, some r, node =>
    match h[r]?, h[node]? with
    | some rn, some nn =>
      if dictcmp nn.data rn.data < CUTOFF then
        match recursive_insert fuel h rn.left node with
        | none => none
        | some (h', l) => some (set_left h' r l, some r)
      else
        match recursive_insert fuel h rn.rght node with
        | none => none
        | some (h', l) => some (set_rght h' r l, some r)
    | _, _ => none

/-- The function `insert_in_order_branch`. -/
def insert_in_order_branch (tree : tree_t) (value : data_t)
    (branch : Option Nat) : Option tree_t :=
  let node := tree.nodes.length
  let h := tree.nodes ++ [{ data := value, left := none, rght := none }]
  match branch with
  | none =>
    match recursive_insert (h.length + 1) h tree.root node with
    | none => none
    | some (h', r) => some { nodes := h', root := r }
  | some b =>
    match h[b]? with
    | none => none
    | some bn =>
      match recursive_insert (h.length + 1) h bn.rght node with
      | none => none
      | some (h', r) => some { nodes := set_rght h' b r, root := tree.root }

/-! ## The encoder -/

/-- The record `temp_data` that `process_char` fills in for the char `c`. -/
def temp_data (st : state_t) (c : Int) : data_t :=
  { ch := c, index := st.index.count + 1, prefix_node := st.temp_node }

/-- The function `process_char`. -/
def process_char (st : state_t) : Option state_t :=
  match st.temp_ch with
  | none => none
  | some c =>
    let local_temp_node := st.temp_node
    match search_branch st.dict (temp_data st c) st.temp_node with
    | none => none
    | some none =>
      match insert_in_order_branch st.dict (temp_data st c) local_temp_node with
      | none => none
      | some dict =>
        some { st with
          out := st.out ++ [(to_uchar c, st.index.temp)]
          dict := dict
          index := { temp := RESET, pre := RESET, count := st.index.count + 1 }
          temp_node := none
          temp_ch := none }
    | some (some found) =>
      match st.dict.nodes[found]? with
      | none => none
      | some fn =>
        some { st with
          temp_node := some found
          index := { st.index with pre := st.index.temp, temp := fn.data.index } }

/-- The branch of `getchar_process` taken when `c != EOF`: store the char,
process it, count it. -/
def read_char (st : state_t) (c : Int) : Option state_t :=
  match process_char { st with temp_ch := some c } with
  | none => none
  | some st' => some { st' with ch_count := st'.ch_count + 1 }

/-- The branch of `getchar_process` taken at `EOF`: print the pending char
with the previous index, if there is one. -/
def flush (st : state_t) : state_t :=
  match st.temp_ch with
  | some c =>
    { st with
      out := st.out ++ [(to_uchar c, st.index.pre)]
      temp_ch := none
      index := { st.index with count := st.index.count + 1 } }
  | none => st

/-- The function `getchar_process`, given the value `g` that `getchar`
returned. -/
def getchar_process (st : state_t) (g : Int) : Option (Int × state_t) :=
  let c := to_char g
  if c ≠ EOF then
    match read_char st c with
    | none => none
    | some st' => some (CONTPROCESS, st')
  else
    some (ENDPROCESS, flush st)

/-- The state `main` sets up before its loop. -/
def init_state : state_t :=
  { dict := make_empty_tree
    index := init_index
    temp_node := none
    temp_ch := none
    ch_count := 0
    out := [] }

/-- The loop of `main`, given the values that the successive calls of
`getchar` return before the end of `stdin`; after them `getchar` returns
`EOF`. -/
def main_loop : state_t → List Int → Option state_t
  | st, [] =>
    match getchar_process st EOF with
    | none => none
    | some (_, st') => some st'
  | st, g :: rest =>
    match getchar_process st g with
    | none => none
    | some (r, st') => if r ≠ ENDPROCESS then main_loop st' rest else some st'

/-- The function `main`: the final state for the bytes on `stdin`; `getchar`
returns each byte as an `int` between 0 and 255. -/
def main (stdin : List (Fin 256)) : Option state_t :=
  main_loop init_state (stdin.map (fun b => (b.val : Int)))

/-- The encoder proper: `process_char` on each byte, in input order. -/
def process_bytes : state_t → List (Fin 256) → Option state_t
  | st, [] => some st
  | st, b :: rest =>
    match read_char st (to_char (b.val : Int)) with
    | none => none
    | some st' => process_bytes st' rest

/-- The encoder run on a byte sequence: `process_char` on each byte, then the
end-of-stream flush. -/
def encode (s : List (Fin 256)) : Option state_t :=
  match process_bytes init_state s with
  | none => none
  | some st => some (flush st)

/-! ## Predicates and functions of the specification -/

/-- Store extension: `h'` still holds every node of `h`, with the same data
and with every child pointer that was not `NULL`. -/
def Extends (h h' : List node_t) : Prop :=
  ∀ (a : Nat) (n : node_t), h[a]? = some n →
    ∃ n' : node_t, h'[a]? = some n' ∧ n'.data = n.data ∧
      (∀ l, n.left = some l → n'.left = some l) ∧
      (∀ r, n.rght = some r → n'.rght = some r)

/-- Links of the store point forward and stay inside the store; prefix links
point backward. -/
def LinksOk (h : List node_t) : Prop :=
  ∀ (a : Nat) (n : node_t), h[a]? = some n →
    (∀ l, n.left = some l → a < l ∧ l < h.length) ∧
    (∀ r, n.rght = some r → a < r ∧ r < h.length) ∧
    (∀ p, n.data.prefix_node = some p → p < a)

/-- `Reach h r b`: node `b` lies in the subtree whose root pointer is `r`. -/
inductive Reach (h : List node_t) : Option Nat → Nat → Prop
  | here (a : Nat) : Reach h (some a) a
  | left (a : Nat) (n : node_t) (b : Nat) :
      h[a]? = some n → Reach h n.left b → Reach h (some a) b
  | rght (a : Nat) (n : node_t) (b : Nat) :
      h[a]? = some n → Reach h n.rght b → Reach h (some a) b

/-- The store after `recursive_insert` linked `node` below the pointer `r`:
unchanged when `r` is `NULL`, and otherwise the store with one empty child
slot of a node `p` of the subtree of `r` filled with `node`. -/
def SlotFilled (h h' : List node_t) (r : Option Nat) (node : Nat) : Prop :=
  (r = none ∧ h' = h) ∨
  ∃ (p : Nat) (n : node_t), Reach h r p ∧ h[p]? = some n ∧
    ((n.left = none ∧ h' = set_left h p (some node)) ∨
     (n.rght = none ∧ h' = set_rght h p (some node)))

/-- The tree `d` is the tree `t` with a fresh node holding `value` attached:
as the root of the empty tree, or in one empty child slot of an old node. -/
def Attached (t d : tree_t) (value : data_t) : Prop :=
  (t.root = none ∧
    d = { nodes := t.nodes ++ [{ data := value, left := none, rght := none }],
          root := some t.nodes.length }) ∨
  ∃ (p : Nat) (n : node_t), t.nodes[p]? = some n ∧ d.root = t.root ∧
    ((n.left = none ∧
      d.nodes = set_left (t.nodes ++ [{ data := value, left := none, rght := none }]) p
        (some t.nodes.length)) ∨
     (n.rght = none ∧
      d.nodes = set_rght (t.nodes ++ [{ data := value, left := none, rght := none }]) p
        (some t.nodes.length)))

/-- The value stored in `temp` or `pre` for a pointer: the index of the node,
`RESET` for `NULL`. -/
def index_of (h : List node_t) (p : Option Nat) : Nat :=
  match p with
  | none => RESET
  | some a =>
    match h[a]? with
    | none => RESET
    | some n => n.data.index

/-- The phrase table of the standard LZ78 expansion: phrase 0 is empty, and
the i-th factor `(c, k)` defines phrase i as phrase k followed by `c` (a
back-reference `k` that names no phrase yet is read as the empty phrase). -/
def phrase_table (fs : List (Nat × Nat)) : List (List Nat) :=
  fs.foldl (fun tbl f => tbl ++ [tbl.getD f.2 [] ++ [f.1]]) [[]]

/-- The LZ78 expansion of a factor list: phrase 1, phrase 2, ..., phrase m
one after the other. -/
def expand (fs : List (Nat × Nat)) : List Nat :=
  (phrase_table fs).tail.flatten

/-- The invariant of the encoder state after the bytes `s` were processed. -/
structure Inv (s : List (Fin 256)) (st : state_t) : Prop where
  count_eq : st.index.count = st.dict.nodes.length
  out_len : st.out.length = st.dict.nodes.length
  ch_count_eq : st.ch_count = s.length
  links : LinksOk st.dict.nodes
  root_ok : ∀ r, st.dict.root = some r → r < st.dict.nodes.length
  index_ok : ∀ (a : Nat) (n : node_t), st.dict.nodes[a]? = some n → n.data.index = a + 1
  found : ∀ (a : Nat) (n : node_t), st.dict.nodes[a]? = some n →
    search_branch st.dict n.data n.data.prefix_node = some (some a)
  reach : ∀ a, a < st.dict.nodes.length → Reach st.dict.nodes st.dict.root a
  temp_ok : st.index.temp = index_of st.dict.nodes st.temp_node
  match_none : st.temp_node = none → st.temp_ch = none ∧ st.index.pre = RESET
  match_some : ∀ m, st.temp_node = some m →
    ∃ n : node_t, st.dict.nodes[m]? = some n ∧ st.temp_ch = some n.data.ch ∧
      st.index.pre = index_of st.dict.nodes n.data.prefix_node
  ch_ok : ∀ (a : Nat) (n : node_t), st.dict.nodes[a]? = some n →
    ∃ b : Fin 256, n.data.ch = to_char (b.val : Int)
  factors_ok : ∀ (i : Nat) (f : Nat × Nat), st.out[i]? = some f → f.2 ≤ i
  phrase_ok : ∀ (a : Nat) (n : node_t), st.dict.nodes[a]? = some n →
    (phrase_table st.out).getD n.data.index [] =
      (phrase_table st.out).getD (index_of st.dict.nodes n.data.prefix_node) [] ++
        [to_uchar n.data.ch]
  text_ok : expand st.out ++ (phrase_table st.out).getD st.index.temp [] = s.map Fin.val

/-- The state `process_char` leaves on a hit, with the char counted. -/
def hit_state (st : state_t) (c : Int) (f : Nat) (fn : node_t) : state_t :=
  { st with
    temp_ch := some c
    temp_node := some f
    index := { st.index with pre := st.index.temp, temp := fn.data.index }
    ch_count := st.ch_count + 1 }

/-- The state `process_char` leaves on a miss, with the char counted. -/
def miss_state (st : state_t) (c : Int) (d : tree_t) : state_t :=
  { st with
    out := st.out ++ [(to_uchar c, st.index.temp)]
    dict := d
    index := { temp := RESET, pre := RESET, count := st.index.count + 1 }
    temp_node := none
    temp_ch := none
    ch_count := st.ch_count + 1 }

/-- The number of misses of the encoder on the bytes `t`, from the state `st`:
the steps at which `search_branch` returns `NULL`. -/
def miss_count : state_t → List (Fin 256) → Nat
  | _, [] => 0
  | st, b :: rest =>
    (if search_branch st.dict (temp_data st (to_char (b.val : Int))) st.temp_node = some none
      then 1 else 0) +
    match read_char st (to_char (b.val : Int)) with
    | none => 0
    | some st' => miss_count st' rest

/-- The direction a comparison sends the traversal: to the left child, to the
right child, or nowhere (the node is the one searched for). -/
inductive dir_t
  | left
  | rght
  | stop
  deriving DecidableEq, Repr

/-- The branch `recursive_search_tree` takes on the outcome of
`cmp(key, root->data)`. -/
def search_dir (key node : data_t) : dir_t :=
  if dictcmp key node < CUTOFF then dir_t.left
  else if dictcmp key node > CUTOFF then dir_t.rght
  else dir_t.stop

/-- The branch `recursive_insert` takes on the outcome of
`cmp(node->data, root->data)`. -/
def insert_dir (key node : data_t) : dir_t :=
  if dictcmp key node < CUTOFF then dir_t.left
  else dir_t.rght

/-- The phrase a pointer spells, following `prefix_node` links: empty for
`NULL`, and for a node the phrase of its prefix node followed by the byte of
its char. -/
def phrase_of (h : List node_t) : Nat → Option Nat → Option (List Nat)
  | 0, _ => none
  | _ + 1, none => some []
  | fuel + 1, some a =>
    match h[a]? with
    | none => none
    | some n =>
      match phrase_of h fuel n.data.prefix_node with
      | none => none
      | some w => some (w ++ [to_uchar n.data.ch])

/-- A place that holds a child pointer: `tree->root`, `p->left` or
`p->rght`. -/
inductive slot_t
  | root
  | left (p : Nat)
  | rght (p : Nat)
  deriving DecidableEq, Repr

/-- The walk of `recursive_search_tree`, returning the slot that holds the
`NULL` pointer at which the search ends (`sl` is the slot that holds the
pointer `r`); `none` when the search finds the key, runs out of fuel or
leaves the store. -/
def search_end (h : List node_t) : Nat → Option Nat → data_t → slot_t → Option slot_t
  | 0, _, _, _ => none
  | _ + 1, none, _, sl => some sl
  | fuel + 1, some r, key, _ =>
    match h[r]? with
    | none => none
    | some n =>
      let outcome := dictcmp key n.data
      if outcome < CUTOFF then search_end h fuel n.left key (slot_t.left r)
      else if outcome > CUTOFF then search_end h fuel n.rght key (slot_t.rght r)
      else none

/-- The slot at which `search_branch` ends when it does not find the key. -/
def search_branch_end (tree : tree_t) (key : data_t) (branch : Option Nat) :
    Option slot_t :=
  match branch with
  | none => search_end tree.nodes (tree.nodes.length + 1) tree.root key slot_t.root
  | some b =>
    match tree.nodes[b]? with
    | none => none
    | some bn => search_end tree.nodes (tree.nodes.length + 1) bn.rght key (slot_t.rght b)

/-- The pointer stored in a slot. -/
def get_slot (t : tree_t) : slot_t → Option (Option Nat)
  | slot_t.root => some t.root
  | slot_t.left p => (t.nodes[p]?).map (fun n => n.left)
  | slot_t.rght p => (t.nodes[p]?).map (fun n => n.rght)

/-- The store with a pointer written to a slot of a node. -/
def fill_slot (h : List node_t) (sl : slot_t) (v : Option Nat) : List node_t :=
  match sl with
  | slot_t.root => h
  | slot_t.left p => set_left h p v
  | slot_t.rght p => set_rght h p v

/-- The tree with a pointer written to a slot. -/
def set_slot (t : tree_t) (sl : slot_t) (v : Option Nat) : tree_t :=
  match sl with
  | slot_t.root => { t with root := v }
  | slot_t.left p => { t with nodes := set_left t.nodes p v }
  | slot_t.rght p => { t with nodes := set_rght t.nodes p v }

/-- `OnPath h k r q`: the search for the key `k` that starts at the pointer
`r` visits the node `q`. -/
inductive OnPath (h : List node_t) (k : data_t) : Option Nat → Nat → Prop
  | here (a : Nat) (n : node_t) : h[a]? = some n → OnPath h k (some a) a
  | left (a : Nat) (n : node_t) (q : Nat) :
      h[a]? = some n → dictcmp k n.data < CUTOFF → OnPath h k n.left q →
      OnPath h k (some a) q
  | rght (a : Nat) (n : node_t) (q : Nat) :
      h[a]? = some n → dictcmp k n.data > CUTOFF → OnPath h k n.rght q →
      OnPath h k (some a) q

/-- No two child slots hold the same node: every node has at most one
parent, on one side. -/
def Unshared (h : List node_t) : Prop :=
  ∀ (a1 a2 c : Nat) (n1 n2 : node_t), h[a1]? = some n1 → h[a2]? = some n2 →
    (n1.left = some c → n2.left = some c → a1 = a2) ∧
    (n1.rght = some c → n2.rght = some c → a1 = a2) ∧
    (n1.left = some c → n2.rght = some c → False)

/-- `HasLen h p k`: the phrase the pointer `p` spells, following
`prefix_node` links, has `k` bytes. -/
inductive HasLen (h : List node_t) : Option Nat → Nat → Prop
  | null : HasLen h none 0
  | node (a : Nat) (n : node_t) (k : Nat) :
      h[a]? = some n → HasLen h n.data.prefix_node k → HasLen h (some a) (k + 1)

/-- The shape invariant of the tree: no node has two parents, and the
phrases in the right subtree of a node are at least as long as the phrase of
the node, with the same prefix node when they are as long. -/
structure TreeInv (st : state_t) : Prop where
  unshared : Unshared st.dict.nodes
  len_ok : ∀ (N M : Nat) (nN nM : node_t) (kN kM : Nat),
    st.dict.nodes[N]? = some nN → st.dict.nodes[M]? = some nM →
    Reach st.dict.nodes nN.rght M →
    HasLen st.dict.nodes (some N) kN → HasLen st.dict.nodes (some M) kM →
    kN ≤ kM ∧ (kN = kM → nM.data.prefix_node = nN.data.prefix_node)

/-- The store after the fresh node holding `value` was appended and written
to the slot `sl`. -/
def grown (t : tree_t) (value : data_t) (sl : slot_t) : List node_t :=
  fill_slot (t.nodes ++ [{ data := value, left := none, rght := none }]) sl
    (some t.nodes.length)

/-- The in-order (left, node, right) traversal of the subtree at the pointer
`r`: the addresses of its nodes in traversal order. -/
def inorder (h : List node_t) : Nat → Option Nat → Option (List Nat)
  | 0, _ => none
  | _ + 1, none => some []
  | fuel + 1, some r =>
    match h[r]? with
    | none => none
    | some n =>
      match inorder h fuel n.left, inorder h fuel n.rght with
      | some l, some rr => some (l ++ r :: rr)
      | _, _ => none

/-- `Before h r x y`: in the subtree at the pointer `r`, the node `x` comes
before the node `y` in in-order: at some node of the subtree, `x` is in the left
subtree or the node itself, and `y` is the node itself or in the right
subtree. -/
inductive Before (h : List node_t) : Option Nat → Nat → Nat → Prop
  | left_node (a : Nat) (n : node_t) (x : Nat) :
      h[a]? = some n → Reach h n.left x → Before h (some a) x a
  | node_rght (a : Nat) (n : node_t) (y : Nat) :
      h[a]? = some n → Reach h n.rght y → Before h (some a) a y
  | left_rght (a : Nat) (n : node_t) (x y : Nat) :
      h[a]? = some n → Reach h n.left x → Reach h n.rght y → Before h (some a) x y
  | in_left (a : Nat) (n : node_t) (x y : Nat) :
      h[a]? = some n → Before h n.left x y → Before h (some a) x y
  | in_rght (a : Nat) (n : node_t) (x y : Nat) :
      h[a]? = some n → Before h n.rght x y → Before h (some a) x y

/-- The state of the reference LZ78 encoder of the specification: the
dictionary as a finite map from (parent index, byte) to index, kept as an
association list; the index of the current match (0 for the empty phrase);
the index of the match before its last extension; the last byte, when a match
is in progress; and the factors emitted. -/
structure ref_state where
  dict : List ((Nat × Nat) × Nat)
  cur : Nat
  prev : Nat
  last : Option Nat
  out : List (Nat × Nat)
  deriving DecidableEq, Repr

/-- The reference encoder before the first byte. -/
def ref_init : ref_state :=
  { dict := [], cur := 0, prev := 0, last := none, out := [] }

/-- Looking up a key in the map of the reference encoder. -/
def ref_lookup (d : List ((Nat × Nat) × Nat)) (key : Nat × Nat) : Option Nat :=
  (d.find? (fun e => decide (e.1 = key))).map (fun e => e.2)

/-- One byte of the reference encoder: extend the match if the map has the
extended phrase; otherwise emit (byte, current index), add the extended phrase
under the next index, and start again from the empty phrase. -/
def ref_step (st : ref_state) (b : Nat) : ref_state :=
  match ref_lookup st.dict (st.cur, b) with
  | some i => { st with prev := st.cur, cur := i, last := some b }
  | none =>
    { dict := st.dict ++ [((st.cur, b), st.dict.length + 1)]
      cur := 0
      prev := 0
      last := none
      out := st.out ++ [(b, st.cur)] }

/-- The end of the input for the reference encoder: if a match is in
progress, emit (last byte, index of the match before its last extension). -/
def ref_flush (st : ref_state) : List (Nat × Nat) :=
  match st.last with
  | some b => st.out ++ [(b, st.prev)]
  | none => st.out

/-- The reference LZ78 encoder of the specification. -/
def ref_encode (s : List (Fin 256)) : List (Nat × Nat) :=
  ref_flush (s.foldl (fun st b => ref_step st b.val) ref_init)

/-- The index a pointer stands for when node `a` carries index `a + 1`. -/
def ptr_index (p : Option Nat) : Nat :=
  match p with
  | none => 0
  | some a => a + 1

/-- The entry of the reference map that corresponds to a node. -/
def entry_of (n : node_t) : (Nat × Nat) × Nat :=
  ((ptr_index n.data.prefix_node, to_uchar n.data.ch), n.data.index)

/-- The simulation relation between the tree-based encoder and the reference
encoder. -/
structure Sim (st : state_t) (rs : ref_state) : Prop where
  dict_eq : rs.dict = st.dict.nodes.map entry_of
  cur_eq : rs.cur = st.index.temp
  prev_eq : rs.prev = st.index.pre
  last_eq : rs.last = st.temp_ch.map to_uchar
  out_eq : rs.out = st.out

/-! ## Lemmas -/

theorem to_uchar_to_char (b : Fin 256) : to_uchar (to_char (b.val : Int)) = b.val := by
  unfold to_uchar to_char
  split <;> omega

theorem to_char_range (g : Int) : -128 ≤ to_char g ∧ to_char g ≤ 127 := by
  unfold to_char
  split <;> omega

theorem to_char_inj (b b' : Fin 256) (h : to_char (b.val : Int) = to_char (b'.val : Int)) :
    b = b' := by
  apply Fin.ext
  have h1 := to_uchar_to_char b
  have h2 := to_uchar_to_char b'
  rw [h] at h1
  omega

theorem dictcmp_eq_zero (k n : data_t) :
    (¬ dictcmp k n < CUTOFF ∧ ¬ dictcmp k n > CUTOFF) ↔
      (k.prefix_node = n.prefix_node ∧ k.ch = n.ch) := by
  unfold dictcmp CUTOFF LESSTHAN
  by_cases hp : k.prefix_node = n.prefix_node
  · simp only [hp, ne_eq, not_true_eq_false, if_false]
    constructor
    · intro h; exact ⟨trivial, by omega⟩
    · intro h; omega
  · simp only [ne_eq, hp, not_false_eq_true, if_true]
    constructor
    · intro h; omega
    · intro h; exact absurd h.1 (by simp)

theorem dictcmp_congr (k k' n : data_t) (hp : k.prefix_node = k'.prefix_node)
    (hc : k.ch = k'.ch) : dictcmp k n = dictcmp k' n := by
  unfold dictcmp
  rw [hp, hc]

theorem search_congr (h : List node_t) (k k' : data_t)
    (hp : k.prefix_node = k'.prefix_node) (hc : k.ch = k'.ch) :
    ∀ (fuel : Nat) (r : Option Nat),
      recursive_search_tree h fuel r k = recursive_search_tree h fuel r k' := by
  intro fuel
  induction fuel with
  | zero => intro r; rfl
  | succ f ih =>
    intro r
    cases r with
    | none => rfl
    | some x =>
      simp only [recursive_search_tree]
      cases hx : h[x]? with
      | none => rfl
      | some n =>
        simp only [dictcmp_congr k k' n.data hp hc, ih]

theorem search_fuel_succ (h : List node_t) (k : data_t) :
    ∀ (fuel : Nat) (r : Option Nat) (res : Option Nat),
      recursive_search_tree h fuel r k = some res →
      recursive_search_tree h (fuel + 1) r k = some res := by
  intro fuel
  induction fuel with
  | zero => intro r res hs; simp [recursive_search_tree] at hs
  | succ f ih =>
    intro r res hs
    cases r with
    | none => simpa [recursive_search_tree] using hs
    | some x =>
      rw [recursive_search_tree] at hs ⊢
      cases hx : h[x]? with
      | none => simp [hx] at hs
      | some n =>
        simp only [hx] at hs ⊢
        split
        · rename_i hlt; rw [if_pos hlt] at hs; exact ih _ _ hs
        · rename_i hlt
          rw [if_neg hlt] at hs
          split
          · rename_i hgt; rw [if_pos hgt] at hs; exact ih _ _ hs
          · rename_i hgt; rw [if_neg hgt] at hs; exact hs

theorem search_fuel_mono (h : List node_t) (k : data_t) (fuel fuel' : Nat)
    (r : Option Nat) (res : Option Nat) (hle : fuel ≤ fuel')
    (hs : recursive_search_tree h fuel r k = some res) :
    recursive_search_tree h fuel' r k = some res := by
  induction hle with
  | refl => exact hs
  | step _ ih => exact search_fuel_succ h k _ r res ih

theorem search_node (h : List node_t) (f x : Nat) (n : node_t) (k : data_t)
    (hx : h[x]? = some n) :
    recursive_search_tree h (f + 1) (some x) k =
      if dictcmp k n.data < CUTOFF then recursive_search_tree h f n.left k
      else if dictcmp k n.data > CUTOFF then recursive_search_tree h f n.rght k
      else some (some x) := by
  rw [recursive_search_tree]
  simp only [hx]

theorem search_dangling (h : List node_t) (f x : Nat) (k : data_t)
    (hx : h[x]? = none) :
    recursive_search_tree h (f + 1) (some x) k = none := by
  rw [recursive_search_tree]
  simp only [hx]

theorem search_null (h : List node_t) (f : Nat) (k : data_t) :
    recursive_search_tree h (f + 1) none k = some none := by
  rw [recursive_search_tree]

theorem search_zero (h : List node_t) (r : Option Nat) (k : data_t) :
    recursive_search_tree h 0 r k = none := by
  rw [recursive_search_tree]

/-- A search that ends with a result never left the store. -/
theorem search_append (h ext : List node_t) (k : data_t) :
    ∀ (fuel : Nat) (r : Option Nat) (res : Option Nat),
      recursive_search_tree h fuel r k = some res →
      recursive_search_tree (h ++ ext) fuel r k = some res := by
  intro fuel
  induction fuel with
  | zero => intro r res hs; simp [search_zero] at hs
  | succ f ih =>
    intro r res hs
    cases r with
    | none => simpa [search_null] using hs
    | some x =>
      cases hx : h[x]? with
      | none => simp [search_dangling h f x k hx] at hs
      | some n =>
        have hx' : (h ++ ext)[x]? = some n := by
          have hlt : x < h.length := by
            by_contra hge
            have := List.getElem?_eq_none (l := h) (n := x) (by omega)
            rw [this] at hx
            cases hx
          rw [List.getElem?_append_left hlt, hx]
        rw [search_node h f x n k hx] at hs
        rw [search_node (h ++ ext) f x n k hx']
        split
        · rename_i hlt; rw [if_pos hlt] at hs; exact ih _ _ hs
        · rename_i hlt
          rw [if_neg hlt] at hs
          split
          · rename_i hgt; rw [if_pos hgt] at hs; exact ih _ _ hs
          · rename_i hgt; rw [if_neg hgt] at hs; exact hs

/-- A successful search stays successful, with the same node, when the store
is extended. -/
theorem search_mono (h h' : List node_t) (k : data_t) (hext : Extends h h') :
    ∀ (fuel : Nat) (r : Option Nat) (a : Nat),
      recursive_search_tree h fuel r k = some (some a) →
      recursive_search_tree h' fuel r k = some (some a) := by
  intro fuel
  induction fuel with
  | zero => intro r a hs; simp [search_zero] at hs
  | succ f ih =>
    intro r a hs
    cases r with
    | none => simp [search_null] at hs
    | some x =>
      cases hx : h[x]? with
      | none => simp [search_dangling h f x k hx] at hs
      | some n =>
        obtain ⟨n', hx', hd, hl, hr⟩ := hext x n hx
        rw [search_node h f x n k hx] at hs
        rw [search_node h' f x n' k hx', hd]
        split
        · rename_i hlt
          rw [if_pos hlt] at hs
          cases hnl : n.left with
          | none =>
            rw [hnl] at hs
            cases f with
            | zero => simp [search_zero] at hs
            | succ g => simp [search_null] at hs
          | some l =>
            rw [hl l hnl]
            rw [hnl] at hs
            exact ih _ _ hs
        · rename_i hlt
          rw [if_neg hlt] at hs
          split
          · rename_i hgt
            rw [if_pos hgt] at hs
            cases hnr : n.rght with
            | none =>
              rw [hnr] at hs
              cases f with
              | zero => simp [search_zero] at hs
              | succ g => simp [search_null] at hs
            | some l =>
              rw [hr l hnr]
              rw [hnr] at hs
              exact ih _ _ hs
          · rename_i hgt; rw [if_neg hgt] at hs; exact hs

/-- A node returned by a search carries the prefix and the char of the key. -/
theorem search_found (h : List node_t) (k : data_t) :
    ∀ (fuel : Nat) (r : Option Nat) (a : Nat),
      recursive_search_tree h fuel r k = some (some a) →
      ∃ n : node_t, h[a]? = some n ∧ n.data.prefix_node = k.prefix_node ∧
        n.data.ch = k.ch := by
  intro fuel
  induction fuel with
  | zero => intro r a hs; simp [search_zero] at hs
  | succ f ih =>
    intro r a hs
    cases r with
    | none => simp [search_null] at hs
    | some x =>
      cases hx : h[x]? with
      | none => simp [search_dangling h f x k hx] at hs
      | some n =>
        rw [search_node h f x n k hx] at hs
        by_cases hlt : dictcmp k n.data < CUTOFF
        · rw [if_pos hlt] at hs; exact ih _ _ hs
        · rw [if_neg hlt] at hs
          by_cases hgt : dictcmp k n.data > CUTOFF
          · rw [if_pos hgt] at hs; exact ih _ _ hs
          · rw [if_neg hgt] at hs
            have hxa : x = a := by simpa using hs
            subst hxa
            have := (dictcmp_eq_zero k n.data).mp ⟨hlt, hgt⟩
            exact ⟨n, hx, this.1.symm, this.2.symm⟩

/-- With forward links the search ends within the fuel the callers pass. -/
theorem search_total (h : List node_t) (k : data_t) (hl : LinksOk h) :
    ∀ (fuel : Nat) (r : Option Nat),
      (∀ x, r = some x → x < h.length) →
      h.length + 1 ≤ fuel + r.getD h.length →
      ∃ res, recursive_search_tree h fuel r k = some res := by
  intro fuel
  induction fuel with
  | zero =>
    intro r hr hf
    cases r with
    | none => simp at hf
    | some x => have := hr x rfl; simp at hf; omega
  | succ f ih =>
    intro r hr hf
    cases r with
    | none => exact ⟨none, search_null h f k⟩
    | some x =>
      have hxl := hr x rfl
      have hx : h[x]? = some h[x] := List.getElem?_eq_getElem hxl
      obtain ⟨hleft, hrght, _⟩ := hl x h[x] hx
      rw [search_node h f x h[x] k hx]
      simp only [Option.getD_some] at hf
      split
      · apply ih
        · intro y hy; exact (hleft y hy).2
        · cases hnl : h[x].left with
          | none => simp; omega
          | some l => have := hleft l hnl; simp; omega
      · split
        · apply ih
          · intro y hy; exact (hrght y hy).2
          · cases hnr : h[x].rght with
            | none => simp; omega
            | some l => have := hrght l hnr; simp; omega
        · exact ⟨_, rfl⟩

theorem get_set_left (h : List node_t) (a i : Nat) (v : Option Nat) :
    (set_left h a v)[i]? =
      if i = a then (h[a]?).map (fun n => { n with left := v }) else h[i]? := by
  unfold set_left
  cases ha : h[a]? with
  | none =>
    simp only [Option.map_none']
    split
    · rename_i hia; rw [hia, ha]
    · rfl
  | some n =>
    simp only [Option.map_some']
    have hlt : a < h.length := by
      by_contra hge
      rw [List.getElem?_eq_none (by omega)] at ha
      cases ha
    rw [List.getElem?_set]
    by_cases hia : i = a
    · subst hia; simp [hlt]
    · have : ¬ a = i := fun e => hia e.symm
      simp [this, hia]

theorem get_set_rght (h : List node_t) (a i : Nat) (v : Option Nat) :
    (set_rght h a v)[i]? =
      if i = a then (h[a]?).map (fun n => { n with rght := v }) else h[i]? := by
  unfold set_rght
  cases ha : h[a]? with
  | none =>
    simp only [Option.map_none']
    split
    · rename_i hia; rw [hia, ha]
    · rfl
  | some n =>
    simp only [Option.map_some']
    have hlt : a < h.length := by
      by_contra hge
      rw [List.getElem?_eq_none (by omega)] at ha
      cases ha
    rw [List.getElem?_set]
    by_cases hia : i = a
    · subst hia; simp [hlt]
    · have : ¬ a = i := fun e => hia e.symm
      simp [this, hia]

theorem length_set_left (h : List node_t) (a : Nat) (v : Option Nat) :
    (set_left h a v).length = h.length := by
  unfold set_left
  cases h[a]? <;> simp

theorem length_set_rght (h : List node_t) (a : Nat) (v : Option Nat) :
    (set_rght h a v).length = h.length := by
  unfold set_rght
  cases h[a]? <;> simp

theorem set_left_same (h : List node_t) (a : Nat) (n : node_t) (v : Option Nat)
    (ha : h[a]? = some n) (hv : n.left = v) : set_left h a v = h := by
  apply List.ext_getElem?
  intro i
  rw [get_set_left]
  split
  · rename_i hia
    subst hia
    rw [ha]
    simp only [Option.map_some']
    congr 1
    cases n
    simp_all
  · rfl

theorem set_rght_same (h : List node_t) (a : Nat) (n : node_t) (v : Option Nat)
    (ha : h[a]? = some n) (hv : n.rght = v) : set_rght h a v = h := by
  apply List.ext_getElem?
  intro i
  rw [get_set_rght]
  split
  · rename_i hia
    subst hia
    rw [ha]
    simp only [Option.map_some']
    congr 1
    cases n
    simp_all
  · rfl

/-- Filling an empty left slot extends the store. -/
theorem extends_set_left (h : List node_t) (p : Nat) (n : node_t) (v : Option Nat)
    (hp : h[p]? = some n) (hn : n.left = none) : Extends h (set_left h p v) := by
  intro a m ha
  rw [get_set_left]
  by_cases hap : a = p
  · subst hap
    rw [hp] at ha
    cases ha
    refine ⟨{ n with left := v }, by simp [hp], rfl, ?_, ?_⟩
    · intro l hl; rw [hn] at hl; cases hl
    · intro r hr; exact hr
  · exact ⟨m, by simp [hap, ha], rfl, fun _ e => e, fun _ e => e⟩

/-- Filling an empty right slot extends the store. -/
theorem extends_set_rght (h : List node_t) (p : Nat) (n : node_t) (v : Option Nat)
    (hp : h[p]? = some n) (hn : n.rght = none) : Extends h (set_rght h p v) := by
  intro a m ha
  rw [get_set_rght]
  by_cases hap : a = p
  · subst hap
    rw [hp] at ha
    cases ha
    refine ⟨{ n with rght := v }, by simp [hp], rfl, ?_, ?_⟩
    · intro l hl; exact hl
    · intro r hr; rw [hn] at hr; cases hr
  · exact ⟨m, by simp [hap, ha], rfl, fun _ e => e, fun _ e => e⟩

theorem extends_refl (h : List node_t) : Extends h h :=
  fun _ n ha => ⟨n, ha, rfl, fun _ e => e, fun _ e => e⟩

theorem extends_trans (h1 h2 h3 : List node_t) (h12 : Extends h1 h2)
    (h23 : Extends h2 h3) : Extends h1 h3 := by
  intro a n ha
  obtain ⟨n2, ha2, hd2, hl2, hr2⟩ := h12 a n ha
  obtain ⟨n3, ha3, hd3, hl3, hr3⟩ := h23 a n2 ha2
  exact ⟨n3, ha3, hd3.trans hd2, fun l e => hl3 l (hl2 l e), fun r e => hr3 r (hr2 r e)⟩

theorem extends_append (h ext : List node_t) : Extends h (h ++ ext) := by
  intro a n ha
  have hlt : a < h.length := by
    by_contra hge
    rw [List.getElem?_eq_none (by omega)] at ha
    cases ha
  exact ⟨n, by rw [List.getElem?_append_left hlt, ha], rfl, fun _ e => e, fun _ e => e⟩

theorem slotFilled_extends (h h' : List node_t) (r : Option Nat) (node : Nat)
    (hs : SlotFilled h h' r node) : Extends h h' := by
  rcases hs with ⟨_, rfl⟩ | ⟨p, n, _, hp, ⟨hn, rfl⟩ | ⟨hn, rfl⟩⟩
  · exact extends_refl _
  · exact extends_set_left h p n _ hp hn
  · exact extends_set_rght h p n _ hp hn

theorem slotFilled_length (h h' : List node_t) (r : Option Nat) (node : Nat)
    (hs : SlotFilled h h' r node) : h'.length = h.length := by
  rcases hs with ⟨_, rfl⟩ | ⟨p, n, _, hp, ⟨hn, rfl⟩ | ⟨hn, rfl⟩⟩
  · rfl
  · exact length_set_left _ _ _
  · exact length_set_rght _ _ _

theorem dictcmp_self (k : data_t) : dictcmp k k = 0 := by
  unfold dictcmp
  simp

theorem insert_null (f : Nat) (h : List node_t) (node : Nat) :
    recursive_insert (f + 1) h none node = some (h, some node) := by
  rw [recursive_insert]

theorem insert_zero (h : List node_t) (r : Option Nat) (node : Nat) :
    recursive_insert 0 h r node = none := by
  rw [recursive_insert]

theorem insert_node (f : Nat) (h : List node_t) (x node : Nat) (rn nn : node_t)
    (hx : h[x]? = some rn) (hn : h[node]? = some nn) :
    recursive_insert (f + 1) h (some x) node =
      if dictcmp nn.data rn.data < CUTOFF then
        match recursive_insert f h rn.left node with
        | none => none
        | some (h', l) => some (set_left h' x l, some x)
      else
        match recursive_insert f h rn.rght node with
        | none => none
        | some (h', l) => some (set_rght h' x l, some x) := by
  rw [recursive_insert]
  simp only [hx, hn]

theorem reach_none (h : List node_t) (p : Nat) : ¬ Reach h none p := by
  intro hr
  cases hr

/-- After a search that ended at an empty slot, `recursive_insert` with the
same key walks the same way, fills that slot, and the search finds the new
node from then on. -/
theorem insert_spec (k : data_t) (node : Nat) :
    ∀ (fuel : Nat) (h : List node_t) (r : Option Nat) (nn : node_t),
      h[node]? = some nn → nn.data = k →
      recursive_search_tree h fuel r k = some none →
      ∃ h', recursive_insert fuel h r node = some (h', some (r.getD node)) ∧
        SlotFilled h h' r node ∧
        recursive_search_tree h' fuel (some (r.getD node)) k = some (some node) := by
  intro fuel
  induction fuel with
  | zero => intro h r nn _ _ hs; simp [search_zero] at hs
  | succ f ih =>
    intro h r nn hn hk hs
    cases r with
    | none =>
      refine ⟨h, insert_null f h node, Or.inl ⟨rfl, rfl⟩, ?_⟩
      simp only [Option.getD_none]
      rw [search_node h f node nn k hn, hk, dictcmp_self]
      simp [CUTOFF]
    | some x =>
      simp only [Option.getD_some]
      cases hx : h[x]? with
      | none => simp [search_dangling h f x k hx] at hs
      | some rn =>
        rw [search_node h f x rn k hx] at hs
        rw [insert_node f h x node rn nn hx hn, hk]
        by_cases hlt : dictcmp k rn.data < CUTOFF
        · rw [if_pos hlt] at hs
          rw [if_pos hlt]
          obtain ⟨h1, hins, hslot, hfind⟩ := ih h rn.left nn hn hk hs
          rw [hins]
          have hext := slotFilled_extends h h1 rn.left node hslot
          obtain ⟨n1, hx1, hd1, hl1, _⟩ := hext x rn hx
          cases hleft : rn.left with
          | none =>
            rw [hleft] at hslot hfind
            simp only [Option.getD_none] at hfind ⊢
            have h1eq : h1 = h := by
              rcases hslot with ⟨_, e⟩ | ⟨p, _, hr, _⟩
              · exact e
              · exact absurd hr (reach_none h p)
            subst h1eq
            refine ⟨set_left h1 x (some node), rfl, Or.inr ⟨x, rn, Reach.here x, hx,
              Or.inl ⟨hleft, rfl⟩⟩, ?_⟩
            have hx2 : (set_left h1 x (some node))[x]? =
                some { rn with left := some node } := by
              rw [get_set_left]; simp [hx]
            rw [search_node _ f x _ k hx2]
            simp only [if_pos hlt]
            exact search_mono h1 _ k (extends_set_left h1 x rn _ hx hleft) f _ node hfind
          | some y =>
            rw [hleft] at hslot hfind
            simp only [Option.getD_some] at hfind ⊢
            have hsame : set_left h1 x (some y) = h1 :=
              set_left_same h1 x n1 (some y) hx1 (hl1 y hleft)
            rw [hsame]
            refine ⟨h1, rfl, ?_, ?_⟩
            · rcases hslot with ⟨e, _⟩ | ⟨p, n, hr, hp, hfill⟩
              · cases e
              · exact Or.inr ⟨p, n, Reach.left x rn p hx (by rw [hleft]; exact hr), hp, hfill⟩
            · rw [search_node h1 f x n1 k hx1, hd1, if_pos hlt, hl1 y hleft]
              exact hfind
        · rw [if_neg hlt] at hs
          rw [if_neg hlt]
          by_cases hgt : dictcmp k rn.data > CUTOFF
          · rw [if_pos hgt] at hs
            obtain ⟨h1, hins, hslot, hfind⟩ := ih h rn.rght nn hn hk hs
            rw [hins]
            have hext := slotFilled_extends h h1 rn.rght node hslot
            obtain ⟨n1, hx1, hd1, _, hr1⟩ := hext x rn hx
            cases hrght : rn.rght with
            | none =>
              rw [hrght] at hslot hfind
              simp only [Option.getD_none] at hfind ⊢
              have h1eq : h1 = h := by
                rcases hslot with ⟨_, e⟩ | ⟨p, _, hr, _⟩
                · exact e
                · exact absurd hr (reach_none h p)
              subst h1eq
              refine ⟨set_rght h1 x (some node), rfl, Or.inr ⟨x, rn, Reach.here x, hx,
                Or.inr ⟨hrght, rfl⟩⟩, ?_⟩
              have hx2 : (set_rght h1 x (some node))[x]? =
                  some { rn with rght := some node } := by
                rw [get_set_rght]; simp [hx]
              rw [search_node _ f x _ k hx2]
              simp only [if_neg hlt, if_pos hgt]
              exact search_mono h1 _ k (extends_set_rght h1 x rn _ hx hrght) f _ node hfind
            | some y =>
              rw [hrght] at hslot hfind
              simp only [Option.getD_some] at hfind ⊢
              have hsame : set_rght h1 x (some y) = h1 :=
                set_rght_same h1 x n1 (some y) hx1 (hr1 y hrght)
              rw [hsame]
              refine ⟨h1, rfl, ?_, ?_⟩
              · rcases hslot with ⟨e, _⟩ | ⟨p, n, hr, hp, hfill⟩
                · cases e
                · exact Or.inr ⟨p, n, Reach.rght x rn p hx (by rw [hrght]; exact hr), hp, hfill⟩
              · rw [search_node h1 f x n1 k hx1, hd1, if_neg hlt, if_pos hgt, hr1 y hrght]
                exact hfind
          · rw [if_neg hgt] at hs
            cases hs

theorem getElem?_lt {α : Type} (l : List α) (a : Nat) (x : α) (h : l[a]? = some x) :
    a < l.length := by
  by_contra hge
  rw [List.getElem?_eq_none (by omega)] at h
  cases h

/-- Everything in a subtree lies below a bound that the root and all links
below the bound respect. -/
theorem reach_lt (h : List node_t) (B : Nat)
    (hb : ∀ (a : Nat) (n : node_t), h[a]? = some n → a < B →
      (∀ l, n.left = some l → l < B) ∧ (∀ r, n.rght = some r → r < B))
    (r : Option Nat) (p : Nat) (hr : Reach h r p) :
    (∀ x, r = some x → x < B) → p < B := by
  induction hr with
  | here a => intro hx; exact hx a rfl
  | left a n b ha _ ih =>
    intro hx
    exact ih (fun x e => (hb a n ha (hx a rfl)).1 x e)
  | rght a n b ha _ ih =>
    intro hx
    exact ih (fun x e => (hb a n ha (hx a rfl)).2 x e)

theorem links_bound_append (h : List node_t) (hl : LinksOk h) (ext : List node_t) :
    ∀ (a : Nat) (n : node_t), (h ++ ext)[a]? = some n → a < h.length →
      (∀ l, n.left = some l → l < h.length) ∧ (∀ r, n.rght = some r → r < h.length) := by
  intro a n ha hlt
  rw [List.getElem?_append_left hlt] at ha
  obtain ⟨h1, h2, _⟩ := hl a n ha
  exact ⟨fun l e => (h1 l e).2, fun r e => (h2 r e).2⟩

theorem search_branch_null (t : tree_t) (k : data_t) :
    search_branch t k none =
      recursive_search_tree t.nodes (t.nodes.length + 1) t.root k := by
  simp [search_branch, branch_start]

theorem search_branch_node (t : tree_t) (k : data_t) (b : Nat) (bn : node_t)
    (hb : t.nodes[b]? = some bn) :
    search_branch t k (some b) =
      recursive_search_tree t.nodes (t.nodes.length + 1) bn.rght k := by
  simp [search_branch, branch_start, hb]

/-- After a failed `search_branch`, `insert_in_order_branch` with the same key
and branch succeeds, attaches the new node in one empty slot, and the same
`search_branch` finds the new node afterwards. -/
theorem insert_in_order_branch_spec (t : tree_t) (value : data_t) (branch : Option Nat)
    (hl : LinksOk t.nodes) (hroot : ∀ r, t.root = some r → r < t.nodes.length)
    (hs : search_branch t value branch = some none) :
    ∃ d, insert_in_order_branch t value branch = some d ∧
      Attached t d value ∧
      search_branch d value branch = some (some t.nodes.length) := by
  have hN : (t.nodes ++ [({ data := value, left := none, rght := none } : node_t)])[
      t.nodes.length]? = some { data := value, left := none, rght := none } :=
    List.getElem?_concat_length _ _
  have hlen : (t.nodes ++ [({ data := value, left := none, rght := none } : node_t)]).length
      = t.nodes.length + 1 := by simp
  have hbound := links_bound_append t.nodes hl
    [({ data := value, left := none, rght := none } : node_t)]
  cases branch with
  | none =>
    rw [search_branch_null] at hs
    have hs1 := search_append t.nodes [{ data := value, left := none, rght := none }]
      value _ _ _ hs
    have hs2 := search_fuel_mono _ value _ (t.nodes.length + 1 + 1) _ _ (by omega) hs1
    obtain ⟨h', hins, hslot, hfind⟩ :=
      insert_spec value t.nodes.length _ _ t.root _ hN rfl hs2
    have hlen' := slotFilled_length _ _ _ _ hslot
    refine ⟨{ nodes := h', root := some (t.root.getD t.nodes.length) }, ?_, ?_, ?_⟩
    · simp only [insert_in_order_branch, hlen, hins]
    · rcases hslot with ⟨hr, e⟩ | ⟨p, n, hr, hp, hfill⟩
      · left
        refine ⟨hr, ?_⟩
        rw [e, hr]
        rfl
      · right
        have hplt : p < t.nodes.length := reach_lt _ _ hbound _ _ hr hroot
        rw [List.getElem?_append_left hplt] at hp
        refine ⟨p, n, hp, ?_, hfill⟩
        cases hr0 : t.root with
        | none => rw [hr0] at hr; exact absurd hr (reach_none _ p)
        | some x => rfl
    · rw [search_branch_null]
      simp only [hlen', hlen]
      exact hfind
  | some b =>
    cases hb : t.nodes[b]? with
    | none => simp [search_branch, branch_start, hb] at hs
    | some bn =>
      rw [search_branch_node t value b bn hb] at hs
      have hblt := getElem?_lt _ _ _ hb
      have hb1 : (t.nodes ++ [({ data := value, left := none, rght := none } : node_t)])[b]?
          = some bn := by rw [List.getElem?_append_left hblt, hb]
      have hs1 := search_append t.nodes [{ data := value, left := none, rght := none }]
        value _ _ _ hs
      have hs2 := search_fuel_mono _ value _ (t.nodes.length + 1 + 1) _ _ (by omega) hs1
      obtain ⟨h', hins, hslot, hfind⟩ :=
        insert_spec value t.nodes.length _ _ bn.rght _ hN rfl hs2
      have hlen' := slotFilled_length _ _ _ _ hslot
      have hext := slotFilled_extends _ _ _ _ hslot
      obtain ⟨n1, hb2, hd1, _, hr1⟩ := hext b bn hb1
      refine ⟨{ nodes := set_rght h' b (some (bn.rght.getD t.nodes.length)),
                root := t.root }, ?_, ?_, ?_⟩
      · simp only [insert_in_order_branch, hlen, hb1, hins]
      · right
        cases hrght : bn.rght with
        | none =>
          rw [hrght] at hslot
          have e : h' = t.nodes ++ [({ data := value, left := none, rght := none } : node_t)] := by
            rcases hslot with ⟨_, e⟩ | ⟨p, _, hr, _⟩
            · exact e
            · exact absurd hr (reach_none _ p)
          exact ⟨b, bn, hb, rfl, Or.inr ⟨hrght, by simp [e]⟩⟩
        | some y =>
          rw [hrght] at hslot
          rcases hslot with ⟨e, _⟩ | ⟨p, n, hr, hp, hfill⟩
          · cases e
          · have hy : y < t.nodes.length := ((hl b bn hb).2.1 y hrght).2
            have hplt : p < t.nodes.length :=
              reach_lt _ _ hbound _ _ hr (fun x e => by cases e; exact hy)
            rw [List.getElem?_append_left hplt] at hp
            refine ⟨p, n, hp, rfl, ?_⟩
            have hsame : set_rght h' b (some y) = h' :=
              set_rght_same h' b n1 (some y) hb2 (hr1 y hrght)
            simpa [hsame] using hfill
      · cases hrght : bn.rght with
        | none =>
          rw [hrght] at hslot hfind
          have e : h' = t.nodes ++ [({ data := value, left := none, rght := none } : node_t)] := by
            rcases hslot with ⟨_, e⟩ | ⟨p, _, hr, _⟩
            · exact e
            · exact absurd hr (reach_none _ p)
          subst e
          have hb3 : (set_rght (t.nodes ++ [({ data := value, left := none, rght := none } :
              node_t)]) b (some t.nodes.length))[b]? =
              some { bn with rght := some t.nodes.length } := by
            rw [get_set_rght]; simp [hb1]
          rw [search_branch_node _ value b _ (by simpa using hb3)]
          simp only [length_set_rght, hlen, Option.getD_none]
          exact search_mono _ _ value (extends_set_rght _ b bn _ hb1 hrght) _ _ _
            (by simpa using hfind)
        | some y =>
          rw [hrght] at hfind
          have hsame : set_rght h' b (some y) = h' :=
            set_rght_same h' b n1 (some y) hb2 (hr1 y hrght)
          simp only [Option.getD_some, hsame]
          rw [search_branch_node _ value b n1 hb2, hr1 y hrght]
          simp only [hlen', hlen]
          exact hfind

theorem phrase_table_concat (fs : List (Nat × Nat)) (f : Nat × Nat) :
    phrase_table (fs ++ [f]) =
      phrase_table fs ++ [(phrase_table fs).getD f.2 [] ++ [f.1]] := by
  simp [phrase_table, List.foldl_append]

theorem phrase_table_length (fs : List (Nat × Nat)) :
    (phrase_table fs).length = fs.length + 1 := by
  induction fs using List.reverseRecOn with
  | nil => rfl
  | append_singleton l a ih =>
    rw [phrase_table_concat]
    simp [ih]

theorem phrase_table_zero (fs : List (Nat × Nat)) :
    (phrase_table fs).getD 0 [] = [] := by
  induction fs using List.reverseRecOn with
  | nil => rfl
  | append_singleton l a ih =>
    rw [phrase_table_concat]
    have hl := phrase_table_length l
    simp only [List.getD_eq_getElem?_getD] at ih ⊢
    rw [List.getElem?_append_left (by omega)]
    exact ih

theorem phrase_table_old (fs : List (Nat × Nat)) (f : Nat × Nat) (i : Nat)
    (hi : i ≤ fs.length) :
    (phrase_table (fs ++ [f])).getD i [] = (phrase_table fs).getD i [] := by
  rw [phrase_table_concat]
  have hl := phrase_table_length fs
  simp only [List.getD_eq_getElem?_getD]
  rw [List.getElem?_append_left (by omega)]

theorem phrase_table_new (fs : List (Nat × Nat)) (f : Nat × Nat) :
    (phrase_table (fs ++ [f])).getD (fs.length + 1) [] =
      (phrase_table fs).getD f.2 [] ++ [f.1] := by
  rw [phrase_table_concat]
  have hl := phrase_table_length fs
  simp only [List.getD_eq_getElem?_getD]
  rw [← hl, List.getElem?_concat_length]
  rfl

/-- The expansion on the factors of "abab": `a0`, `b0`, `b1`. -/
theorem expand_abab : expand [(97, 0), (98, 0), (98, 1)] = [97, 98, 97, 98] := by
  decide

theorem expand_concat (fs : List (Nat × Nat)) (f : Nat × Nat) :
    expand (fs ++ [f]) = expand fs ++ ((phrase_table fs).getD f.2 [] ++ [f.1]) := by
  unfold expand
  rw [phrase_table_concat]
  have hne : phrase_table fs ≠ [] := by
    intro e
    have := phrase_table_length fs
    rw [e] at this
    simp at this
  rw [List.tail_append_of_ne_nil hne, List.flatten_concat]

theorem attached_length (t d : tree_t) (v : data_t) (h : Attached t d v) :
    d.nodes.length = t.nodes.length + 1 := by
  rcases h with ⟨_, e⟩ | ⟨p, n, _, _, ⟨_, e⟩ | ⟨_, e⟩⟩
  · rw [e]; simp
  · rw [e, length_set_left]; simp
  · rw [e, length_set_rght]; simp

theorem attached_root_keep (t d : tree_t) (v : data_t) (h : Attached t d v) (r : Nat)
    (hr : t.root = some r) : d.root = some r := by
  rcases h with ⟨h0, _⟩ | ⟨p, n, _, hroot, _⟩
  · rw [h0] at hr; cases hr
  · rw [hroot, hr]

theorem attached_root_ok (t d : tree_t) (v : data_t) (h : Attached t d v)
    (hroot : ∀ r, t.root = some r → r < t.nodes.length) :
    ∀ r, d.root = some r → r < d.nodes.length := by
  intro r hr
  rw [attached_length t d v h]
  rcases h with ⟨_, e⟩ | ⟨p, n, _, hkeep, _⟩
  · rw [e] at hr
    simp at hr
    omega
  · rw [hkeep] at hr
    have := hroot r hr
    omega

/-- The fresh node sits at the end of the store, with both children empty. -/
theorem attached_new (t d : tree_t) (v : data_t) (h : Attached t d v) :
    d.nodes[t.nodes.length]? = some { data := v, left := none, rght := none } := by
  rcases h with ⟨_, e⟩ | ⟨p, n, hp, _, ⟨_, e⟩ | ⟨_, e⟩⟩
  · rw [e]; exact List.getElem?_concat_length _ _
  · have hplt := getElem?_lt _ _ _ hp
    rw [e, get_set_left, if_neg (by omega)]
    exact List.getElem?_concat_length _ _
  · have hplt := getElem?_lt _ _ _ hp
    rw [e, get_set_rght, if_neg (by omega)]
    exact List.getElem?_concat_length _ _

/-- Every old node keeps its data and its children; at most an empty child
slot now holds the fresh node. -/
theorem attached_old (t d : tree_t) (v : data_t) (h : Attached t d v) :
    ∀ (a : Nat) (n : node_t), t.nodes[a]? = some n →
      ∃ n' : node_t, d.nodes[a]? = some n' ∧ n'.data = n.data ∧
        (n'.left = n.left ∨ (n.left = none ∧ n'.left = some t.nodes.length)) ∧
        (n'.rght = n.rght ∨ (n.rght = none ∧ n'.rght = some t.nodes.length)) := by
  intro a n ha
  have halt := getElem?_lt _ _ _ ha
  have ha1 : ∀ ext : List node_t, (t.nodes ++ ext)[a]? = some n := by
    intro ext; rw [List.getElem?_append_left halt, ha]
  rcases h with ⟨_, e⟩ | ⟨p, m, hp, _, ⟨hm, e⟩ | ⟨hm, e⟩⟩
  · exact ⟨n, by rw [e]; exact ha1 _, rfl, Or.inl rfl, Or.inl rfl⟩
  · have hplt := getElem?_lt _ _ _ hp
    by_cases hap : a = p
    · subst hap
      rw [ha] at hp
      cases hp
      refine ⟨{ n with left := some t.nodes.length }, ?_, rfl, Or.inr ⟨hm, rfl⟩, Or.inl rfl⟩
      rw [e, get_set_left, if_pos rfl, ha1]
      rfl
    · refine ⟨n, ?_, rfl, Or.inl rfl, Or.inl rfl⟩
      rw [e, get_set_left, if_neg hap, ha1]
  · have hplt := getElem?_lt _ _ _ hp
    by_cases hap : a = p
    · subst hap
      rw [ha] at hp
      cases hp
      refine ⟨{ n with rght := some t.nodes.length }, ?_, rfl, Or.inl rfl, Or.inr ⟨hm, rfl⟩⟩
      rw [e, get_set_rght, if_pos rfl, ha1]
      rfl
    · refine ⟨n, ?_, rfl, Or.inl rfl, Or.inl rfl⟩
      rw [e, get_set_rght, if_neg hap, ha1]

theorem attached_extends (t d : tree_t) (v : data_t) (h : Attached t d v) :
    Extends t.nodes d.nodes := by
  intro a n ha
  obtain ⟨n', ha', hd, hl, hr⟩ := attached_old t d v h a n ha
  refine ⟨n', ha', hd, ?_, ?_⟩
  · intro l e
    rcases hl with hl | ⟨hl, _⟩
    · rw [hl, e]
    · rw [hl] at e; cases e
  · intro r e
    rcases hr with hr | ⟨hr, _⟩
    · rw [hr, e]
    · rw [hr] at e; cases e

theorem attached_links (t d : tree_t) (v : data_t) (h : Attached t d v)
    (hl : LinksOk t.nodes) (hv : ∀ p, v.prefix_node = some p → p < t.nodes.length) :
    LinksOk d.nodes := by
  intro a n ha
  have hlen := attached_length t d v h
  have halt := getElem?_lt _ _ _ ha
  by_cases hlt : a < t.nodes.length
  · have hold : t.nodes[a]? = some t.nodes[a] := List.getElem?_eq_getElem hlt
    obtain ⟨n', ha', hd, hleft, hrght⟩ := attached_old t d v h a _ hold
    rw [ha] at ha'
    cases ha'
    obtain ⟨h1, h2, h3⟩ := hl a _ hold
    refine ⟨?_, ?_, ?_⟩
    · intro l e
      rcases hleft with hk | ⟨_, hk⟩
      · have := h1 l (by rw [← hk]; exact e); omega
      · rw [hk] at e; cases e; omega
    · intro r e
      rcases hrght with hk | ⟨_, hk⟩
      · have := h2 r (by rw [← hk]; exact e); omega
      · rw [hk] at e; cases e; omega
    · intro p e
      exact h3 p (by rw [← hd]; exact e)
  · have hal : a = t.nodes.length := by omega
    subst hal
    rw [attached_new t d v h] at ha
    cases ha
    refine ⟨?_, ?_, ?_⟩
    · intro l e; cases e
    · intro r e; cases e
    · intro p e; exact hv p e

/-- A successful `search_branch` stays successful, with the same node, when
the store is extended and the root is kept. -/
theorem search_branch_mono (t d : tree_t) (k : data_t) (br : Option Nat) (a : Nat)
    (hext : Extends t.nodes d.nodes) (hlen : t.nodes.length ≤ d.nodes.length)
    (hroot : ∀ r, t.root = some r → d.root = some r)
    (hs : search_branch t k br = some (some a)) :
    search_branch d k br = some (some a) := by
  cases br with
  | none =>
    rw [search_branch_null] at hs ⊢
    cases hr : t.root with
    | none => rw [hr] at hs; simp [search_null] at hs
    | some r =>
      rw [hroot r hr]
      rw [hr] at hs
      exact search_fuel_mono _ k _ _ _ _ (by omega) (search_mono _ _ k hext _ _ _ hs)
  | some b =>
    cases hb : t.nodes[b]? with
    | none => simp [search_branch, branch_start, hb] at hs
    | some bn =>
      rw [search_branch_node t k b bn hb] at hs
      obtain ⟨bn', hb', _, _, hrg⟩ := hext b bn hb
      rw [search_branch_node d k b bn' hb']
      cases hr : bn.rght with
      | none => rw [hr] at hs; simp [search_null] at hs
      | some r =>
        rw [hrg r hr]
        rw [hr] at hs
        exact search_fuel_mono _ k _ _ _ _ (by omega) (search_mono _ _ k hext _ _ _ hs)

theorem reach_mono (h h' : List node_t) (hext : Extends h h') (r : Option Nat) (a : Nat)
    (hr : Reach h r a) : Reach h' r a := by
  induction hr with
  | here a => exact Reach.here a
  | left x n b hx hsub ih =>
    obtain ⟨n', hx', _, hl, _⟩ := hext x n hx
    cases hleft : n.left with
    | none => rw [hleft] at hsub; exact absurd hsub (reach_none _ _)
    | some l =>
      rw [hleft] at ih
      exact Reach.left x n' b hx' (by rw [hl l hleft]; exact ih)
  | rght x n b hx hsub ih =>
    obtain ⟨n', hx', _, _, hrg⟩ := hext x n hx
    cases hrght : n.rght with
    | none => rw [hrght] at hsub; exact absurd hsub (reach_none _ _)
    | some l =>
      rw [hrght] at ih
      exact Reach.rght x n' b hx' (by rw [hrg l hrght]; exact ih)

/-- Reachability composes: what lies below the right child of a reachable
node is reachable. -/
theorem reach_below_rght (h : List node_t) (r : Option Nat) (b c : Nat) (bn : node_t)
    (hr : Reach h r b) (hb : h[b]? = some bn) (hc : Reach h bn.rght c) : Reach h r c := by
  induction hr with
  | here a => exact Reach.rght a bn c hb hc
  | left x n y hx _ ih => exact Reach.left x n c hx (ih hb)
  | rght x n y hx _ ih => exact Reach.rght x n c hx (ih hb)

/-- A node returned by the search lies in the subtree searched. -/
theorem search_reach (h : List node_t) (k : data_t) :
    ∀ (fuel : Nat) (r : Option Nat) (a : Nat),
      recursive_search_tree h fuel r k = some (some a) → Reach h r a := by
  intro fuel
  induction fuel with
  | zero => intro r a hs; simp [search_zero] at hs
  | succ f ih =>
    intro r a hs
    cases r with
    | none => simp [search_null] at hs
    | some x =>
      cases hx : h[x]? with
      | none => simp [search_dangling h f x k hx] at hs
      | some n =>
        rw [search_node h f x n k hx] at hs
        by_cases hlt : dictcmp k n.data < CUTOFF
        · rw [if_pos hlt] at hs; exact Reach.left x n a hx (ih _ _ hs)
        · rw [if_neg hlt] at hs
          by_cases hgt : dictcmp k n.data > CUTOFF
          · rw [if_pos hgt] at hs; exact Reach.rght x n a hx (ih _ _ hs)
          · rw [if_neg hgt] at hs
            have hxa : x = a := by simpa using hs
            subst hxa
            exact Reach.here x

/-- On a store with forward links `search_branch` always returns. -/
theorem search_branch_total (t : tree_t) (k : data_t) (br : Option Nat)
    (hl : LinksOk t.nodes) (hroot : ∀ r, t.root = some r → r < t.nodes.length)
    (hbr : ∀ b, br = some b → b < t.nodes.length) :
    ∃ res, search_branch t k br = some res := by
  cases br with
  | none =>
    rw [search_branch_null]
    apply search_total t.nodes k hl _ _ hroot
    cases hr : t.root with
    | none => simp
    | some r => simp
  | some b =>
    have hblt := hbr b rfl
    have hb : t.nodes[b]? = some t.nodes[b] := List.getElem?_eq_getElem hblt
    rw [search_branch_node t k b _ hb]
    obtain ⟨_, h2, _⟩ := hl b _ hb
    apply search_total t.nodes k hl _ _ (fun x e => (h2 x e).2)
    cases hr : t.nodes[b].rght with
    | none => simp
    | some r => simp

theorem inv_init : Inv [] init_state where
  count_eq := rfl
  out_len := rfl
  ch_count_eq := rfl
  links := by intro a n ha; simp [init_state, make_empty_tree] at ha
  root_ok := by intro r hr; simp [init_state, make_empty_tree] at hr
  index_ok := by intro a n ha; simp [init_state, make_empty_tree] at ha
  found := by intro a n ha; simp [init_state, make_empty_tree] at ha
  reach := by intro a ha; simp [init_state, make_empty_tree] at ha
  temp_ok := rfl
  match_none := fun _ => ⟨rfl, rfl⟩
  match_some := by intro m hm; simp [init_state] at hm
  ch_ok := by intro a n ha; simp [init_state, make_empty_tree] at ha
  factors_ok := by intro i f hf; simp [init_state] at hf
  phrase_ok := by intro a n ha; simp [init_state, make_empty_tree] at ha
  text_ok := rfl

theorem temp_data_with (st : state_t) (c : Int) (x : Option Int) :
    temp_data { st with temp_ch := x } c = temp_data st c := rfl

theorem temp_data_prefix_node (st : state_t) (c : Int) :
    (temp_data st c).prefix_node = st.temp_node := rfl

theorem temp_data_ch (st : state_t) (c : Int) : (temp_data st c).ch = c := rfl

theorem temp_data_index (st : state_t) (c : Int) :
    (temp_data st c).index = st.index.count + 1 := rfl

theorem read_char_hit (st : state_t) (c : Int) (f : Nat) (fn : node_t)
    (hs : search_branch st.dict
      (temp_data st c)
      st.temp_node = some (some f))
    (hf : st.dict.nodes[f]? = some fn) :
    read_char st c = some (hit_state st c f fn) := by
  simp [read_char, process_char, temp_data_with, hs, hf, hit_state]

theorem read_char_miss (st : state_t) (c : Int) (d : tree_t)
    (hs : search_branch st.dict
      (temp_data st c)
      st.temp_node = some none)
    (hi : insert_in_order_branch st.dict
      (temp_data st c)
      st.temp_node = some d) :
    read_char st c = some (miss_state st c d) := by
  simp [read_char, process_char, temp_data_with, hs, hi, miss_state]

theorem index_of_some (h : List node_t) (a : Nat) (n : node_t) (ha : h[a]? = some n) :
    index_of h (some a) = n.data.index := by
  simp only [index_of, ha]

theorem search_branch_found (t : tree_t) (k : data_t) (br : Option Nat) (a : Nat)
    (hs : search_branch t k br = some (some a)) :
    ∃ n : node_t, t.nodes[a]? = some n ∧ n.data.prefix_node = k.prefix_node ∧
      n.data.ch = k.ch := by
  unfold search_branch at hs
  cases hbr : branch_start t br with
  | none => rw [hbr] at hs; cases hs
  | some start =>
    rw [hbr] at hs
    exact search_found _ _ _ _ _ hs

theorem index_of_le (h : List node_t)
    (hidx : ∀ (a : Nat) (n : node_t), h[a]? = some n → n.data.index = a + 1)
    (p : Option Nat) : index_of h p ≤ h.length := by
  cases p with
  | none => simp [index_of, RESET]
  | some a =>
    cases ha : h[a]? with
    | none => simp [index_of, ha, RESET]
    | some n =>
      have := getElem?_lt _ _ _ ha
      rw [index_of_some h a n ha, hidx a n ha]
      omega

theorem index_of_extends (h h' : List node_t) (hext : Extends h h') (p : Option Nat)
    (hp : ∀ a, p = some a → a < h.length) : index_of h' p = index_of h p := by
  unfold index_of
  cases p with
  | none => rfl
  | some a =>
    have halt := hp a rfl
    have ha : h[a]? = some h[a] := List.getElem?_eq_getElem halt
    obtain ⟨n', ha', hd, _, _⟩ := hext a _ ha
    simp only [ha, ha', hd]

theorem inv_hit (s : List (Fin 256)) (st : state_t) (b : Fin 256) (f : Nat) (fn : node_t)
    (hinv : Inv s st)
    (hs : search_branch st.dict
      (temp_data st (to_char (b.val : Int)))
      st.temp_node = some (some f))
    (hf : st.dict.nodes[f]? = some fn) :
    Inv (s ++ [b]) (hit_state st (to_char (b.val : Int)) f fn) := by
  have hkey : fn.data.prefix_node = st.temp_node ∧ fn.data.ch = to_char (b.val : Int) := by
    obtain ⟨n, hn, hp, hc⟩ := search_branch_found _ _ _ _ hs
    have e : fn = n := Option.some.inj (hf.symm.trans hn)
    rw [e]
    rw [temp_data_prefix_node] at hp
    rw [temp_data_ch] at hc
    exact ⟨hp, hc⟩
  have hpre : st.index.temp = index_of st.dict.nodes fn.data.prefix_node := by
    rw [hkey.1]; exact hinv.temp_ok
  have htemp : index_of st.dict.nodes (some f) = fn.data.index :=
    index_of_some _ f fn hf
  constructor
  · exact hinv.count_eq
  · exact hinv.out_len
  · simp [hit_state, hinv.ch_count_eq]
  · exact hinv.links
  · exact hinv.root_ok
  · exact hinv.index_ok
  · exact hinv.found
  · exact hinv.reach
  · simp only [hit_state]; exact htemp.symm
  · intro h; simp [hit_state] at h
  · intro m hm
    simp only [hit_state] at hm ⊢
    cases hm
    exact ⟨fn, hf, by rw [hkey.2], hpre⟩
  · exact hinv.ch_ok
  · exact hinv.factors_ok
  · exact hinv.phrase_ok
  · simp only [hit_state]
    rw [hinv.phrase_ok f fn hf, ← hpre, ← List.append_assoc, hinv.text_ok, hkey.2,
      to_uchar_to_char]
    simp

/-- A node of the grown store is an old node with its old data, or the fresh
node. -/
theorem attached_cases (t d : tree_t) (v : data_t) (h : Attached t d v) (a : Nat)
    (n : node_t) (ha : d.nodes[a]? = some n) :
    (∃ n0 : node_t, t.nodes[a]? = some n0 ∧ n.data = n0.data) ∨
    (a = t.nodes.length ∧ n.data = v) := by
  have halt := getElem?_lt _ _ _ ha
  rw [attached_length t d v h] at halt
  by_cases hlt : a < t.nodes.length
  · left
    have hold : t.nodes[a]? = some t.nodes[a] := List.getElem?_eq_getElem hlt
    obtain ⟨n', ha', hd, _, _⟩ := attached_old t d v h a _ hold
    have e : n = n' := Option.some.inj (ha.symm.trans ha')
    exact ⟨_, hold, by rw [e, hd]⟩
  · right
    have hal : a = t.nodes.length := by omega
    refine ⟨hal, ?_⟩
    rw [hal, attached_new t d v h] at ha
    have e := Option.some.inj ha
    rw [← e]

theorem inv_temp_node_lt (s : List (Fin 256)) (st : state_t) (hinv : Inv s st) :
    ∀ m, st.temp_node = some m → m < st.dict.nodes.length := by
  intro m hm
  obtain ⟨n, hn, _⟩ := hinv.match_some m hm
  exact getElem?_lt _ _ _ hn

theorem inv_miss (s : List (Fin 256)) (st : state_t) (b : Fin 256) (d : tree_t)
    (hinv : Inv s st)
    (hatt : Attached st.dict d (temp_data st (to_char (b.val : Int))))
    (hfind : search_branch d
      (temp_data st (to_char (b.val : Int)))
      st.temp_node = some (some st.dict.nodes.length)) :
    Inv (s ++ [b]) (miss_state st (to_char (b.val : Int)) d) := by
  have hlen := attached_length _ _ _ hatt
  have hext := attached_extends _ _ _ hatt
  have hkeep := attached_root_keep _ _ _ hatt
  have htn := inv_temp_node_lt s st hinv
  have htemp_le : st.index.temp ≤ st.dict.nodes.length := by
    rw [hinv.temp_ok]; exact index_of_le _ hinv.index_ok _
  have hreach_old : ∀ a, a < st.dict.nodes.length → Reach d.nodes d.root a := by
    intro a ha
    have h1 := hinv.reach a ha
    cases hr : st.dict.root with
    | none => rw [hr] at h1; exact absurd h1 (reach_none _ _)
    | some r =>
      rw [hkeep r hr]
      rw [hr] at h1
      exact reach_mono _ _ hext _ _ h1
  constructor
  · simp only [miss_state]; rw [hlen, hinv.count_eq]
  · simp only [miss_state]; rw [hlen, List.length_append, hinv.out_len]; rfl
  · simp [miss_state, hinv.ch_count_eq]
  · exact attached_links _ _ _ hatt hinv.links (fun p e => htn p (by
      rw [temp_data_prefix_node] at e; exact e))
  · exact attached_root_ok _ _ _ hatt hinv.root_ok
  · intro a n ha
    simp only [miss_state] at ha
    rcases attached_cases _ _ _ hatt a n ha with ⟨n0, h0, e⟩ | ⟨e1, e2⟩
    · rw [e]; exact hinv.index_ok a n0 h0
    · rw [e2, e1, temp_data_index, hinv.count_eq]
  · intro a n ha
    simp only [miss_state] at ha ⊢
    rcases attached_cases _ _ _ hatt a n ha with ⟨n0, h0, e⟩ | ⟨e1, e2⟩
    · rw [e]
      exact search_branch_mono _ _ _ _ _ hext (by omega) hkeep (hinv.found a n0 h0)
    · rw [e2, e1, temp_data_prefix_node]
      exact hfind
  · intro a ha
    simp only [miss_state] at ha ⊢
    rw [hlen] at ha
    by_cases hlt : a < st.dict.nodes.length
    · exact hreach_old a hlt
    · have hal : a = st.dict.nodes.length := by omega
      rw [hal]
      cases htemp : st.temp_node with
      | none =>
        rw [htemp, search_branch_null] at hfind
        exact search_reach _ _ _ _ _ hfind
      | some m =>
        have hm := htn m htemp
        rw [htemp] at hfind
        have hm0 : st.dict.nodes[m]? = some st.dict.nodes[m] := List.getElem?_eq_getElem hm
        obtain ⟨mn, hmn, _⟩ := hext m _ hm0
        rw [search_branch_node _ _ m mn hmn] at hfind
        exact reach_below_rght _ _ m _ mn (hreach_old m hm) hmn
          (search_reach _ _ _ _ _ hfind)
  · rfl
  · intro _; exact ⟨rfl, rfl⟩
  · intro m hm; simp [miss_state] at hm
  · intro a n ha
    simp only [miss_state] at ha
    rcases attached_cases _ _ _ hatt a n ha with ⟨n0, h0, e⟩ | ⟨_, e2⟩
    · rw [e]; exact hinv.ch_ok a n0 h0
    · rw [e2, temp_data_ch]; exact ⟨b, Eq.refl _⟩
  · intro i f hf
    simp only [miss_state] at hf
    by_cases hlt : i < st.out.length
    · rw [List.getElem?_append_left hlt] at hf
      exact hinv.factors_ok i f hf
    · have hilt := getElem?_lt _ _ _ hf
      simp only [List.length_append, List.length_singleton] at hilt
      have hil : i = st.out.length := by omega
      rw [hil, List.getElem?_concat_length] at hf
      have e := Option.some.inj hf
      rw [← e, hil, hinv.out_len]
      exact htemp_le
  · intro a n ha
    simp only [miss_state] at ha ⊢
    rcases attached_cases _ _ _ hatt a n ha with ⟨n0, h0, e⟩ | ⟨e1, e2⟩
    · have ha0 := getElem?_lt _ _ _ h0
      have hidx := hinv.index_ok a n0 h0
      have hpre : index_of d.nodes n0.data.prefix_node =
          index_of st.dict.nodes n0.data.prefix_node :=
        index_of_extends _ _ hext _ (fun p e => by
          have := (hinv.links a n0 h0).2.2 p e
          omega)
      have hple := index_of_le st.dict.nodes hinv.index_ok n0.data.prefix_node
      rw [e, hpre, phrase_table_old _ _ _ (by rw [hidx, hinv.out_len]; omega),
        phrase_table_old _ _ _ (by rw [hinv.out_len]; exact hple)]
      exact hinv.phrase_ok a n0 h0
    · have hpre : index_of d.nodes st.temp_node = index_of st.dict.nodes st.temp_node :=
        index_of_extends _ _ hext _ htn
      rw [e2, temp_data_index, temp_data_prefix_node, temp_data_ch]
      rw [hinv.count_eq, ← hinv.out_len, phrase_table_new, hpre, ← hinv.temp_ok,
        phrase_table_old _ _ _ (by rw [hinv.out_len]; exact htemp_le)]
  · simp only [miss_state]
    rw [expand_concat]
    have hz : (phrase_table (st.out ++ [(to_uchar (to_char (b.val : Int)), st.index.temp)])).getD
        RESET [] = [] := phrase_table_zero _
    rw [hz, to_uchar_to_char]
    simp only [List.append_nil, List.map_append, List.map_cons, List.map_nil]
    rw [← List.append_assoc, hinv.text_ok]

/-- One encoder step from a state that satisfies the invariant: either a hit
or a miss, with the state that results, which satisfies the invariant. -/
theorem step_cases (s : List (Fin 256)) (st : state_t) (b : Fin 256) (hinv : Inv s st) :
    (∃ (f : Nat) (fn : node_t),
      search_branch st.dict (temp_data st (to_char (b.val : Int))) st.temp_node
        = some (some f) ∧
      st.dict.nodes[f]? = some fn ∧
      fn.data.prefix_node = st.temp_node ∧ fn.data.ch = to_char (b.val : Int) ∧
      read_char st (to_char (b.val : Int)) =
        some (hit_state st (to_char (b.val : Int)) f fn) ∧
      Inv (s ++ [b]) (hit_state st (to_char (b.val : Int)) f fn)) ∨
    (∃ d : tree_t,
      search_branch st.dict (temp_data st (to_char (b.val : Int))) st.temp_node
        = some none ∧
      insert_in_order_branch st.dict (temp_data st (to_char (b.val : Int))) st.temp_node
        = some d ∧
      Attached st.dict d (temp_data st (to_char (b.val : Int))) ∧
      read_char st (to_char (b.val : Int)) = some (miss_state st (to_char (b.val : Int)) d) ∧
      Inv (s ++ [b]) (miss_state st (to_char (b.val : Int)) d)) := by
  obtain ⟨res, hres⟩ := search_branch_total st.dict (temp_data st (to_char (b.val : Int)))
    st.temp_node hinv.links hinv.root_ok (inv_temp_node_lt s st hinv)
  cases res with
  | none =>
    right
    obtain ⟨d, hins, hatt, hfind⟩ := insert_in_order_branch_spec st.dict _ _ hinv.links
      hinv.root_ok hres
    have hread := read_char_miss st (to_char (b.val : Int)) d hres hins
    have hinv' := inv_miss s st b d hinv hatt hfind
    exact ⟨d, hres, hins, hatt, hread, hinv'⟩
  | some f =>
    left
    obtain ⟨fn, hf, hp, hc⟩ := search_branch_found _ _ _ _ hres
    rw [temp_data_prefix_node] at hp
    rw [temp_data_ch] at hc
    have hread := read_char_hit st (to_char (b.val : Int)) f fn hres hf
    have hinv' := inv_hit s st b f fn hinv hres hf
    exact ⟨f, fn, hres, hf, hp, hc, hread, hinv'⟩

theorem step_inv (s : List (Fin 256)) (st : state_t) (b : Fin 256) (hinv : Inv s st) :
    ∃ st', read_char st (to_char (b.val : Int)) = some st' ∧ Inv (s ++ [b]) st' := by
  rcases step_cases s st b hinv with ⟨f, fn, _, _, _, _, h1, h2⟩ | ⟨d, _, _, _, h1, h2⟩
  · exact ⟨_, h1, h2⟩
  · exact ⟨_, h1, h2⟩

theorem process_bytes_cons (st st' : state_t) (b : Fin 256) (rest : List (Fin 256))
    (h : read_char st (to_char (b.val : Int)) = some st') :
    process_bytes st (b :: rest) = process_bytes st' rest := by
  simp [process_bytes, h]

/-- The encoder never gets stuck, and the invariant holds after every byte. -/
theorem process_bytes_inv (t : List (Fin 256)) :
    ∀ (s : List (Fin 256)) (st : state_t), Inv s st →
      ∃ st', process_bytes st t = some st' ∧ Inv (s ++ t) st' := by
  induction t with
  | nil => intro s st hinv; exact ⟨st, rfl, by simpa using hinv⟩
  | cons b rest ih =>
    intro s st hinv
    obtain ⟨st1, h1, hinv1⟩ := step_inv s st b hinv
    obtain ⟨st2, h2, hinv2⟩ := ih (s ++ [b]) st1 hinv1
    exact ⟨st2, by rw [process_bytes_cons st st1 b rest h1]; exact h2, by simpa using hinv2⟩

theorem process_bytes_append (t u : List (Fin 256)) :
    ∀ (st : state_t), process_bytes st (t ++ u) =
      match process_bytes st t with
      | none => none
      | some st' => process_bytes st' u := by
  induction t with
  | nil => intro st; rfl
  | cons b rest ih =>
    intro st
    cases h : read_char st (to_char (b.val : Int)) with
    | none => simp [process_bytes, h]
    | some st1 =>
      rw [List.cons_append, process_bytes_cons st st1 b _ h, process_bytes_cons st st1 b _ h]
      exact ih st1

theorem run_inv (s : List (Fin 256)) :
    ∃ st, process_bytes init_state s = some st ∧ Inv s st := by
  obtain ⟨st, h, hinv⟩ := process_bytes_inv s [] init_state inv_init
  exact ⟨st, h, by simpa using hinv⟩

theorem to_char_eq_EOF (b : Fin 256) : to_char (b.val : Int) = EOF ↔ b.val = 255 := by
  unfold to_char EOF
  split <;> omega

theorem to_char_EOF : to_char EOF = EOF := by
  decide

theorem getchar_process_cont (st : state_t) (g : Int) (hne : to_char g ≠ EOF) :
    getchar_process st g =
      (read_char st (to_char g)).map (fun st' => (CONTPROCESS, st')) := by
  simp only [getchar_process, if_pos hne]
  cases read_char st (to_char g) <;> rfl

theorem getchar_process_end (st : state_t) (g : Int) (he : to_char g = EOF) :
    getchar_process st g = some (ENDPROCESS, flush st) := by
  simp only [getchar_process, he, ne_eq, not_true_eq_false, if_false]

theorem main_loop_nil (st : state_t) : main_loop st [] = some (flush st) := by
  rw [main_loop, getchar_process_end st EOF to_char_EOF]

theorem main_loop_cons_end (st : state_t) (g : Int) (rest : List Int)
    (hg : to_char g = EOF) : main_loop st (g :: rest) = some (flush st) := by
  rw [main_loop, getchar_process_end st _ hg]
  simp

theorem main_loop_cons_cont (st : state_t) (g : Int) (rest : List Int)
    (hg : to_char g ≠ EOF) :
    main_loop st (g :: rest) =
      (read_char st (to_char g)).bind (fun st' => main_loop st' rest) := by
  rw [main_loop, getchar_process_cont st _ hg]
  cases read_char st (to_char g) with
  | none => rfl
  | some st1 => simp [CONTPROCESS, ENDPROCESS]

/-- The loop of `main` is the encoder run on the bytes that precede the first
byte of value 255, which the assignment to `char c` makes equal to `EOF`. -/
theorem main_loop_eq (s : List (Fin 256)) :
    ∀ st : state_t, main_loop st (s.map (fun b => (b.val : Int))) =
      (process_bytes st (s.takeWhile (fun b => decide (b.val ≠ 255)))).map flush := by
  induction s with
  | nil =>
    intro st
    rw [List.map_nil, main_loop_nil, List.takeWhile_nil, process_bytes]
    rfl
  | cons b rest ih =>
    intro st
    rw [List.map_cons]
    by_cases hb : b.val = 255
    · rw [main_loop_cons_end st _ _ ((to_char_eq_EOF b).mpr hb)]
      have htw : (b :: rest).takeWhile (fun b => decide (b.val ≠ 255)) = [] := by
        simp [List.takeWhile, hb]
      rw [htw, process_bytes]
      rfl
    · rw [main_loop_cons_cont st _ _ (fun e => hb ((to_char_eq_EOF b).mp e))]
      have htw : (b :: rest).takeWhile (fun b => decide (b.val ≠ 255)) =
          b :: rest.takeWhile (fun b => decide (b.val ≠ 255)) := by
        simp [List.takeWhile, hb]
      rw [htw]
      cases hr : read_char st (to_char (b.val : Int)) with
      | none => simp [process_bytes, hr]
      | some st1 =>
        rw [process_bytes_cons st st1 b _ hr]
        exact ih st1

theorem encode_eq (s : List (Fin 256)) :
    encode s = (process_bytes init_state s).map flush := by
  unfold encode
  cases process_bytes init_state s <;> rfl

theorem main_eq_encode (s : List (Fin 256)) :
    main s = encode (s.takeWhile (fun b => decide (b.val ≠ 255))) := by
  rw [encode_eq]
  exact main_loop_eq s init_state

theorem flush_none (st : state_t) (h : st.temp_ch = none) : flush st = st := by
  simp [flush, h]

theorem flush_some (st : state_t) (c : Int) (h : st.temp_ch = some c) :
    flush st =
      { st with
        out := st.out ++ [(to_uchar c, st.index.pre)]
        temp_ch := none
        index := { st.index with count := st.index.count + 1 } } := by
  simp [flush, h]

/-- What the end-of-stream flush does on a state that satisfies the
invariant: nothing when no match is in progress, and otherwise it prints the
char of the matched node with the index of that node's prefix. -/
theorem flush_cases (s : List (Fin 256)) (st : state_t) (hinv : Inv s st) :
    (st.temp_node = none ∧ st.temp_ch = none ∧ flush st = st) ∨
    (∃ (m : Nat) (n : node_t), st.temp_node = some m ∧ st.dict.nodes[m]? = some n ∧
      st.temp_ch = some n.data.ch ∧
      st.index.temp = n.data.index ∧
      st.index.pre = index_of st.dict.nodes n.data.prefix_node ∧
      (flush st).out = st.out ++ [(to_uchar n.data.ch, st.index.pre)] ∧
      (flush st).index.count = st.index.count + 1 ∧
      (flush st).dict = st.dict) := by
  cases htn : st.temp_node with
  | none =>
    left
    have h := (hinv.match_none htn).1
    exact ⟨rfl, h, flush_none st h⟩
  | some m =>
    right
    obtain ⟨n, hn, hch, hpre⟩ := hinv.match_some m htn
    have htemp : st.index.temp = n.data.index := by
      rw [hinv.temp_ok, htn]; exact index_of_some _ m n hn
    refine ⟨m, n, rfl, hn, hch, htemp, hpre, ?_, ?_, ?_⟩
    · rw [flush_some st _ hch]
    · rw [flush_some st _ hch]
    · rw [flush_some st _ hch]

theorem roundtrip_aux (s : List (Fin 256)) (st : state_t) (hinv : Inv s st) :
    expand (flush st).out = s.map Fin.val := by
  rcases flush_cases s st hinv with ⟨htn, _, hfl⟩ | ⟨m, n, htn, hn, hch, htemp, hpre, hout, _, _⟩
  · rw [hfl]
    have h := hinv.text_ok
    rw [hinv.temp_ok, htn] at h
    have hz : (phrase_table st.out).getD (index_of st.dict.nodes none) [] = [] :=
      phrase_table_zero st.out
    rw [hz, List.append_nil] at h
    exact h
  · rw [hout, expand_concat]
    have h := hinv.text_ok
    rw [htemp, hinv.phrase_ok m n hn, ← hpre] at h
    exact h

/-- C1 (round trip).  For every input byte sequence `s` the encoder
(`process_char` on each byte in input order, then the end-of-stream flush)
runs to the end, and the standard LZ78 expansion of the factor list it printed
is `s` again. -/
theorem encode_roundtrip (s : List (Fin 256)) :
    ∃ st, encode s = some st ∧ expand st.out = s.map (fun b => b.val) := by
  obtain ⟨st, hrun, hinv⟩ := run_inv s
  refine ⟨flush st, ?_, roundtrip_aux s st hinv⟩
  rw [encode_eq, hrun]
  rfl

theorem flush_factors (s : List (Fin 256)) (st : state_t) (hinv : Inv s st) :
    ∀ (i : Nat) (f : Nat × Nat), (flush st).out[i]? = some f → f.2 ≤ i := by
  intro i f hf
  rcases flush_cases s st hinv with ⟨_, _, hfl⟩ | ⟨m, n, _, hn, _, _, hpre, hout, _, _⟩
  · rw [hfl] at hf
    exact hinv.factors_ok i f hf
  · rw [hout] at hf
    by_cases hlt : i < st.out.length
    · rw [List.getElem?_append_left hlt] at hf
      exact hinv.factors_ok i f hf
    · have hilt := getElem?_lt _ _ _ hf
      simp only [List.length_append, List.length_singleton] at hilt
      have hil : i = st.out.length := by omega
      rw [hil, List.getElem?_concat_length] at hf
      have e := Option.some.inj hf
      rw [← e, hil, hinv.out_len, hpre]
      exact index_of_le _ hinv.index_ok _

/-- C2 (back-references point backward).  For every input, the `i`-th factor
printed (counted from 1, the trailing flush factor included) is a pair
`(c, k)` with `0 ≤ k < i`; this holds for the encoder run and for the loop of
`main` alike.  Positions of the list `out` count from 0, so the factor at
position `i` is the `i + 1`-st. -/
theorem backreference_earlier (s : List (Fin 256)) :
    (∃ st, encode s = some st ∧
      ∀ (i : Nat) (c k : Nat), st.out[i]? = some (c, k) → 0 ≤ k ∧ k < i + 1) ∧
    (∃ st, main s = some st ∧
      ∀ (i : Nat) (c k : Nat), st.out[i]? = some (c, k) → 0 ≤ k ∧ k < i + 1) := by
  have key : ∀ t : List (Fin 256), ∃ st, encode t = some st ∧
      ∀ (i : Nat) (c k : Nat), st.out[i]? = some (c, k) → 0 ≤ k ∧ k < i + 1 := by
    intro t
    obtain ⟨st, hrun, hinv⟩ := run_inv t
    refine ⟨flush st, by rw [encode_eq, hrun]; rfl, ?_⟩
    intro i c k hf
    have := flush_factors t st hinv i (c, k) hf
    exact ⟨Nat.zero_le k, Nat.lt_succ_of_le this⟩
  refine ⟨key s, ?_⟩
  rw [main_eq_encode]
  exact key _

theorem search_branch_congr (t : tree_t) (k k' : data_t) (br : Option Nat)
    (hp : k.prefix_node = k'.prefix_node) (hc : k.ch = k'.ch) :
    search_branch t k br = search_branch t k' br := by
  unfold search_branch
  cases branch_start t br with
  | none => rfl
  | some start => exact search_congr t.nodes k k' hp hc _ _

/-- On a state that satisfies the invariant, `search_branch` from branch `m`
with a key of prefix `m` returns, and what it returns is the node with the
prefix and the char of the key, if the store has one, and `NULL` if not. -/
theorem search_branch_complete (s : List (Fin 256)) (st : state_t) (hinv : Inv s st)
    (m : Option Nat) (hm : ∀ a, m = some a → a < st.dict.nodes.length)
    (key : data_t) (hkey : key.prefix_node = m) :
    ∃ res, search_branch st.dict key m = some res ∧
      ∀ a, res = some a ↔ ∃ n : node_t, st.dict.nodes[a]? = some n ∧
        n.data.prefix_node = m ∧ n.data.ch = key.ch := by
  obtain ⟨res, hres⟩ := search_branch_total st.dict key m hinv.links hinv.root_ok hm
  refine ⟨res, hres, ?_⟩
  intro a
  constructor
  · intro e
    rw [e] at hres
    obtain ⟨n, hn, hp, hc⟩ := search_branch_found _ _ _ _ hres
    exact ⟨n, hn, hp.trans hkey, hc⟩
  · rintro ⟨n, hn, hp, hc⟩
    have h1 := hinv.found a n hn
    rw [hp, search_branch_congr st.dict n.data key m (hp.trans hkey.symm) hc, hres] at h1
    exact Option.some.inj h1

/-- C3 (search is exact).  After any number of encoder steps, for every branch
`m` that is `NULL` or a node of the dictionary and every key with
`prefix_node = m` and char `c` (any char, in particular the char of any byte),
`search_branch` with branch `m` returns; it returns node `a` exactly when `a`
is a node of the dictionary with `prefix_node = m` and `ch = c`, hence `NULL`
when no such node was inserted.  The search is the recursive search started
at the root of the tree when `m` is `NULL` and at the right child of `m`
otherwise. -/
theorem search_branch_exact (s : List (Fin 256)) :
    ∃ st, process_bytes init_state s = some st ∧
      ∀ (m : Option Nat), (∀ a, m = some a → a < st.dict.nodes.length) →
      ∀ (c : Int) (i : Nat),
        (∃ res, search_branch st.dict { prefix_node := m, index := i, ch := c } m = some res ∧
          (∀ a, res = some a ↔ ∃ n : node_t, st.dict.nodes[a]? = some n ∧
            n.data.prefix_node = m ∧ n.data.ch = c) ∧
          (res = none ↔ ¬ ∃ (a : Nat) (n : node_t), st.dict.nodes[a]? = some n ∧
            n.data.prefix_node = m ∧ n.data.ch = c)) ∧
        (m = none →
          search_branch st.dict { prefix_node := m, index := i, ch := c } m =
            recursive_search_tree st.dict.nodes (st.dict.nodes.length + 1) st.dict.root
              { prefix_node := m, index := i, ch := c }) ∧
        (∀ (a : Nat) (n : node_t), m = some a → st.dict.nodes[a]? = some n →
          search_branch st.dict { prefix_node := m, index := i, ch := c } m =
            recursive_search_tree st.dict.nodes (st.dict.nodes.length + 1) n.rght
              { prefix_node := m, index := i, ch := c }) := by
  obtain ⟨st, hrun, hinv⟩ := run_inv s
  refine ⟨st, hrun, ?_⟩
  intro m hm c i
  refine ⟨?_, ?_, ?_⟩
  · obtain ⟨res, hres, hiff⟩ := search_branch_complete s st hinv m hm
      { prefix_node := m, index := i, ch := c } rfl
    refine ⟨res, hres, hiff, ?_⟩
    constructor
    · rintro e ⟨a, n, hn⟩
      have := (hiff a).mpr ⟨n, hn⟩
      rw [e] at this
      cases this
    · intro hno
      cases hr : res with
      | none => rfl
      | some a =>
        obtain ⟨n, hn⟩ := (hiff a).mp hr
        exact absurd ⟨a, n, hn⟩ hno
  · intro e
    rw [e]
    exact search_branch_null _ _
  · intro a n e hn
    rw [e]
    exact search_branch_node _ _ a n hn

/-- The (prefix, char) pairs of the nodes are pairwise different. -/
theorem inv_unique (s : List (Fin 256)) (st : state_t) (hinv : Inv s st)
    (a a' : Nat) (n n' : node_t) (ha : st.dict.nodes[a]? = some n)
    (ha' : st.dict.nodes[a']? = some n')
    (hp : n.data.prefix_node = n'.data.prefix_node) (hc : n.data.ch = n'.data.ch) :
    a = a' := by
  have h1 := hinv.found a n ha
  have h2 := hinv.found a' n' ha'
  rw [hp, search_branch_congr st.dict n.data n'.data _ hp hc, h2] at h1
  exact (Option.some.inj (Option.some.inj h1)).symm

/-- C4 (uniqueness).  After any number of encoder steps no two different nodes
of the dictionary carry the same `(prefix_node, ch)` pair; and the next call
of `process_char`, for any byte, either leaves the dictionary as it is or adds
one node whose `(prefix_node, ch)` pair no node of the dictionary carried
before. -/
theorem no_duplicate_key (s : List (Fin 256)) :
    ∃ st, process_bytes init_state s = some st ∧
      (∀ (a a' : Nat) (n n' : node_t), st.dict.nodes[a]? = some n →
        st.dict.nodes[a']? = some n' →
        n.data.prefix_node = n'.data.prefix_node → n.data.ch = n'.data.ch → a = a') ∧
      (∀ b : Fin 256, ∃ st', read_char st (to_char (b.val : Int)) = some st' ∧
        (st'.dict = st.dict ∨
         (st'.dict.nodes.length = st.dict.nodes.length + 1 ∧
          st'.dict.nodes[st.dict.nodes.length]? =
            some { data := temp_data st (to_char (b.val : Int)), left := none,
                   rght := none } ∧
          ∀ (a : Nat) (n : node_t), st.dict.nodes[a]? = some n →
            ¬ (n.data.prefix_node = st.temp_node ∧
               n.data.ch = to_char (b.val : Int))))) := by
  obtain ⟨st, hrun, hinv⟩ := run_inv s
  refine ⟨st, hrun, inv_unique s st hinv, ?_⟩
  intro b
  rcases step_cases s st b hinv with ⟨f, fn, _, _, _, _, hread, _⟩ |
    ⟨d, hmiss, _, hatt, hread, _⟩
  · exact ⟨_, hread, Or.inl rfl⟩
  · refine ⟨_, hread, Or.inr ⟨attached_length _ _ _ hatt, attached_new _ _ _ hatt, ?_⟩⟩
    intro a n hn hk
    obtain ⟨res, hres, hiff⟩ := search_branch_complete s st hinv st.temp_node
      (inv_temp_node_lt s st hinv) (temp_data st (to_char (b.val : Int)))
      (temp_data_prefix_node _ _)
    rw [hmiss] at hres
    have hnone : res = none := (Option.some.inj hres).symm
    have := (hiff a).mpr ⟨n, hn, hk.1, by rw [temp_data_ch]; exact hk.2⟩
    rw [hnone] at this
    cases this

/-- The encoder only ever extends the node store. -/
theorem process_bytes_extends (t : List (Fin 256)) :
    ∀ (s : List (Fin 256)) (st st' : state_t), Inv s st →
      process_bytes st t = some st' → Extends st.dict.nodes st'.dict.nodes := by
  induction t with
  | nil =>
    intro s st st' _ h
    rw [process_bytes] at h
    rw [← Option.some.inj h]
    exact extends_refl _
  | cons b rest ih =>
    intro s st st' hinv h
    rcases step_cases s st b hinv with ⟨f, fn, _, _, _, _, hread, hinv1⟩ |
      ⟨d, _, _, hatt, hread, hinv1⟩
    · rw [process_bytes_cons st _ b rest hread] at h
      exact ih (s ++ [b]) (hit_state st (to_char (b.val : Int)) f fn) st' hinv1 h
    · rw [process_bytes_cons st _ b rest hread] at h
      exact extends_trans _ _ _ (attached_extends _ _ _ hatt)
        (ih (s ++ [b]) (miss_state st (to_char (b.val : Int)) d) st' hinv1 h)

theorem inv_reach_lt (s : List (Fin 256)) (st : state_t) (hinv : Inv s st) (a : Nat)
    (h : Reach st.dict.nodes st.dict.root a) : a < st.dict.nodes.length := by
  refine reach_lt st.dict.nodes st.dict.nodes.length ?_ _ a h hinv.root_ok
  intro x n hx _
  obtain ⟨h1, h2, _⟩ := hinv.links x n hx
  exact ⟨fun l e => (h1 l e).2, fun r e => (h2 r e).2⟩

/-- C5 (index monotonicity).  After the encoder processed any prefix `s` of an
input `s ++ t` (before the flush): the store holds `index->count` nodes, they
are exactly the nodes of the tree, the `k`-th node inserted (the node at
position `k - 1` of the store, which grows at its end) carries index `k`, and
every one of these nodes is still in the dictionary with the same data, hence
the same index, after the rest `t` was processed. -/
theorem index_in_insertion_order (s t : List (Fin 256)) :
    ∃ st st', process_bytes init_state s = some st ∧
      process_bytes init_state (s ++ t) = some st' ∧
      st.dict.nodes.length = st.index.count ∧
      (∀ a, Reach st.dict.nodes st.dict.root a ↔ a < st.index.count) ∧
      (∀ k, 1 ≤ k → k ≤ st.index.count →
        ∃ n : node_t, st.dict.nodes[k - 1]? = some n ∧ n.data.index = k) ∧
      (∀ (a : Nat) (n : node_t), st.dict.nodes[a]? = some n →
        ∃ n' : node_t, st'.dict.nodes[a]? = some n' ∧ n'.data = n.data) := by
  obtain ⟨st, hrun, hinv⟩ := run_inv s
  obtain ⟨st', hrun', _⟩ := process_bytes_inv t s st hinv
  refine ⟨st, st', hrun, ?_, hinv.count_eq.symm, ?_, ?_, ?_⟩
  · rw [process_bytes_append, hrun]
    exact hrun'
  · intro a
    rw [hinv.count_eq]
    exact ⟨inv_reach_lt s st hinv a, hinv.reach a⟩
  · intro k h1 h2
    rw [hinv.count_eq] at h2
    have hlt : k - 1 < st.dict.nodes.length := by omega
    refine ⟨st.dict.nodes[k - 1], List.getElem?_eq_getElem hlt, ?_⟩
    rw [hinv.index_ok (k - 1) _ (List.getElem?_eq_getElem hlt)]
    omega
  · intro a n ha
    obtain ⟨n', ha', hd, _, _⟩ := process_bytes_extends t s st st' hinv hrun' a n ha
    exact ⟨n', ha', hd⟩

theorem index_of_prefix_lt (s : List (Fin 256)) (st : state_t) (hinv : Inv s st)
    (f : Nat) (fn : node_t) (hf : st.dict.nodes[f]? = some fn) :
    index_of st.dict.nodes fn.data.prefix_node < fn.data.index := by
  rw [hinv.index_ok f fn hf]
  cases hp : fn.data.prefix_node with
  | none => simp [index_of, RESET]
  | some p =>
    have hpf := (hinv.links f fn hf).2.2 p hp
    have hflt := getElem?_lt _ _ _ hf
    have hplt : p < st.dict.nodes.length := by omega
    rw [index_of_some _ p _ (List.getElem?_eq_getElem hplt),
      hinv.index_ok p _ (List.getElem?_eq_getElem hplt)]
    omega

/-- C6 (end-of-stream flush).  On the empty input the flush prints nothing.
On an input `t ++ [b]`, with `st0` the state before the last byte and `st` the
state after it: if the last byte was a hit (`search_branch` found a node),
then `temp_ch` holds the last byte, `pre` holds the value `temp` had before
this last extension, which is smaller than the index of the node just matched
(now in `temp`), and the flush appends exactly the factor `(b, pre)`; if the
last byte was a miss, `temp_ch` is `NULL` and the flush prints nothing. -/
theorem flush_factor (t : List (Fin 256)) (b : Fin 256) :
    (encode [] = some init_state ∧ init_state.out = [] ∧ init_state.temp_ch = none) ∧
    ∃ st0 st, process_bytes init_state t = some st0 ∧
      process_bytes init_state (t ++ [b]) = some st ∧
      encode (t ++ [b]) = some (flush st) ∧
      ((∃ (f : Nat) (fn : node_t),
          search_branch st0.dict (temp_data st0 (to_char (b.val : Int))) st0.temp_node
            = some (some f) ∧
          st0.dict.nodes[f]? = some fn ∧
          st.temp_ch = some (to_char (b.val : Int)) ∧
          st.index.pre = st0.index.temp ∧
          st.index.temp = fn.data.index ∧
          st.index.pre < st.index.temp ∧
          (flush st).out = st.out ++ [(b.val, st.index.pre)]) ∨
       (search_branch st0.dict (temp_data st0 (to_char (b.val : Int))) st0.temp_node
            = some none ∧
          st.temp_ch = none ∧
          (flush st).out = st.out)) := by
  refine ⟨⟨by decide, rfl, rfl⟩, ?_⟩
  obtain ⟨st0, hrun0, hinv0⟩ := run_inv t
  have happ : ∀ st, read_char st0 (to_char (b.val : Int)) = some st →
      process_bytes init_state (t ++ [b]) = some st := by
    intro st h
    rw [process_bytes_append, hrun0]
    simp only [process_bytes, h]
  rcases step_cases t st0 b hinv0 with ⟨f, fn, hhit, hf, hp, _, hread, _⟩ |
    ⟨d, hmiss, _, _, hread, _⟩
  · refine ⟨st0, _, hrun0, happ _ hread, ?_, Or.inl ⟨f, fn, hhit, hf, rfl, rfl, rfl, ?_, ?_⟩⟩
    · rw [encode_eq, happ _ hread]; rfl
    · have h1 := index_of_prefix_lt t st0 hinv0 f fn hf
      rw [hp, ← hinv0.temp_ok] at h1
      exact h1
    · rw [flush_some _ (to_char (b.val : Int)) rfl, to_uchar_to_char]
  · refine ⟨st0, _, hrun0, happ _ hread, ?_, Or.inr ⟨hmiss, rfl, ?_⟩⟩
    · rw [encode_eq, happ _ hread]; rfl
    · rw [flush_none _ rfl]

/-- C7 (failing input).  On the three bytes 97, 255, 98 the loop of `main`
takes the byte 255 for the end of the stream: it reports one input byte and
prints the single factor `(97, 0)`. -/
theorem main_byte_255 :
    (main [97, 255, 98]).map (fun st => (st.ch_count, st.out)) = some (1, [(97, 0)]) := by
  decide

/-- The loop of `main` counts the bytes that precede the first byte 255. -/
theorem main_ch_count (s : List (Fin 256)) :
    ∃ st, main s = some st ∧
      st.ch_count = (s.takeWhile (fun b => decide (b.val ≠ 255))).length := by
  obtain ⟨st, hrun, hinv⟩ := run_inv (s.takeWhile (fun b => decide (b.val ≠ 255)))
  refine ⟨flush st, ?_, ?_⟩
  · rw [main_eq_encode, encode_eq, hrun]; rfl
  · rw [← hinv.ch_count_eq]
    unfold flush
    cases st.temp_ch <;> rfl

theorem miss_count_cons (st st' : state_t) (b : Fin 256) (rest : List (Fin 256))
    (h : read_char st (to_char (b.val : Int)) = some st') :
    miss_count st (b :: rest) =
      (if search_branch st.dict (temp_data st (to_char (b.val : Int))) st.temp_node
          = some none then 1 else 0) + miss_count st' rest := by
  simp only [miss_count, h]

/-- Each miss prints one factor, a hit prints none. -/
theorem out_length_miss_count (t : List (Fin 256)) :
    ∀ (s : List (Fin 256)) (st st' : state_t), Inv s st →
      process_bytes st t = some st' →
      st'.out.length = st.out.length + miss_count st t := by
  induction t with
  | nil =>
    intro s st st' _ h
    rw [process_bytes] at h
    rw [← Option.some.inj h]
    rfl
  | cons b rest ih =>
    intro s st st' hinv h
    rcases step_cases s st b hinv with ⟨f, fn, hhit, _, _, _, hread, hinv1⟩ |
      ⟨d, hmiss, _, hatt, hread, hinv1⟩
    · rw [process_bytes_cons st _ b rest hread] at h
      rw [miss_count_cons st _ b rest hread, hhit,
        ih (s ++ [b]) (hit_state st (to_char (b.val : Int)) f fn) st' hinv1 h]
      simp [hit_state]
    · rw [process_bytes_cons st _ b rest hread] at h
      rw [miss_count_cons st _ b rest hread, hmiss,
        ih (s ++ [b]) (miss_state st (to_char (b.val : Int)) d) st' hinv1 h]
      simp [miss_state]
      omega

/-- C8 (factor count).  For every input the final value of `index->count`
equals the number of factors printed, which is the number of misses plus one
if the flush printed a trailing factor (that is, if `temp_ch` was not `NULL`
at the end of the stream); the final `count` equals the number of factors
printed for the loop of `main` as well. -/
theorem count_is_factor_count (s : List (Fin 256)) :
    (∃ st, process_bytes init_state s = some st ∧ encode s = some (flush st) ∧
      (flush st).index.count = (flush st).out.length ∧
      (flush st).out.length =
        miss_count init_state s + (if st.temp_ch = none then 0 else 1)) ∧
    (∃ st, main s = some st ∧ st.index.count = st.out.length) := by
  have key : ∀ t : List (Fin 256), ∃ st, process_bytes init_state t = some st ∧
      encode t = some (flush st) ∧
      (flush st).index.count = (flush st).out.length ∧
      (flush st).out.length =
        miss_count init_state t + (if st.temp_ch = none then 0 else 1) := by
    intro t
    obtain ⟨st, hrun, hinv⟩ := run_inv t
    have hlen := out_length_miss_count t [] init_state st inv_init hrun
    have hzero : init_state.out.length = 0 := rfl
    rw [hzero, Nat.zero_add] at hlen
    refine ⟨st, hrun, by rw [encode_eq, hrun]; rfl, ?_, ?_⟩
    · rcases flush_cases t st hinv with ⟨_, _, hfl⟩ | ⟨m, n, _, _, _, _, _, hout, hcnt, _⟩
      · rw [hfl, hinv.count_eq, hinv.out_len]
      · rw [hout, hcnt, hinv.count_eq, List.length_append, hinv.out_len]
        rfl
    · rcases flush_cases t st hinv with ⟨_, hch, hfl⟩ | ⟨m, n, _, _, hch, _, _, hout, _, _⟩
      · rw [hfl, hch, hlen]
        simp
      · rw [hout, hch, List.length_append, hlen]
        simp
  refine ⟨key s, ?_⟩
  obtain ⟨st, _, henc, hcount, _⟩ := key (s.takeWhile (fun b => decide (b.val ≠ 255)))
  exact ⟨flush st, by rw [main_eq_encode, henc], hcount⟩

/-- C9 (the input "aaaa").  Encoding the four bytes `aaaa` prints exactly the
three factors `('a', 0)`, `('a', 1)`, `('a', 0)`, in this order, both by the
encoder run and by the loop of `main`. -/
theorem encode_aaaa :
    (encode [97, 97, 97, 97]).map (fun st => st.out) = some [(97, 0), (97, 1), (97, 0)] ∧
    (main [97, 97, 97, 97]).map (fun st => st.out) = some [(97, 0), (97, 1), (97, 0)] := by
  decide

/-- C10 (single byte).  For every one-byte input `[b]` the encoder prints
exactly one factor, `(b, 0)`: the byte is a miss, so `temp_ch` is `NULL` at
the end of the stream and the flush prints nothing.  In particular the input
"a" yields exactly `('a', 0)`, from the loop of `main` too. -/
theorem encode_single_byte (b : Fin 256) :
    (∃ st, process_bytes init_state [b] = some st ∧ st.out = [(b.val, 0)] ∧
      st.temp_ch = none ∧ flush st = st ∧ encode [b] = some st) ∧
    (encode [97]).map (fun st => st.out) = some [(97, 0)] ∧
    (main [97]).map (fun st => st.out) = some [(97, 0)] := by
  refine ⟨?_, by decide, by decide⟩
  have hproc : ∀ st, read_char init_state (to_char (b.val : Int)) = some st →
      process_bytes init_state [b] = some st := by
    intro st h
    simp only [process_bytes, h]
  rcases step_cases [] init_state b inv_init with ⟨f, fn, _, hf, _⟩ |
    ⟨d, _, _, _, hread, _⟩
  · simp [init_state, make_empty_tree] at hf
  · refine ⟨_, hproc _ hread, ?_, rfl, flush_none _ rfl, ?_⟩
    · simp only [miss_state, to_uchar_to_char]
      rfl
    · rw [encode_eq, hproc _ hread]
      simp only [Option.map_some', flush_none _ (rfl : (miss_state init_state
        (to_char (b.val : Int)) d).temp_ch = none)]

/-- C11 (empty input).  On the empty input the encoder, and the loop of
`main`, end in the initial state: no factor is printed, the input byte count
and the factor count are 0, and the dictionary is empty (no node, `NULL`
root). -/
theorem encode_empty :
    encode [] = some init_state ∧ main [] = some init_state ∧
    init_state.out = [] ∧ init_state.ch_count = 0 ∧ init_state.index.count = 0 ∧
    init_state.dict.nodes = [] ∧ init_state.dict.root = none := by
  decide

theorem process_char_hit (st : state_t) (c : Int) (f : Nat) (fn : node_t)
    (hs : search_branch st.dict (temp_data st c) st.temp_node = some (some f))
    (hf : st.dict.nodes[f]? = some fn) :
    process_char { st with temp_ch := some c } =
      some { st with
        temp_ch := some c
        temp_node := some f
        index := { temp := fn.data.index, pre := st.index.temp, count := st.index.count } } := by
  simp [process_char, temp_data_with, hs, hf]

/-- C12 (a hit only moves the match state).  In every state the encoder
reaches and for every byte `b` for which `search_branch` finds a node `f`,
`process_char` (called with `b` stored in `temp_ch`) returns the same state
except that `temp_node` is `f`, `temp` is the index of `f`, `pre` is the old
`temp`, and `temp_ch` still holds `b`: no factor is printed and the
dictionary, with every node and link, and `count` are unchanged. -/
theorem hit_frame (s : List (Fin 256)) :
    ∃ st, process_bytes init_state s = some st ∧
      ∀ (b : Fin 256) (f : Nat),
        search_branch st.dict (temp_data st (to_char (b.val : Int))) st.temp_node
          = some (some f) →
        ∃ st' fn, st.dict.nodes[f]? = some fn ∧
          process_char { st with temp_ch := some (to_char (b.val : Int)) } = some st' ∧
          st'.out = st.out ∧ st'.dict = st.dict ∧ st'.index.count = st.index.count ∧
          st'.ch_count = st.ch_count ∧
          st'.index.pre = st.index.temp ∧ st'.temp_node = some f ∧
          st'.index.temp = fn.data.index ∧
          st'.temp_ch = some (to_char (b.val : Int)) := by
  obtain ⟨st, hrun, _⟩ := run_inv s
  refine ⟨st, hrun, ?_⟩
  intro b f hs
  obtain ⟨fn, hf, _, _⟩ := search_branch_found _ _ _ _ hs
  have h := process_char_hit st (to_char (b.val : Int)) f fn hs hf
  exact ⟨_, fn, hf, h, rfl, rfl, rfl, rfl, rfl, rfl, rfl, rfl⟩

/-- C13 (state invariant).  After any number of encoder steps: `temp_ch` is
`NULL` exactly when `temp_node` is `NULL`; `temp` is the index of the node
`temp_node` points to, and 0 when `temp_node` is `NULL`; `pre` is the index
of the prefix node of that node, and 0 when `temp_node` is `NULL` or that
node has no prefix node. -/
theorem match_state_invariant (s : List (Fin 256)) :
    ∃ st, process_bytes init_state s = some st ∧
      (st.temp_ch = none ↔ st.temp_node = none) ∧
      (st.temp_node = none → st.index.temp = 0 ∧ st.index.pre = 0) ∧
      (∀ (m : Nat), st.temp_node = some m →
        ∃ n : node_t, st.dict.nodes[m]? = some n ∧ st.index.temp = n.data.index ∧
          (n.data.prefix_node = none → st.index.pre = 0) ∧
          (∀ p, n.data.prefix_node = some p →
            ∃ pn : node_t, st.dict.nodes[p]? = some pn ∧
              st.index.pre = pn.data.index)) := by
  obtain ⟨st, hrun, hinv⟩ := run_inv s
  refine ⟨st, hrun, ?_, ?_, ?_⟩
  · constructor
    · intro h
      cases htn : st.temp_node with
      | none => rfl
      | some m =>
        obtain ⟨n, _, hch, _⟩ := hinv.match_some m htn
        rw [h] at hch
        cases hch
    · intro h
      exact (hinv.match_none h).1
  · intro h
    refine ⟨?_, (hinv.match_none h).2⟩
    rw [hinv.temp_ok, h]
    rfl
  · intro m hm
    obtain ⟨n, hn, _, hpre⟩ := hinv.match_some m hm
    refine ⟨n, hn, ?_, ?_, ?_⟩
    · rw [hinv.temp_ok, hm]
      exact index_of_some _ m n hn
    · intro hp
      rw [hpre, hp]
      rfl
    · intro p hp
      have hpa := (hinv.links m n hn).2.2 p hp
      have hmlt := getElem?_lt _ _ _ hn
      have hplt : p < st.dict.nodes.length := by omega
      refine ⟨_, List.getElem?_eq_getElem hplt, ?_⟩
      rw [hpre, hp]
      exact index_of_some _ p _ (List.getElem?_eq_getElem hplt)

/-- Every node with a prefix node lies in the subtree at the right child of
its prefix node. -/
theorem inv_right_subtree (s : List (Fin 256)) (st : state_t) (hinv : Inv s st)
    (a p : Nat) (n pn : node_t) (ha : st.dict.nodes[a]? = some n)
    (hp : n.data.prefix_node = some p) (hpn : st.dict.nodes[p]? = some pn) :
    Reach st.dict.nodes pn.rght a := by
  have h := hinv.found a n ha
  rw [hp, search_branch_node _ _ p pn hpn] at h
  exact search_reach _ _ _ _ _ h

/-- C14 (right-subtree containment).  After any number of encoder steps every
node is reachable from the root of the tree, and every node whose
`prefix_node` is a node `p` lies in the subtree rooted at the right child of
`p`; in particular a node that extends the current match `temp_node` by one
char lies in the right subtree of `temp_node`, where `search_branch` looks
for it. -/
theorem right_subtree_containment (s : List (Fin 256)) :
    ∃ st, process_bytes init_state s = some st ∧
      (∀ a, a < st.dict.nodes.length → Reach st.dict.nodes st.dict.root a) ∧
      (∀ (a p : Nat) (n : node_t), st.dict.nodes[a]? = some n →
        n.data.prefix_node = some p →
        ∃ pn : node_t, st.dict.nodes[p]? = some pn ∧ Reach st.dict.nodes pn.rght a) ∧
      (∀ (m a : Nat) (n : node_t), st.temp_node = some m →
        st.dict.nodes[a]? = some n → n.data.prefix_node = some m →
        ∃ mn : node_t, st.dict.nodes[m]? = some mn ∧ Reach st.dict.nodes mn.rght a ∧
          search_branch st.dict n.data (some m) = some (some a)) := by
  obtain ⟨st, hrun, hinv⟩ := run_inv s
  have key : ∀ (a p : Nat) (n : node_t), st.dict.nodes[a]? = some n →
      n.data.prefix_node = some p →
      ∃ pn : node_t, st.dict.nodes[p]? = some pn ∧ Reach st.dict.nodes pn.rght a := by
    intro a p n ha hp
    have hpa := (hinv.links a n ha).2.2 p hp
    have halt := getElem?_lt _ _ _ ha
    have hplt : p < st.dict.nodes.length := by omega
    exact ⟨_, List.getElem?_eq_getElem hplt,
      inv_right_subtree s st hinv a p n _ ha hp (List.getElem?_eq_getElem hplt)⟩
  refine ⟨st, hrun, hinv.reach, key, ?_⟩
  intro m a n _ ha hp
  obtain ⟨mn, hmn, hr⟩ := key a m n ha hp
  refine ⟨mn, hmn, hr, ?_⟩
  have h := hinv.found a n ha
  rw [hp] at h
  exact h

theorem search_node_dir (h : List node_t) (f x : Nat) (n : node_t) (k : data_t)
    (hx : h[x]? = some n) :
    recursive_search_tree h (f + 1) (some x) k =
      match search_dir k n.data with
      | dir_t.left => recursive_search_tree h f n.left k
      | dir_t.rght => recursive_search_tree h f n.rght k
      | dir_t.stop => some (some x) := by
  rw [search_node h f x n k hx]
  unfold search_dir
  split
  · rfl
  · split <;> rfl

theorem insert_node_dir (f : Nat) (h : List node_t) (x node : Nat) (rn nn : node_t)
    (hx : h[x]? = some rn) (hn : h[node]? = some nn) :
    recursive_insert (f + 1) h (some x) node =
      match insert_dir nn.data rn.data with
      | dir_t.left =>
        (recursive_insert f h rn.left node).map (fun res => (set_left res.1 x res.2, some x))
      | _ =>
        (recursive_insert f h rn.rght node).map (fun res => (set_rght res.1 x res.2, some x)) := by
  rw [insert_node f h x node rn nn hx hn]
  unfold insert_dir
  split
  · cases recursive_insert f h rn.left node <;> rfl
  · cases recursive_insert f h rn.rght node <;> rfl

theorem search_dir_rght (key node : data_t) :
    search_dir key node = dir_t.rght ↔
      (key.prefix_node = node.prefix_node ∧ node.ch < key.ch) := by
  unfold search_dir dictcmp CUTOFF LESSTHAN
  by_cases hp : key.prefix_node = node.prefix_node
  · simp only [hp, ne_eq, not_true_eq_false, if_false, true_and]
    by_cases h1 : key.ch - node.ch < 0
    · simp only [h1, if_true]
      constructor
      · intro h; cases h
      · intro h; omega
    · simp only [h1, if_false]
      by_cases h2 : key.ch - node.ch > 0
      · simp only [h2, if_true, true_iff]; omega
      · simp only [h2, if_false]
        constructor
        · intro h; cases h
        · intro h; omega
  · simp [hp]

theorem insert_dir_rght (key node : data_t) :
    insert_dir key node = dir_t.rght ↔
      (key.prefix_node = node.prefix_node ∧ node.ch ≤ key.ch) := by
  unfold insert_dir dictcmp CUTOFF LESSTHAN
  by_cases hp : key.prefix_node = node.prefix_node
  · simp only [hp, ne_eq, not_true_eq_false, if_false, true_and]
    by_cases h1 : key.ch - node.ch < 0
    · simp only [h1, if_true]
      constructor
      · intro h; cases h
      · intro h; omega
    · simp only [h1, if_false, true_iff]; omega
  · simp [hp]

theorem search_dir_left (key node : data_t) :
    search_dir key node = dir_t.left ↔
      (key.prefix_node ≠ node.prefix_node ∨ key.ch < node.ch) := by
  unfold search_dir dictcmp CUTOFF LESSTHAN
  by_cases hp : key.prefix_node = node.prefix_node
  · simp only [hp, ne_eq, not_true_eq_false, if_false, false_or]
    by_cases h1 : key.ch - node.ch < 0
    · simp only [h1, if_true, true_iff]; omega
    · simp only [h1, if_false]
      by_cases h2 : key.ch - node.ch > 0
      · simp only [h2, if_true]
        constructor
        · intro h; cases h
        · intro h; omega
      · simp only [h2, if_false]
        constructor
        · intro h; cases h
        · intro h; omega
  · simp [hp]

theorem insert_dir_left (key node : data_t) :
    insert_dir key node = dir_t.left ↔
      (key.prefix_node ≠ node.prefix_node ∨ key.ch < node.ch) := by
  unfold insert_dir dictcmp CUTOFF LESSTHAN
  by_cases hp : key.prefix_node = node.prefix_node
  · simp only [hp, ne_eq, not_true_eq_false, if_false, false_or]
    by_cases h1 : key.ch - node.ch < 0
    · simp only [h1, if_true, true_iff]; omega
    · simp only [h1, if_false]
      constructor
      · intro h; cases h
      · intro h; omega
  · simp [hp]

theorem search_dir_stop (key node : data_t) :
    search_dir key node = dir_t.stop ↔
      (key.prefix_node = node.prefix_node ∧ key.ch = node.ch) := by
  unfold search_dir dictcmp CUTOFF LESSTHAN
  by_cases hp : key.prefix_node = node.prefix_node
  · simp only [hp, ne_eq, not_true_eq_false, if_false, true_and]
    by_cases h1 : key.ch - node.ch < 0
    · simp only [h1, if_true]
      constructor
      · intro h; cases h
      · intro h; omega
    · simp only [h1, if_false]
      by_cases h2 : key.ch - node.ch > 0
      · simp only [h2, if_true]
        constructor
        · intro h; cases h
        · intro h; omega
      · simp only [h2, if_false, true_iff]; omega
  · simp [hp]

theorem insert_dir_ne_stop (key node : data_t) : insert_dir key node ≠ dir_t.stop := by
  unfold insert_dir
  split <;> intro h <;> cases h

/-- C18 (counterexample).  After the byte `b` was processed, the key for the
byte `a` has the same prefix (`NULL`) as the node in the tree, and both the
search and the insertion go to the left child of that node, not to the
right. -/
theorem direction_rule_counterexample :
    (process_bytes init_state [98]).map (fun st => st.dict.nodes.map (fun n =>
      (decide ((temp_data st (to_char 97)).prefix_node = n.data.prefix_node),
       search_dir (temp_data st (to_char 97)) n.data,
       insert_dir (temp_data st (to_char 97)) n.data)))
      = some [(true, dir_t.left, dir_t.left)] ∧
    ¬ (search_dir { prefix_node := none, index := 2, ch := 97 }
          { prefix_node := none, index := 1, ch := 98 } = dir_t.rght ↔
        (({ prefix_node := none, index := 2, ch := 97 } : data_t).prefix_node =
          ({ prefix_node := none, index := 1, ch := 98 } : data_t).prefix_node)) := by
  decide

/-- C18 (amended direction rule).  When a key is compared against a node,
`recursive_search_tree` goes to the right child exactly when the key has the
prefix of the node and a greater char, and `recursive_insert` goes to the
right child exactly when the key has the prefix of the node and a char that
is not smaller; in both, going right happens only if the prefixes are the
same, a key with a different prefix always goes left, and a key with the same
prefix and a smaller char goes left as well.  Both go left exactly in these
two cases; the search stops exactly when prefix and char are equal, and the
insertion never stops at a node.  `search_dir` and `insert_dir` are the
branches the two functions take. -/
theorem direction_rule (key node : data_t) :
    (search_dir key node = dir_t.rght ↔
      (key.prefix_node = node.prefix_node ∧ node.ch < key.ch)) ∧
    (insert_dir key node = dir_t.rght ↔
      (key.prefix_node = node.prefix_node ∧ node.ch ≤ key.ch)) ∧
    (search_dir key node = dir_t.rght → key.prefix_node = node.prefix_node) ∧
    (insert_dir key node = dir_t.rght → key.prefix_node = node.prefix_node) ∧
    (key.prefix_node ≠ node.prefix_node →
      search_dir key node = dir_t.left ∧ insert_dir key node = dir_t.left) ∧
    (key.prefix_node = node.prefix_node → key.ch < node.ch →
      search_dir key node = dir_t.left ∧ insert_dir key node = dir_t.left) ∧
    (search_dir key node = dir_t.left ↔
      (key.prefix_node ≠ node.prefix_node ∨ key.ch < node.ch)) ∧
    (insert_dir key node = dir_t.left ↔
      (key.prefix_node ≠ node.prefix_node ∨ key.ch < node.ch)) ∧
    (search_dir key node = dir_t.stop ↔
      (key.prefix_node = node.prefix_node ∧ key.ch = node.ch)) ∧
    insert_dir key node ≠ dir_t.stop ∧
    (∀ (h : List node_t) (f x : Nat) (n : node_t), h[x]? = some n → n.data = node →
      recursive_search_tree h (f + 1) (some x) key =
        match search_dir key node with
        | dir_t.left => recursive_search_tree h f n.left key
        | dir_t.rght => recursive_search_tree h f n.rght key
        | dir_t.stop => some (some x)) ∧
    (∀ (h : List node_t) (f x a : Nat) (n nn : node_t), h[x]? = some n → n.data = node →
      h[a]? = some nn → nn.data = key →
      recursive_insert (f + 1) h (some x) a =
        match insert_dir key node with
        | dir_t.left =>
          (recursive_insert f h n.left a).map (fun res => (set_left res.1 x res.2, some x))
        | _ =>
          (recursive_insert f h n.rght a).map
            (fun res => (set_rght res.1 x res.2, some x))) := by
  refine ⟨search_dir_rght key node, insert_dir_rght key node,
    fun h => ((search_dir_rght key node).mp h).1,
    fun h => ((insert_dir_rght key node).mp h).1,
    fun hne => ⟨(search_dir_left key node).mpr (Or.inl hne),
      (insert_dir_left key node).mpr (Or.inl hne)⟩,
    fun _ hc => ⟨(search_dir_left key node).mpr (Or.inr hc),
      (insert_dir_left key node).mpr (Or.inr hc)⟩,
    search_dir_left key node, insert_dir_left key node, search_dir_stop key node,
    insert_dir_ne_stop key node, ?_, ?_⟩
  · intro h f x n hx hd
    rw [← hd]
    exact search_node_dir h f x n key hx
  · intro h f x a n nn hx hd ha hk
    rw [← hd, ← hk]
    exact insert_node_dir f h x a n nn hx ha

/-- With forward child links `recursive_insert` ends within the fuel the
caller passes. -/
theorem insert_total (h : List node_t) (node : Nat) (nn : node_t)
    (hn : h[node]? = some nn)
    (hl : ∀ (a : Nat) (n : node_t), h[a]? = some n →
      (∀ l, n.left = some l → a < l ∧ l < h.length) ∧
      (∀ r, n.rght = some r → a < r ∧ r < h.length)) :
    ∀ (fuel : Nat) (r : Option Nat),
      (∀ x, r = some x → x < h.length) →
      h.length + 1 ≤ fuel + r.getD h.length →
      ∃ res, recursive_insert fuel h r node = some res := by
  intro fuel
  induction fuel with
  | zero =>
    intro r hr hf
    cases r with
    | none => simp at hf
    | some x => have := hr x rfl; simp at hf; omega
  | succ f ih =>
    intro r hr hf
    cases r with
    | none => exact ⟨_, insert_null f h node⟩
    | some x =>
      have hxl := hr x rfl
      have hx : h[x]? = some h[x] := List.getElem?_eq_getElem hxl
      obtain ⟨hleft, hrght⟩ := hl x h[x] hx
      rw [insert_node f h x node h[x] nn hx hn]
      simp only [Option.getD_some] at hf
      split
      · have hsub : ∃ res, recursive_insert f h h[x].left node = some res := by
          apply ih
          · intro y hy; exact (hleft y hy).2
          · cases hnl : h[x].left with
            | none => simp; omega
            | some l => have := hleft l hnl; simp; omega
        obtain ⟨res, hres⟩ := hsub
        rw [hres]
        exact ⟨_, rfl⟩
      · have hsub : ∃ res, recursive_insert f h h[x].rght node = some res := by
          apply ih
          · intro y hy; exact (hrght y hy).2
          · cases hnr : h[x].rght with
            | none => simp; omega
            | some l => have := hrght l hnr; simp; omega
        obtain ⟨res, hres⟩ := hsub
        rw [hres]
        exact ⟨_, rfl⟩

/-- On a store with forward links `insert_in_order_branch` always returns. -/
theorem insert_in_order_branch_total (t : tree_t) (value : data_t) (branch : Option Nat)
    (hl : LinksOk t.nodes) (hroot : ∀ r, t.root = some r → r < t.nodes.length)
    (hbr : ∀ b, branch = some b → b < t.nodes.length) :
    ∃ d, insert_in_order_branch t value branch = some d := by
  have hN : (t.nodes ++ [({ data := value, left := none, rght := none } : node_t)])[
      t.nodes.length]? = some { data := value, left := none, rght := none } :=
    List.getElem?_concat_length _ _
  have hlen : (t.nodes ++ [({ data := value, left := none, rght := none } : node_t)]).length
      = t.nodes.length + 1 := by simp
  have hlinks : ∀ (a : Nat) (n : node_t),
      (t.nodes ++ [({ data := value, left := none, rght := none } : node_t)])[a]? = some n →
      (∀ l, n.left = some l → a < l ∧
        l < (t.nodes ++ [({ data := value, left := none, rght := none } : node_t)]).length) ∧
      (∀ r, n.rght = some r → a < r ∧
        r < (t.nodes ++ [({ data := value, left := none, rght := none } : node_t)]).length) := by
    intro a n ha
    rw [hlen]
    by_cases hlt : a < t.nodes.length
    · rw [List.getElem?_append_left hlt] at ha
      obtain ⟨h1, h2, _⟩ := hl a n ha
      constructor
      · intro l e
        have := h1 l e
        omega
      · intro r e
        have := h2 r e
        omega
    · have halt := getElem?_lt _ _ _ ha
      rw [hlen] at halt
      have hal : a = t.nodes.length := by omega
      rw [hal, hN] at ha
      have e := Option.some.inj ha
      rw [← e]
      exact ⟨fun l e => (by cases e), fun r e => (by cases e)⟩
  cases branch with
  | none =>
    obtain ⟨res, hres⟩ := insert_total _ t.nodes.length _ hN hlinks
      (t.nodes.length + 1 + 1) t.root
      (fun x e => by rw [hlen]; have := hroot x e; omega)
      (by rw [hlen]; omega)
    simp only [insert_in_order_branch, hlen, hres]
    exact ⟨_, rfl⟩
  | some b =>
    have hblt := hbr b rfl
    have hb : t.nodes[b]? = some t.nodes[b] := List.getElem?_eq_getElem hblt
    have hb1 : (t.nodes ++ [({ data := value, left := none, rght := none } : node_t)])[b]?
        = some t.nodes[b] := by rw [List.getElem?_append_left hblt, hb]
    obtain ⟨res, hres⟩ := insert_total _ t.nodes.length _ hN hlinks
      (t.nodes.length + 1 + 1) t.nodes[b].rght
      (fun x e => ((hlinks b _ hb1).2 x e).2)
      (by rw [hlen]; omega)
    simp only [insert_in_order_branch, hlen, hb1, hres]
    exact ⟨_, rfl⟩

/-- Everything below a pointer has an address that is not smaller. -/
theorem reach_ge (h : List node_t) (hl : LinksOk h) (r : Option Nat) (c : Nat)
    (hr : Reach h r c) : ∀ x, r = some x → x ≤ c := by
  induction hr with
  | here a => intro x e; cases e; exact Nat.le_refl _
  | left a n b ha _ ih =>
    intro x e
    cases e
    cases hnl : n.left with
    | none => rw [hnl] at ih; rename_i hsub; rw [hnl] at hsub; exact absurd hsub (reach_none _ _)
    | some l =>
      have h1 := ih l hnl
      have h2 := ((hl a n ha).1 l hnl).1
      omega
  | rght a n b ha _ ih =>
    intro x e
    cases e
    cases hnr : n.rght with
    | none => rw [hnr] at ih; rename_i hsub; rw [hnr] at hsub; exact absurd hsub (reach_none _ _)
    | some l =>
      have h1 := ih l hnr
      have h2 := ((hl a n ha).2.1 l hnr).1
      omega

/-- No node lies below one of its own children. -/
theorem reach_child_ne (h : List node_t) (hl : LinksOk h) (a : Nat) (n : node_t)
    (ha : h[a]? = some n) : ¬ Reach h n.left a ∧ ¬ Reach h n.rght a := by
  constructor
  · intro hr
    cases hnl : n.left with
    | none => rw [hnl] at hr; exact reach_none _ _ hr
    | some l =>
      have h1 := reach_ge h hl _ a hr l hnl
      have h2 := ((hl a n ha).1 l hnl).1
      omega
  · intro hr
    cases hnr : n.rght with
    | none => rw [hnr] at hr; exact reach_none _ _ hr
    | some l =>
      have h1 := reach_ge h hl _ a hr l hnr
      have h2 := ((hl a n ha).2.1 l hnr).1
      omega

theorem phrase_of_zero (h : List node_t) (p : Option Nat) : phrase_of h 0 p = none := by
  rw [phrase_of]

theorem phrase_of_null (h : List node_t) (f : Nat) : phrase_of h (f + 1) none = some [] := by
  rw [phrase_of]

theorem phrase_of_node (h : List node_t) (f a : Nat) (n : node_t) (ha : h[a]? = some n) :
    phrase_of h (f + 1) (some a) =
      (phrase_of h f n.data.prefix_node).map (fun w => w ++ [to_uchar n.data.ch]) := by
  rw [phrase_of]
  simp only [ha]
  cases phrase_of h f n.data.prefix_node <;> rfl

/-- With backward prefix links the phrase of a pointer is defined as soon as
the fuel exceeds the address by two. -/
theorem phrase_of_total (h : List node_t) (hl : LinksOk h) :
    ∀ (fuel : Nat) (p : Option Nat), 0 < fuel →
      (∀ a, p = some a → a < h.length ∧ a + 1 < fuel) →
      ∃ w, phrase_of h fuel p = some w := by
  intro fuel
  induction fuel with
  | zero => intro p h0; omega
  | succ f ih =>
    intro p _ hp
    cases p with
    | none => exact ⟨[], phrase_of_null h f⟩
    | some a =>
      obtain ⟨halt, haf⟩ := hp a rfl
      have ha : h[a]? = some h[a] := List.getElem?_eq_getElem halt
      rw [phrase_of_node h f a _ ha]
      have hsub : ∃ w, phrase_of h f h[a].data.prefix_node = some w := by
        apply ih _ (by omega)
        intro q hq
        have := (hl a _ ha).2.2 q hq
        exact ⟨by omega, by omega⟩
      obtain ⟨w, hw⟩ := hsub
      rw [hw]
      exact ⟨_, rfl⟩

/-- C20 (index-increasing links).  After any number of encoder steps, the left
and the right child of every node carry a strictly larger index than the node,
and the prefix node of every node carries a strictly smaller index; so no node
lies below one of its own children, and on this dictionary `search_branch`
and `insert_in_order_branch` return for every key and every branch that is
`NULL` or a node of the dictionary, within the fuel of one more than the
number of nodes, and so does the walk along the prefix links. -/
theorem links_increase_index (s : List (Fin 256)) :
    ∃ st, process_bytes init_state s = some st ∧
      (∀ (a : Nat) (n : node_t), st.dict.nodes[a]? = some n →
        (∀ l, n.left = some l →
          ∃ ln : node_t, st.dict.nodes[l]? = some ln ∧ n.data.index < ln.data.index) ∧
        (∀ r, n.rght = some r →
          ∃ rn : node_t, st.dict.nodes[r]? = some rn ∧ n.data.index < rn.data.index) ∧
        (∀ p, n.data.prefix_node = some p →
          ∃ pn : node_t, st.dict.nodes[p]? = some pn ∧ pn.data.index < n.data.index) ∧
        ¬ Reach st.dict.nodes n.left a ∧ ¬ Reach st.dict.nodes n.rght a) ∧
      (∀ (key : data_t) (branch : Option Nat),
        (∀ b, branch = some b → b < st.dict.nodes.length) →
        (∃ res, search_branch st.dict key branch = some res) ∧
        (∃ d, insert_in_order_branch st.dict key branch = some d)) ∧
      (∀ a, a < st.dict.nodes.length →
        ∃ w, phrase_of st.dict.nodes (st.dict.nodes.length + 1) (some a) = some w) := by
  obtain ⟨st, hrun, hinv⟩ := run_inv s
  refine ⟨st, hrun, ?_, ?_, ?_⟩
  · intro a n ha
    have halt := getElem?_lt _ _ _ ha
    obtain ⟨h1, h2, h3⟩ := hinv.links a n ha
    have hia := hinv.index_ok a n ha
    refine ⟨?_, ?_, ?_, reach_child_ne _ hinv.links a n ha⟩
    · intro l hl
      have hb := h1 l hl
      refine ⟨_, List.getElem?_eq_getElem hb.2, ?_⟩
      rw [hia, hinv.index_ok l _ (List.getElem?_eq_getElem hb.2)]
      omega
    · intro r hr
      have hb := h2 r hr
      refine ⟨_, List.getElem?_eq_getElem hb.2, ?_⟩
      rw [hia, hinv.index_ok r _ (List.getElem?_eq_getElem hb.2)]
      omega
    · intro p hp
      have hb := h3 p hp
      have hplt : p < st.dict.nodes.length := by omega
      refine ⟨_, List.getElem?_eq_getElem hplt, ?_⟩
      rw [hia, hinv.index_ok p _ (List.getElem?_eq_getElem hplt)]
      omega
  · intro key branch hbr
    exact ⟨search_branch_total st.dict key branch hinv.links hinv.root_ok hbr,
      insert_in_order_branch_total st.dict key branch hinv.links hinv.root_ok hbr⟩
  · intro a ha
    exact phrase_of_total _ hinv.links _ _ (by omega) (fun q e => by cases e; exact ⟨ha, by omega⟩)

theorem search_end_zero (h : List node_t) (r : Option Nat) (k : data_t) (sl : slot_t) :
    search_end h 0 r k sl = none := by
  rw [search_end]

theorem search_end_null (h : List node_t) (f : Nat) (k : data_t) (sl : slot_t) :
    search_end h (f + 1) none k sl = some sl := by
  rw [search_end]

theorem search_end_node (h : List node_t) (f x : Nat) (n : node_t) (k : data_t)
    (sl : slot_t) (hx : h[x]? = some n) :
    search_end h (f + 1) (some x) k sl =
      if dictcmp k n.data < CUTOFF then search_end h f n.left k (slot_t.left x)
      else if dictcmp k n.data > CUTOFF then search_end h f n.rght k (slot_t.rght x)
      else none := by
  rw [search_end]
  simp only [hx]

theorem search_end_dangling (h : List node_t) (f x : Nat) (k : data_t) (sl : slot_t)
    (hx : h[x]? = none) : search_end h (f + 1) (some x) k sl = none := by
  rw [search_end]
  simp only [hx]

/-- A search that ends at `NULL` ends at a slot. -/
theorem search_end_of_miss (h : List node_t) (k : data_t) :
    ∀ (fuel : Nat) (r : Option Nat) (sl0 : slot_t),
      recursive_search_tree h fuel r k = some none →
      ∃ sl, search_end h fuel r k sl0 = some sl := by
  intro fuel
  induction fuel with
  | zero => intro r sl0 hs; simp [search_zero] at hs
  | succ f ih =>
    intro r sl0 hs
    cases r with
    | none => exact ⟨sl0, search_end_null h f k sl0⟩
    | some x =>
      cases hx : h[x]? with
      | none => simp [search_dangling h f x k hx] at hs
      | some n =>
        rw [search_node h f x n k hx] at hs
        rw [search_end_node h f x n k sl0 hx]
        by_cases hlt : dictcmp k n.data < CUTOFF
        · rw [if_pos hlt] at hs ⊢; exact ih _ _ hs
        · rw [if_neg hlt] at hs ⊢
          by_cases hgt : dictcmp k n.data > CUTOFF
          · rw [if_pos hgt] at hs ⊢; exact ih _ _ hs
          · rw [if_neg hgt] at hs; cases hs

/-- The slot at which a search ends is the slot of the start pointer, if that
is `NULL`, or an empty child slot of the last node the search visits, on the
side the comparison with that node points to. -/
theorem search_end_spec (h : List node_t) (k : data_t) :
    ∀ (fuel : Nat) (r : Option Nat) (sl0 sl : slot_t),
      search_end h fuel r k sl0 = some sl →
      (r = none ∧ sl = sl0) ∨
      ∃ (p : Nat) (n : node_t), h[p]? = some n ∧ OnPath h k r p ∧
        ((sl = slot_t.left p ∧ n.left = none ∧ dictcmp k n.data < CUTOFF) ∨
         (sl = slot_t.rght p ∧ n.rght = none ∧ dictcmp k n.data > CUTOFF)) := by
  intro fuel
  induction fuel with
  | zero => intro r sl0 sl hs; simp [search_end_zero] at hs
  | succ f ih =>
    intro r sl0 sl hs
    cases r with
    | none =>
      rw [search_end_null] at hs
      exact Or.inl ⟨rfl, (Option.some.inj hs).symm⟩
    | some x =>
      right
      cases hx : h[x]? with
      | none => simp [search_end_dangling h f x k sl0 hx] at hs
      | some n =>
        rw [search_end_node h f x n k sl0 hx] at hs
        by_cases hlt : dictcmp k n.data < CUTOFF
        · rw [if_pos hlt] at hs
          rcases ih _ _ _ hs with ⟨hnone, hsl⟩ | ⟨p, m, hp, hpath, hside⟩
          · exact ⟨x, n, hx, OnPath.here x n hx, Or.inl ⟨hsl, hnone, hlt⟩⟩
          · exact ⟨p, m, hp, OnPath.left x n p hx hlt hpath, hside⟩
        · rw [if_neg hlt] at hs
          by_cases hgt : dictcmp k n.data > CUTOFF
          · rw [if_pos hgt] at hs
            rcases ih _ _ _ hs with ⟨hnone, hsl⟩ | ⟨p, m, hp, hpath, hside⟩
            · exact ⟨x, n, hx, OnPath.here x n hx, Or.inr ⟨hsl, hnone, hgt⟩⟩
            · exact ⟨p, m, hp, OnPath.rght x n p hx hgt hpath, hside⟩
          · rw [if_neg hgt] at hs; cases hs

theorem search_end_fuel_succ (h : List node_t) (k : data_t) :
    ∀ (fuel : Nat) (r : Option Nat) (sl0 sl : slot_t),
      search_end h fuel r k sl0 = some sl → search_end h (fuel + 1) r k sl0 = some sl := by
  intro fuel
  induction fuel with
  | zero => intro r sl0 sl hs; simp [search_end_zero] at hs
  | succ f ih =>
    intro r sl0 sl hs
    cases r with
    | none => rw [search_end_null] at hs ⊢; exact hs
    | some x =>
      cases hx : h[x]? with
      | none => simp [search_end_dangling h f x k sl0 hx] at hs
      | some n =>
        rw [search_end_node h f x n k sl0 hx] at hs
        rw [search_end_node h (f + 1) x n k sl0 hx]
        by_cases hlt : dictcmp k n.data < CUTOFF
        · rw [if_pos hlt] at hs ⊢; exact ih _ _ _ hs
        · rw [if_neg hlt] at hs ⊢
          by_cases hgt : dictcmp k n.data > CUTOFF
          · rw [if_pos hgt] at hs ⊢; exact ih _ _ _ hs
          · rw [if_neg hgt] at hs; cases hs

theorem search_end_append (h ext : List node_t) (k : data_t) :
    ∀ (fuel : Nat) (r : Option Nat) (sl0 sl : slot_t),
      search_end h fuel r k sl0 = some sl → search_end (h ++ ext) fuel r k sl0 = some sl := by
  intro fuel
  induction fuel with
  | zero => intro r sl0 sl hs; simp [search_end_zero] at hs
  | succ f ih =>
    intro r sl0 sl hs
    cases r with
    | none => rw [search_end_null] at hs ⊢; exact hs
    | some x =>
      cases hx : h[x]? with
      | none => simp [search_end_dangling h f x k sl0 hx] at hs
      | some n =>
        have hx' : (h ++ ext)[x]? = some n := by
          rw [List.getElem?_append_left (getElem?_lt _ _ _ hx), hx]
        rw [search_end_node h f x n k sl0 hx] at hs
        rw [search_end_node (h ++ ext) f x n k sl0 hx']
        by_cases hlt : dictcmp k n.data < CUTOFF
        · rw [if_pos hlt] at hs ⊢; exact ih _ _ _ hs
        · rw [if_neg hlt] at hs ⊢
          by_cases hgt : dictcmp k n.data > CUTOFF
          · rw [if_pos hgt] at hs ⊢; exact ih _ _ _ hs
          · rw [if_neg hgt] at hs; cases hs

/-- A node keeps its left pointer when a slot other than its left slot is
filled. -/
theorem fill_slot_left (h : List node_t) (sl : slot_t) (v : Option Nat) (x : Nat)
    (n : node_t) (hx : h[x]? = some n) (hne : sl ≠ slot_t.left x) :
    ∃ n' : node_t, (fill_slot h sl v)[x]? = some n' ∧ n'.left = n.left ∧ n'.data = n.data := by
  cases sl with
  | root => exact ⟨n, hx, rfl, rfl⟩
  | left p =>
    have hpx : x ≠ p := fun e => hne (by rw [e])
    exact ⟨n, by simp only [fill_slot]; rw [get_set_left, if_neg hpx, hx], rfl, rfl⟩
  | rght p =>
    simp only [fill_slot]
    rw [get_set_rght]
    by_cases hpx : x = p
    · subst hpx
      rw [if_pos rfl, hx]
      exact ⟨_, rfl, rfl, rfl⟩
    · rw [if_neg hpx]
      exact ⟨n, hx, rfl, rfl⟩

/-- A node keeps its right pointer when a slot other than its right slot is
filled. -/
theorem fill_slot_rght (h : List node_t) (sl : slot_t) (v : Option Nat) (x : Nat)
    (n : node_t) (hx : h[x]? = some n) (hne : sl ≠ slot_t.rght x) :
    ∃ n' : node_t, (fill_slot h sl v)[x]? = some n' ∧ n'.rght = n.rght ∧ n'.data = n.data := by
  cases sl with
  | root => exact ⟨n, hx, rfl, rfl⟩
  | rght p =>
    have hpx : x ≠ p := fun e => hne (by rw [e])
    exact ⟨n, by simp only [fill_slot]; rw [get_set_rght, if_neg hpx, hx], rfl, rfl⟩
  | left p =>
    simp only [fill_slot]
    rw [get_set_left]
    by_cases hpx : x = p
    · subst hpx
      rw [if_pos rfl, hx]
      exact ⟨_, rfl, rfl, rfl⟩
    · rw [if_neg hpx]
      exact ⟨n, hx, rfl, rfl⟩

/-- After a search that ended at a slot, `recursive_insert` with the same key
returns the store with that slot filled (the caller fills the slot of a `NULL`
start pointer). -/
theorem insert_end (k : data_t) (node : Nat) :
    ∀ (fuel : Nat) (h : List node_t) (r : Option Nat) (nn : node_t) (sl0 sl : slot_t),
      h[node]? = some nn → nn.data = k →
      search_end h fuel r k sl0 = some sl →
      (r = none → recursive_insert fuel h r node = some (h, some node)) ∧
      (∀ x, r = some x →
        recursive_insert fuel h r node = some (fill_slot h sl (some node), some x)) := by
  intro fuel
  induction fuel with
  | zero => intro h r nn sl0 sl _ _ hs; simp [search_end_zero] at hs
  | succ f ih =>
    intro h r nn sl0 sl hn hk hs
    cases r with
    | none =>
      exact ⟨fun _ => insert_null f h node, fun x e => by cases e⟩
    | some x =>
      refine ⟨fun e => (by cases e), ?_⟩
      intro x' e
      cases e
      cases hx : h[x]? with
      | none => simp [search_end_dangling h f x k sl0 hx] at hs
      | some rn =>
        rw [search_end_node h f x rn k sl0 hx] at hs
        rw [insert_node f h x node rn nn hx hn, hk]
        by_cases hlt : dictcmp k rn.data < CUTOFF
        · rw [if_pos hlt] at hs
          rw [if_pos hlt]
          obtain ⟨hnull, hnode⟩ := ih h rn.left nn (slot_t.left x) sl hn hk hs
          cases hleft : rn.left with
          | none =>
            rw [hleft] at hs
            cases f with
            | zero => simp [search_end_zero] at hs
            | succ g =>
              rw [search_end_null] at hs
              have h1 := hnull hleft
              rw [hleft] at h1
              rw [h1, ← Option.some.inj hs]
              rfl
          | some y =>
            have h1 := hnode y hleft
            rw [hleft] at h1
            rw [h1]
            have hne : sl ≠ slot_t.left x := by
              rw [hleft] at hs
              rcases search_end_spec h k f _ _ _ hs with ⟨e, _⟩ | ⟨p, m, hp, _, ⟨e, hm, _⟩ | ⟨e, _, _⟩⟩
              · cases e
              · intro e2
                rw [e] at e2
                cases e2
                rw [hx] at hp
                cases hp
                rw [hleft] at hm
                cases hm
              · intro e2
                rw [e] at e2
                cases e2
            obtain ⟨n1, hx1, hl1, _⟩ := fill_slot_left h sl (some node) x rn hx hne
            simp only
            rw [set_left_same _ x n1 (some y) hx1 (by rw [hl1, hleft])]
        · rw [if_neg hlt] at hs
          rw [if_neg hlt]
          by_cases hgt : dictcmp k rn.data > CUTOFF
          · rw [if_pos hgt] at hs
            obtain ⟨hnull, hnode⟩ := ih h rn.rght nn (slot_t.rght x) sl hn hk hs
            cases hrght : rn.rght with
            | none =>
              rw [hrght] at hs
              cases f with
              | zero => simp [search_end_zero] at hs
              | succ g =>
                rw [search_end_null] at hs
                have h1 := hnull hrght
                rw [hrght] at h1
                rw [h1, ← Option.some.inj hs]
                rfl
            | some y =>
              have h1 := hnode y hrght
              rw [hrght] at h1
              rw [h1]
              have hne : sl ≠ slot_t.rght x := by
                rw [hrght] at hs
                rcases search_end_spec h k f _ _ _ hs with
                  ⟨e, _⟩ | ⟨p, m, hp, _, ⟨e, _, _⟩ | ⟨e, hm, _⟩⟩
                · cases e
                · intro e2
                  rw [e] at e2
                  cases e2
                · intro e2
                  rw [e] at e2
                  cases e2
                  rw [hx] at hp
                  cases hp
                  rw [hrght] at hm
                  cases hm
              obtain ⟨n1, hx1, hr1, _⟩ := fill_slot_rght h sl (some node) x rn hx hne
              simp only
              rw [set_rght_same _ x n1 (some y) hx1 (by rw [hr1, hrght])]
          · rw [if_neg hgt] at hs; cases hs

theorem search_branch_end_null (t : tree_t) (k : data_t) :
    search_branch_end t k none =
      search_end t.nodes (t.nodes.length + 1) t.root k slot_t.root := rfl

theorem search_branch_end_node (t : tree_t) (k : data_t) (b : Nat) (bn : node_t)
    (hb : t.nodes[b]? = some bn) :
    search_branch_end t k (some b) =
      search_end t.nodes (t.nodes.length + 1) bn.rght k (slot_t.rght b) := by
  simp only [search_branch_end, hb]

/-- A `search_branch` that returns `NULL` ends at a slot. -/
theorem search_branch_end_of_miss (t : tree_t) (k : data_t) (br : Option Nat)
    (hs : search_branch t k br = some none) :
    ∃ sl, search_branch_end t k br = some sl := by
  cases br with
  | none =>
    rw [search_branch_null] at hs
    exact search_end_of_miss _ _ _ _ _ hs
  | some b =>
    cases hb : t.nodes[b]? with
    | none => simp [search_branch, branch_start, hb] at hs
    | some bn =>
      rw [search_branch_node t k b bn hb] at hs
      rw [search_branch_end_node t k b bn hb]
      exact search_end_of_miss _ _ _ _ _ hs

/-- Where `search_branch` ends: at the root slot of the empty tree, at the
empty right slot of the branch, or at an empty child slot of the last node
visited by the search from the start pointer, on the side the comparison with
that node points to. -/
theorem search_branch_end_spec (t : tree_t) (k : data_t) (br : Option Nat) (sl : slot_t)
    (hs : search_branch_end t k br = some sl) :
    (br = none ∧ t.root = none ∧ sl = slot_t.root) ∨
    (∃ (b : Nat) (bn : node_t), br = some b ∧ t.nodes[b]? = some bn ∧ bn.rght = none ∧
      sl = slot_t.rght b) ∨
    (∃ (start : Option Nat) (p : Nat) (n : node_t), branch_start t br = some start ∧
      t.nodes[p]? = some n ∧ OnPath t.nodes k start p ∧
      ((sl = slot_t.left p ∧ n.left = none ∧ dictcmp k n.data < CUTOFF) ∨
       (sl = slot_t.rght p ∧ n.rght = none ∧ dictcmp k n.data > CUTOFF))) := by
  cases br with
  | none =>
    rw [search_branch_end_null] at hs
    rcases search_end_spec _ _ _ _ _ _ hs with ⟨hr, hsl⟩ | ⟨p, n, hp, hpath, hside⟩
    · exact Or.inl ⟨rfl, hr, hsl⟩
    · exact Or.inr (Or.inr ⟨t.root, p, n, rfl, hp, hpath, hside⟩)
  | some b =>
    cases hb : t.nodes[b]? with
    | none => simp [search_branch_end, hb] at hs
    | some bn =>
      rw [search_branch_end_node t k b bn hb] at hs
      rcases search_end_spec _ _ _ _ _ _ hs with ⟨hr, hsl⟩ | ⟨p, n, hp, hpath, hside⟩
      · exact Or.inr (Or.inl ⟨b, bn, rfl, hb, hr, hsl⟩)
      · exact Or.inr (Or.inr ⟨bn.rght, p, n, by simp [branch_start, hb], hp, hpath, hside⟩)

/-- The slot at which `search_branch` ends holds `NULL`. -/
theorem search_branch_end_empty (t : tree_t) (k : data_t) (br : Option Nat) (sl : slot_t)
    (hs : search_branch_end t k br = some sl) : get_slot t sl = some none := by
  rcases search_branch_end_spec t k br sl hs with ⟨_, hr, e⟩ | ⟨b, bn, _, hb, hr, e⟩ |
    ⟨_, p, n, _, hp, _, ⟨e, hn, _⟩ | ⟨e, hn, _⟩⟩
  · rw [e]; simp [get_slot, hr]
  · rw [e]; simp [get_slot, hb, hr]
  · rw [e]; simp [get_slot, hp, hn]
  · rw [e]; simp [get_slot, hp, hn]

/-- After a `search_branch` that ended at a slot, `insert_in_order_branch`
with the same key and branch returns the tree with the fresh node appended to
the store and written to that slot, and nothing else changed. -/
theorem insert_in_order_branch_end (t : tree_t) (value : data_t) (br : Option Nat)
    (sl : slot_t) (hs : search_branch_end t value br = some sl) :
    insert_in_order_branch t value br =
      some (set_slot
        { nodes := t.nodes ++ [{ data := value, left := none, rght := none }],
          root := t.root } sl (some t.nodes.length)) := by
  have hN : (t.nodes ++ [({ data := value, left := none, rght := none } : node_t)])[
      t.nodes.length]? = some { data := value, left := none, rght := none } :=
    List.getElem?_concat_length _ _
  have hlen : (t.nodes ++ [({ data := value, left := none, rght := none } : node_t)]).length
      = t.nodes.length + 1 := by simp
  cases br with
  | none =>
    have hspec := search_branch_end_spec t value none sl hs
    rw [search_branch_end_null] at hs
    have hs1 := search_end_fuel_succ _ _ _ _ _ _
      (search_end_append t.nodes [{ data := value, left := none, rght := none }] value _ _ _ _ hs)
    obtain ⟨hnull, hnode⟩ := insert_end value t.nodes.length _ _ t.root _ _ _ hN rfl hs1
    cases hr : t.root with
    | none =>
      have hsl : sl = slot_t.root := by
        rw [hr, search_end_null] at hs
        exact (Option.some.inj hs).symm
      have h1 := hnull hr
      rw [hr] at h1
      simp only [insert_in_order_branch, hlen, hr, h1, hsl, set_slot]
    | some x =>
      have h1 := hnode x hr
      rw [hr] at h1
      simp only [insert_in_order_branch, hlen, hr, h1]
      rcases hspec with ⟨_, hr0, _⟩ | ⟨b, _, e, _⟩ | ⟨_, p, n, _, _, _, ⟨e, _, _⟩ | ⟨e, _, _⟩⟩
      · rw [hr] at hr0; cases hr0
      · cases e
      · rw [e]; rfl
      · rw [e]; rfl
  | some b =>
    cases hb : t.nodes[b]? with
    | none => simp [search_branch_end, hb] at hs
    | some bn =>
      have hblt := getElem?_lt _ _ _ hb
      have hb1 : (t.nodes ++ [({ data := value, left := none, rght := none } : node_t)])[b]?
          = some bn := by rw [List.getElem?_append_left hblt, hb]
      rw [search_branch_end_node t value b bn hb] at hs
      have hs1 := search_end_fuel_succ _ _ _ _ _ _
        (search_end_append t.nodes [{ data := value, left := none, rght := none }] value
          _ _ _ _ hs)
      obtain ⟨hnull, hnode⟩ := insert_end value t.nodes.length _ _ bn.rght _ _ _ hN rfl hs1
      cases hr : bn.rght with
      | none =>
        have hsl : sl = slot_t.rght b := by
          rw [hr, search_end_null] at hs
          exact (Option.some.inj hs).symm
        have h1 := hnull hr
        simp only [insert_in_order_branch, hlen, hb1, h1, hsl, set_slot]
      | some y =>
        have h1 := hnode y hr
        simp only [insert_in_order_branch, hlen, hb1, h1]
        have hne : sl ≠ slot_t.rght b := by
          rw [hr] at hs
          rcases search_end_spec _ _ _ _ _ _ hs with
            ⟨e, _⟩ | ⟨p, m, hp, _, ⟨e, _, _⟩ | ⟨e, hm, _⟩⟩
          · cases e
          · intro e2
            rw [e] at e2
            cases e2
          · intro e2
            rw [e] at e2
            cases e2
            rw [hb] at hp
            cases hp
            rw [hr] at hm
            cases hm
        obtain ⟨n1, hx1, hr1, _⟩ := fill_slot_rght _ sl (some t.nodes.length) b bn hb1 hne
        rw [set_rght_same _ b n1 (some y) hx1 (by rw [hr1, hr])]
        cases sl with
        | root =>
          rcases search_end_spec _ _ _ _ _ _ hs with ⟨e, _⟩ | ⟨p, m, _, _, ⟨e, _, _⟩ | ⟨e, _, _⟩⟩
          · rw [hr] at e; cases e
          · cases e
          · cases e
        | left p => rfl
        | rght p => rfl

theorem set_slot_nodes (t : tree_t) (sl : slot_t) (v : Option Nat) :
    (set_slot t sl v).nodes = fill_slot t.nodes sl v := by
  cases sl <;> rfl

theorem set_slot_root (t : tree_t) (sl : slot_t) (v : Option Nat) (h : sl ≠ slot_t.root) :
    (set_slot t sl v).root = t.root := by
  cases sl with
  | root => exact absurd rfl h
  | left p => rfl
  | rght p => rfl

theorem process_char_miss (st : state_t) (c : Int) (d : tree_t)
    (hs : search_branch st.dict (temp_data st c) st.temp_node = some none)
    (hi : insert_in_order_branch st.dict (temp_data st c) st.temp_node = some d) :
    process_char { st with temp_ch := some c } =
      some { st with
        out := st.out ++ [(to_uchar c, st.index.temp)]
        dict := d
        index := { temp := RESET, pre := RESET, count := st.index.count + 1 }
        temp_node := none
        temp_ch := none } := by
  simp [process_char, temp_data_with, hs, hi]

/-- The miss step in full: the slot at which the search ended, and the tree
after the insertion, which is the old tree with the fresh node appended to the
store and written to that slot. -/
theorem miss_slot (s : List (Fin 256)) (st : state_t) (hinv : Inv s st) (c : Int)
    (hs : search_branch st.dict (temp_data st c) st.temp_node = some none) :
    ∃ sl, search_branch_end st.dict (temp_data st c) st.temp_node = some sl ∧
      get_slot st.dict sl = some none ∧
      insert_in_order_branch st.dict (temp_data st c) st.temp_node =
        some (set_slot
          { nodes := st.dict.nodes ++ [{ data := temp_data st c, left := none, rght := none }],
            root := st.dict.root } sl (some st.dict.nodes.length)) ∧
      Attached st.dict (set_slot
          { nodes := st.dict.nodes ++ [{ data := temp_data st c, left := none, rght := none }],
            root := st.dict.root } sl (some st.dict.nodes.length)) (temp_data st c) := by
  obtain ⟨sl, hsl⟩ := search_branch_end_of_miss _ _ _ hs
  have hins := insert_in_order_branch_end _ _ _ _ hsl
  obtain ⟨d, hd, hatt, _⟩ := insert_in_order_branch_spec st.dict _ _ hinv.links hinv.root_ok hs
  rw [hins] at hd
  have e := Option.some.inj hd
  rw [← e] at hatt
  exact ⟨sl, hsl, search_branch_end_empty _ _ _ _ hsl, hins, hatt⟩

/-- C16 (insert follows the search path, nothing is restructured).  In every
state the encoder reaches and for every byte `b` on which `search_branch`
misses: the search ended at a slot `sl` (the root pointer, or the left or
right pointer of a node) that holds `NULL`; `insert_in_order_branch`, and so
`process_char`, returns the old tree with the fresh node appended to the store
and its address written to exactly that slot; the store grows by this one
node, and every old node keeps its data (`prefix_node`, `ch`, `index`), its
left pointer unless `sl` is its left slot, and its right pointer unless `sl`
is its right slot; the root pointer is kept unless `sl` is the root slot. -/
theorem insert_at_search_end (s : List (Fin 256)) :
    ∃ st, process_bytes init_state s = some st ∧
      ∀ b : Fin 256,
        search_branch st.dict (temp_data st (to_char (b.val : Int))) st.temp_node
          = some none →
        ∃ (sl : slot_t) (d : tree_t) (st' : state_t),
          search_branch_end st.dict (temp_data st (to_char (b.val : Int))) st.temp_node
            = some sl ∧
          get_slot st.dict sl = some none ∧
          insert_in_order_branch st.dict (temp_data st (to_char (b.val : Int))) st.temp_node
            = some d ∧
          process_char { st with temp_ch := some (to_char (b.val : Int)) } = some st' ∧
          st'.dict = d ∧
          d = set_slot
            { nodes := st.dict.nodes ++
                [{ data := temp_data st (to_char (b.val : Int)), left := none, rght := none }],
              root := st.dict.root } sl (some st.dict.nodes.length) ∧
          get_slot d sl = some (some st.dict.nodes.length) ∧
          d.nodes.length = st.dict.nodes.length + 1 ∧
          d.nodes[st.dict.nodes.length]? =
            some { data := temp_data st (to_char (b.val : Int)), left := none,
                   rght := none } ∧
          (sl ≠ slot_t.root → d.root = st.dict.root) ∧
          (∀ (a : Nat) (n : node_t), st.dict.nodes[a]? = some n →
            ∃ n' : node_t, d.nodes[a]? = some n' ∧ n'.data = n.data ∧
              (sl ≠ slot_t.left a → n'.left = n.left) ∧
              (sl ≠ slot_t.rght a → n'.rght = n.rght)) := by
  obtain ⟨st, hrun, hinv⟩ := run_inv s
  refine ⟨st, hrun, ?_⟩
  intro b hs
  obtain ⟨sl, hsl, hempty, hins, hatt⟩ := miss_slot s st hinv (to_char (b.val : Int)) hs
  have hproc := process_char_miss st (to_char (b.val : Int)) _ hs hins
  refine ⟨sl, _, _, hsl, hempty, hins, hproc, rfl, rfl, ?_, attached_length _ _ _ hatt,
    attached_new _ _ _ hatt, fun hne => set_slot_root _ sl _ hne, ?_⟩
  · cases sl with
    | root => rfl
    | left p =>
      simp only [get_slot] at hempty ⊢
      cases hp : st.dict.nodes[p]? with
      | none => rw [hp] at hempty; cases hempty
      | some n =>
        have hplt := getElem?_lt _ _ _ hp
        simp only [set_slot]
        rw [get_set_left, if_pos rfl, List.getElem?_append_left hplt, hp]
        rfl
    | rght p =>
      simp only [get_slot] at hempty ⊢
      cases hp : st.dict.nodes[p]? with
      | none => rw [hp] at hempty; cases hempty
      | some n =>
        have hplt := getElem?_lt _ _ _ hp
        simp only [set_slot]
        rw [get_set_rght, if_pos rfl, List.getElem?_append_left hplt, hp]
        rfl
  · intro a n ha
    have halt := getElem?_lt _ _ _ ha
    have ha1 : ∀ ext : List node_t, (st.dict.nodes ++ ext)[a]? = some n := by
      intro ext
      rw [List.getElem?_append_left halt, ha]
    rw [set_slot_nodes]
    by_cases h1 : sl = slot_t.left a
    · have h2 : sl ≠ slot_t.rght a := by rw [h1]; intro e; cases e
      obtain ⟨n', hn', hr, hd⟩ := fill_slot_rght _ sl (some st.dict.nodes.length) a n (ha1 _) h2
      exact ⟨n', hn', hd, fun hne => absurd h1 hne, fun _ => hr⟩
    · obtain ⟨n', hn', hl, hd⟩ := fill_slot_left _ sl (some st.dict.nodes.length) a n (ha1 _) h1
      refine ⟨n', hn', hd, fun _ => hl, ?_⟩
      intro h2
      obtain ⟨n'', hn'', hr, _⟩ := fill_slot_rght _ sl (some st.dict.nodes.length) a n (ha1 _) h2
      rw [hn'] at hn''
      rw [Option.some.inj hn'']
      exact hr

/-- A node below a pointer is the node pointed to, or the child of a node
below the pointer. -/
theorem reach_parent (h : List node_t) (r : Option Nat) (c : Nat) (hr : Reach h r c) :
    r = some c ∨
    ∃ (q : Nat) (nq : node_t), Reach h r q ∧ h[q]? = some nq ∧
      (nq.left = some c ∨ nq.rght = some c) := by
  induction hr with
  | here a => exact Or.inl rfl
  | left a n b ha _ ih =>
    right
    rcases ih with e | ⟨q, nq, hq, hnq, hlink⟩
    · exact ⟨a, n, Reach.here a, ha, Or.inl e⟩
    · exact ⟨q, nq, Reach.left a n q ha hq, hnq, hlink⟩
  | rght a n b ha _ ih =>
    right
    rcases ih with e | ⟨q, nq, hq, hnq, hlink⟩
    · exact ⟨a, n, Reach.here a, ha, Or.inr e⟩
    · exact ⟨q, nq, Reach.rght a n q ha hq, hnq, hlink⟩

/-- The left pointer of a node after a fresh node was appended and written to
an empty slot of an old node: the fresh node, if the slot is the left slot of
the node, and the old left pointer otherwise. -/
theorem grown_left (h : List node_t) (newn : node_t) (sl : slot_t)
    (hnew : newn.left = none)
    (hsl : ∀ p, sl = slot_t.left p ∨ sl = slot_t.rght p → p < h.length)
    (a c : Nat) (n' : node_t)
    (ha : (fill_slot (h ++ [newn]) sl (some h.length))[a]? = some n')
    (hc : n'.left = some c) :
    (sl = slot_t.left a ∧ c = h.length) ∨
    (sl ≠ slot_t.left a ∧ ∃ n : node_t, h[a]? = some n ∧ n.left = some c) := by
  by_cases halt : a < h.length
  · have ha0 : (h ++ [newn])[a]? = some h[a] := by
      rw [List.getElem?_append_left halt]; exact List.getElem?_eq_getElem halt
    by_cases hs : sl = slot_t.left a
    · left
      refine ⟨hs, ?_⟩
      rw [hs] at ha
      simp only [fill_slot] at ha
      rw [get_set_left, if_pos rfl, ha0] at ha
      have e := Option.some.inj ha
      rw [← e] at hc
      exact (Option.some.inj hc).symm
    · right
      obtain ⟨n1, hn1, hl1, _⟩ := fill_slot_left _ sl (some h.length) a _ ha0 hs
      rw [ha] at hn1
      rw [← Option.some.inj hn1] at hl1
      exact ⟨hs, h[a], List.getElem?_eq_getElem halt, by rw [← hl1]; exact hc⟩
  · exfalso
    have hne1 : sl ≠ slot_t.left a := fun e => halt (hsl a (Or.inl e))
    have hlen : (h ++ [newn]).length = h.length + 1 := by simp
    cases hx : (h ++ [newn])[a]? with
    | none =>
      have hge : (h ++ [newn]).length ≤ a := List.getElem?_eq_none_iff.mp hx
      have hlt := getElem?_lt _ _ _ ha
      cases sl with
      | root => simp only [fill_slot] at hlt; omega
      | left p => simp only [fill_slot, length_set_left] at hlt; omega
      | rght p => simp only [fill_slot, length_set_rght] at hlt; omega
    | some x =>
      have hxlt := getElem?_lt _ _ _ hx
      have hal : a = h.length := by omega
      rw [hal, List.getElem?_concat_length] at hx
      obtain ⟨n1, hn1, hl1, _⟩ := fill_slot_left _ sl (some h.length) a newn
        (by rw [hal]; exact List.getElem?_concat_length _ _) hne1
      rw [ha] at hn1
      rw [← Option.some.inj hn1, hnew] at hl1
      rw [hl1] at hc
      cases hc

/-- The right pointer of a node after a fresh node was appended and written
to an empty slot of an old node. -/
theorem grown_rght (h : List node_t) (newn : node_t) (sl : slot_t)
    (hnew : newn.rght = none)
    (hsl : ∀ p, sl = slot_t.left p ∨ sl = slot_t.rght p → p < h.length)
    (a c : Nat) (n' : node_t)
    (ha : (fill_slot (h ++ [newn]) sl (some h.length))[a]? = some n')
    (hc : n'.rght = some c) :
    (sl = slot_t.rght a ∧ c = h.length) ∨
    (sl ≠ slot_t.rght a ∧ ∃ n : node_t, h[a]? = some n ∧ n.rght = some c) := by
  by_cases halt : a < h.length
  · have ha0 : (h ++ [newn])[a]? = some h[a] := by
      rw [List.getElem?_append_left halt]; exact List.getElem?_eq_getElem halt
    by_cases hs : sl = slot_t.rght a
    · left
      refine ⟨hs, ?_⟩
      rw [hs] at ha
      simp only [fill_slot] at ha
      rw [get_set_rght, if_pos rfl, ha0] at ha
      have e := Option.some.inj ha
      rw [← e] at hc
      exact (Option.some.inj hc).symm
    · right
      obtain ⟨n1, hn1, hl1, _⟩ := fill_slot_rght _ sl (some h.length) a _ ha0 hs
      rw [ha] at hn1
      rw [← Option.some.inj hn1] at hl1
      exact ⟨hs, h[a], List.getElem?_eq_getElem halt, by rw [← hl1]; exact hc⟩
  · exfalso
    have hne1 : sl ≠ slot_t.rght a := fun e => halt (hsl a (Or.inr e))
    have hlen : (h ++ [newn]).length = h.length + 1 := by simp
    cases hx : (h ++ [newn])[a]? with
    | none =>
      have hge : (h ++ [newn]).length ≤ a := List.getElem?_eq_none_iff.mp hx
      have hlt := getElem?_lt _ _ _ ha
      cases sl with
      | root => simp only [fill_slot] at hlt; omega
      | left p => simp only [fill_slot, length_set_left] at hlt; omega
      | rght p => simp only [fill_slot, length_set_rght] at hlt; omega
    | some x =>
      have hxlt := getElem?_lt _ _ _ hx
      have hal : a = h.length := by omega
      rw [hal, List.getElem?_concat_length] at hx
      obtain ⟨n1, hn1, hl1, _⟩ := fill_slot_rght _ sl (some h.length) a newn
        (by rw [hal]; exact List.getElem?_concat_length _ _) hne1
      rw [ha] at hn1
      rw [← Option.some.inj hn1, hnew] at hl1
      rw [hl1] at hc
      cases hc

/-- Appending a fresh node and writing it to one empty slot keeps the slots
unshared. -/
theorem unshared_grown (h : List node_t) (newn : node_t) (sl : slot_t)
    (hu : Unshared h) (hl : LinksOk h)
    (hnl : newn.left = none) (hnr : newn.rght = none)
    (hsl : ∀ p, sl = slot_t.left p ∨ sl = slot_t.rght p → p < h.length) :
    Unshared (fill_slot (h ++ [newn]) sl (some h.length)) := by
  intro a1 a2 c n1 n2 h1 h2
  refine ⟨?_, ?_, ?_⟩
  · intro e1 e2
    rcases grown_left h newn sl hnl hsl a1 c n1 h1 e1 with ⟨s1, c1⟩ | ⟨_, m1, hm1, l1⟩
    · rcases grown_left h newn sl hnl hsl a2 c n2 h2 e2 with ⟨s2, _⟩ | ⟨_, m2, hm2, l2⟩
      · rw [s1] at s2; cases s2; rfl
      · have := ((hl a2 m2 hm2).1 c l2).2; omega
    · rcases grown_left h newn sl hnl hsl a2 c n2 h2 e2 with ⟨_, c2⟩ | ⟨_, m2, hm2, l2⟩
      · have := ((hl a1 m1 hm1).1 c l1).2; omega
      · exact (hu a1 a2 c m1 m2 hm1 hm2).1 l1 l2
  · intro e1 e2
    rcases grown_rght h newn sl hnr hsl a1 c n1 h1 e1 with ⟨s1, c1⟩ | ⟨_, m1, hm1, l1⟩
    · rcases grown_rght h newn sl hnr hsl a2 c n2 h2 e2 with ⟨s2, _⟩ | ⟨_, m2, hm2, l2⟩
      · rw [s1] at s2; cases s2; rfl
      · have := ((hl a2 m2 hm2).2.1 c l2).2; omega
    · rcases grown_rght h newn sl hnr hsl a2 c n2 h2 e2 with ⟨_, c2⟩ | ⟨_, m2, hm2, l2⟩
      · have := ((hl a1 m1 hm1).2.1 c l1).2; omega
      · exact (hu a1 a2 c m1 m2 hm1 hm2).2.1 l1 l2
  · intro e1 e2
    rcases grown_left h newn sl hnl hsl a1 c n1 h1 e1 with ⟨s1, c1⟩ | ⟨_, m1, hm1, l1⟩
    · rcases grown_rght h newn sl hnr hsl a2 c n2 h2 e2 with ⟨s2, _⟩ | ⟨_, m2, hm2, l2⟩
      · rw [s1] at s2; cases s2
      · have := ((hl a2 m2 hm2).2.1 c l2).2; omega
    · rcases grown_rght h newn sl hnr hsl a2 c n2 h2 e2 with ⟨_, c2⟩ | ⟨_, m2, hm2, l2⟩
      · have := ((hl a1 m1 hm1).1 c l1).2; omega
      · exact (hu a1 a2 c m1 m2 hm1 hm2).2.2 l1 l2

/-- Below the fresh node there is only the fresh node. -/
theorem reach_fresh (d : List node_t) (len : Nat) (newn : node_t)
    (hd : d[len]? = some newn) (hnl : newn.left = none) (hnr : newn.rght = none)
    (a : Nat) (hr : Reach d (some len) a) : a = len := by
  cases hr with
  | here => rfl
  | left _ n _ hn hsub =>
    rw [hd] at hn
    rw [← Option.some.inj hn, hnl] at hsub
    exact absurd hsub (reach_none _ _)
  | rght _ n _ hn hsub =>
    rw [hd] at hn
    rw [← Option.some.inj hn, hnr] at hsub
    exact absurd hsub (reach_none _ _)

theorem grown_new (h : List node_t) (newn : node_t) (sl : slot_t) (v : Option Nat)
    (hsl : ∀ p, sl = slot_t.left p ∨ sl = slot_t.rght p → p < h.length) :
    (fill_slot (h ++ [newn]) sl v)[h.length]? = some newn := by
  cases sl with
  | root => exact List.getElem?_concat_length _ _
  | left p =>
    have := hsl p (Or.inl rfl)
    simp only [fill_slot]
    rw [get_set_left, if_neg (by omega)]
    exact List.getElem?_concat_length _ _
  | rght p =>
    have := hsl p (Or.inr rfl)
    simp only [fill_slot]
    rw [get_set_rght, if_neg (by omega)]
    exact List.getElem?_concat_length _ _

/-- An old node that lies below an old pointer in the grown store lay below
it before. -/
theorem reach_grown_old (h : List node_t) (newn : node_t) (sl : slot_t)
    (hl : LinksOk h) (hnl : newn.left = none) (hnr : newn.rght = none)
    (hsl : ∀ p, sl = slot_t.left p ∨ sl = slot_t.rght p → p < h.length)
    (r : Option Nat) (a : Nat)
    (hr : Reach (fill_slot (h ++ [newn]) sl (some h.length)) r a) :
    a < h.length → (∀ x, r = some x → x < h.length) → Reach h r a := by
  induction hr with
  | here a => intro _ _; exact Reach.here a
  | left x n' b hx hsub ih =>
    intro hb hrx
    cases hc : n'.left with
    | none => rw [hc] at hsub; exact absurd hsub (reach_none _ _)
    | some c =>
      rcases grown_left h newn sl hnl hsl x c n' hx hc with ⟨_, e⟩ | ⟨_, n, hn, hnc⟩
      · rw [hc, e] at hsub
        have := reach_fresh _ h.length newn (grown_new h newn sl _ hsl) hnl hnr b hsub
        omega
      · have hclt := ((hl x n hn).1 c hnc).2
        have := ih hb (fun y ey => by rw [hc] at ey; cases ey; exact hclt)
        rw [hc] at this
        exact Reach.left x n b hn (by rw [hnc]; exact this)
  | rght x n' b hx hsub ih =>
    intro hb hrx
    cases hc : n'.rght with
    | none => rw [hc] at hsub; exact absurd hsub (reach_none _ _)
    | some c =>
      rcases grown_rght h newn sl hnr hsl x c n' hx hc with ⟨_, e⟩ | ⟨_, n, hn, hnc⟩
      · rw [hc, e] at hsub
        have := reach_fresh _ h.length newn (grown_new h newn sl _ hsl) hnl hnr b hsub
        omega
      · have hclt := ((hl x n hn).2.1 c hnc).2
        have := ih hb (fun y ey => by rw [hc] at ey; cases ey; exact hclt)
        rw [hc] at this
        exact Reach.rght x n b hn (by rw [hnc]; exact this)

/-- The fresh node lies below an old pointer in the grown store only through
the slot it was written to, whose node lay below that pointer before. -/
theorem reach_grown_new (h : List node_t) (newn : node_t) (sl : slot_t)
    (hl : LinksOk h) (hnl : newn.left = none) (hnr : newn.rght = none)
    (hsl : ∀ p, sl = slot_t.left p ∨ sl = slot_t.rght p → p < h.length)
    (r : Option Nat) (hrx : ∀ x, r = some x → x < h.length)
    (hr : Reach (fill_slot (h ++ [newn]) sl (some h.length)) r h.length) :
    ∃ p, Reach h r p ∧ (sl = slot_t.left p ∨ sl = slot_t.rght p) := by
  rcases reach_parent _ _ _ hr with e | ⟨q, nq, hq, hnq, hlink⟩
  · have := hrx _ e; omega
  · rcases hlink with hc | hc
    · rcases grown_left h newn sl hnl hsl q _ nq hnq hc with ⟨e, _⟩ | ⟨_, n, hn, hnc⟩
      · exact ⟨q, reach_grown_old h newn sl hl hnl hnr hsl r q hq (hsl q (Or.inl e)) hrx,
          Or.inl e⟩
      · have := ((hl q n hn).1 _ hnc).2; omega
    · rcases grown_rght h newn sl hnr hsl q _ nq hnq hc with ⟨e, _⟩ | ⟨_, n, hn, hnc⟩
      · exact ⟨q, reach_grown_old h newn sl hl hnl hnr hsl r q hq (hsl q (Or.inr e)) hrx,
          Or.inr e⟩
      · have := ((hl q n hn).2.1 _ hnc).2; omega

theorem haslen_unique (h : List node_t) (p : Option Nat) (k : Nat) (hk : HasLen h p k) :
    ∀ k', HasLen h p k' → k = k' := by
  induction hk with
  | null => intro k' h'; cases h'; rfl
  | node a n k ha _ ih =>
    intro k' h'
    cases h' with
    | node _ n' k'' ha' hsub =>
      rw [ha] at ha'
      rw [← Option.some.inj ha'] at hsub
      rw [ih k'' hsub]

theorem phrase_of_haslen (h : List node_t) :
    ∀ (fuel : Nat) (p : Option Nat) (w : List Nat),
      phrase_of h fuel p = some w → HasLen h p w.length := by
  intro fuel
  induction fuel with
  | zero => intro p w hw; simp [phrase_of_zero] at hw
  | succ f ih =>
    intro p w hw
    cases p with
    | none =>
      rw [phrase_of_null] at hw
      rw [← Option.some.inj hw]
      exact HasLen.null
    | some a =>
      cases ha : h[a]? with
      | none => simp [phrase_of, ha] at hw
      | some n =>
        rw [phrase_of_node h f a n ha] at hw
        cases hsub : phrase_of h f n.data.prefix_node with
        | none => rw [hsub] at hw; cases hw
        | some w0 =>
          rw [hsub] at hw
          rw [← Option.some.inj hw]
          simp only [List.length_append, List.length_singleton]
          exact HasLen.node a n _ ha (ih _ _ hsub)

theorem haslen_total (h : List node_t) (hl : LinksOk h) (p : Option Nat)
    (hp : ∀ a, p = some a → a < h.length) : ∃ k, HasLen h p k := by
  obtain ⟨w, hw⟩ := phrase_of_total h hl (h.length + 1) p (by omega)
    (fun a e => ⟨hp a e, by have := hp a e; omega⟩)
  exact ⟨_, phrase_of_haslen h _ _ _ hw⟩

theorem haslen_data (h h' : List node_t)
    (hd : ∀ (a : Nat) (n : node_t), h[a]? = some n →
      ∃ n' : node_t, h'[a]? = some n' ∧ n'.data = n.data)
    (p : Option Nat) (k : Nat) (hk : HasLen h p k) : HasLen h' p k := by
  induction hk with
  | null => exact HasLen.null
  | node a n k ha _ ih =>
    obtain ⟨n', ha', hdd⟩ := hd a n ha
    exact HasLen.node a n' k ha' (by rw [hdd]; exact ih)

/-- Where the search path to a node `p` meets the right subtree of a node
`N` that holds `p`: the path passes `N` and turns right there, or it starts
inside that right subtree. -/
theorem path_right (h : List node_t) (hu : Unshared h) (k : data_t) (r : Option Nat)
    (p : Nat) (hpath : OnPath h k r p) :
    ∀ (N : Nat) (nN : node_t), h[N]? = some nN → Reach h nN.rght p →
      (Reach h r N ∧ dictcmp k nN.data > CUTOFF) ∨
      (∃ y, r = some y ∧ Reach h nN.rght y) := by
  induction hpath with
  | here a n _ => intro N nN _ hr; exact Or.inr ⟨a, rfl, hr⟩
  | left a n q ha hlt _ ih =>
    intro N nN hN hr
    rcases ih N nN hN hr with ⟨h1, h2⟩ | ⟨y, hy, hry⟩
    · exact Or.inl ⟨Reach.left a n N ha h1, h2⟩
    · rcases reach_parent _ _ _ hry with e | ⟨q', nq', hq', hnq', hlink⟩
      · exact absurd e (fun e => (hu a N y n nN ha hN).2.2 hy e)
      · rcases hlink with hc | hc
        · have := (hu a q' y n nq' ha hnq').1 hy hc
          rw [← this] at hq'
          exact Or.inr ⟨a, rfl, hq'⟩
        · exact absurd hc (fun e => (hu a q' y n nq' ha hnq').2.2 hy e)
  | rght a n q ha hgt _ ih =>
    intro N nN hN hr
    rcases ih N nN hN hr with ⟨h1, h2⟩ | ⟨y, hy, hry⟩
    · exact Or.inl ⟨Reach.rght a n N ha h1, h2⟩
    · rcases reach_parent _ _ _ hry with e | ⟨q', nq', hq', hnq', hlink⟩
      · have := (hu a N y n nN ha hN).2.1 hy e
        subst this
        rw [ha] at hN
        rw [← Option.some.inj hN]
        exact Or.inl ⟨Reach.here a, hgt⟩
      · rcases hlink with hc | hc
        · exact absurd hy (fun e => (hu q' a y nq' n hnq' ha).2.2 hc e)
        · have := (hu a q' y n nq' ha hnq').2.1 hy hc
          rw [← this] at hq'
          exact Or.inr ⟨a, rfl, hq'⟩

theorem haslen_node_inv (h : List node_t) (a k : Nat) (n : node_t)
    (hk : HasLen h (some a) k) (ha : h[a]? = some n) :
    ∃ k0, k = k0 + 1 ∧ HasLen h n.data.prefix_node k0 := by
  cases hk with
  | node _ n' k0 ha' hsub =>
    rw [ha] at ha'
    rw [← Option.some.inj ha'] at hsub
    exact ⟨k0, rfl, hsub⟩

theorem dictcmp_pos_prefix (k n : data_t) (h : dictcmp k n > CUTOFF) :
    k.prefix_node = n.prefix_node := by
  unfold dictcmp CUTOFF LESSTHAN at h
  by_cases hp : k.prefix_node = n.prefix_node
  · exact hp
  · simp [hp] at h

/-- The length of the phrase of an old pointer is the same in the grown
store. -/
theorem haslen_old (h d : List node_t) (hl : LinksOk h)
    (hd : ∀ (a : Nat) (n : node_t), h[a]? = some n →
      ∃ n' : node_t, d[a]? = some n' ∧ n'.data = n.data)
    (p : Option Nat) (hp : ∀ a, p = some a → a < h.length) (k : Nat)
    (hk : HasLen d p k) : HasLen h p k := by
  obtain ⟨k0, hk0⟩ := haslen_total h hl p hp
  have := haslen_unique d p k0 (haslen_data h d hd p k0 hk0) k hk
  rw [← this]
  exact hk0

theorem treeinv_init : TreeInv init_state where
  unshared := by
    intro a1 a2 c n1 n2 h1
    simp [init_state, make_empty_tree] at h1
  len_ok := by
    intro N M nN nM kN kM h1
    simp [init_state, make_empty_tree] at h1

theorem slot_owner_lt (t : tree_t) (sl : slot_t) (h : get_slot t sl = some none) :
    ∀ p, sl = slot_t.left p ∨ sl = slot_t.rght p → p < t.nodes.length := by
  intro p hp
  rcases hp with e | e
  · rw [e] at h
    simp only [get_slot] at h
    cases hx : t.nodes[p]? with
    | none => rw [hx] at h; cases h
    | some n => exact getElem?_lt _ _ _ hx
  · rw [e] at h
    simp only [get_slot] at h
    cases hx : t.nodes[p]? with
    | none => rw [hx] at h; cases h
    | some n => exact getElem?_lt _ _ _ hx

theorem grown_data (t : tree_t) (value : data_t) (sl : slot_t) :
    ∀ (a : Nat) (n : node_t), t.nodes[a]? = some n →
      ∃ n' : node_t, (grown t value sl)[a]? = some n' ∧ n'.data = n.data := by
  intro a n ha
  have halt := getElem?_lt _ _ _ ha
  have ha1 : ∀ ext : List node_t, (t.nodes ++ ext)[a]? = some n := by
    intro ext
    rw [List.getElem?_append_left halt, ha]
  by_cases h1 : sl = slot_t.left a
  · have h2 : sl ≠ slot_t.rght a := by rw [h1]; intro e; cases e
    obtain ⟨n', hn', _, hd⟩ := fill_slot_rght _ sl (some t.nodes.length) a n (ha1 _) h2
    exact ⟨n', hn', hd⟩
  · obtain ⟨n', hn', _, hd⟩ := fill_slot_left _ sl (some t.nodes.length) a n (ha1 _) h1
    exact ⟨n', hn', hd⟩

theorem grown_length (t : tree_t) (value : data_t) (sl : slot_t) :
    (grown t value sl).length = t.nodes.length + 1 := by
  unfold grown
  cases sl with
  | root => simp [fill_slot]
  | left p => simp [fill_slot, length_set_left]
  | rght p => simp [fill_slot, length_set_rght]

/-- The phrase-length shape of the tree survives the insertion after a
miss. -/
theorem len_ok_grown (s : List (Fin 256)) (st : state_t) (hinv : Inv s st)
    (ht : TreeInv st) (c : Int) (sl : slot_t)
    (hsl : search_branch_end st.dict (temp_data st c) st.temp_node = some sl)
    (N M : Nat) (nN' nM' : node_t) (kN kM : Nat)
    (hN : (grown st.dict (temp_data st c) sl)[N]? = some nN')
    (hM : (grown st.dict (temp_data st c) sl)[M]? = some nM')
    (hr : Reach (grown st.dict (temp_data st c) sl) nN'.rght M)
    (hkN : HasLen (grown st.dict (temp_data st c) sl) (some N) kN)
    (hkM : HasLen (grown st.dict (temp_data st c) sl) (some M) kM) :
    kN ≤ kM ∧ (kN = kM → nM'.data.prefix_node = nN'.data.prefix_node) := by
  have hempty := search_branch_end_empty _ _ _ _ hsl
  have hown := slot_owner_lt st.dict sl hempty
  have hnewD : (grown st.dict (temp_data st c) sl)[st.dict.nodes.length]? =
      some { data := temp_data st c, left := none, rght := none } :=
    grown_new _ _ sl _ hown
  have hdata := grown_data st.dict (temp_data st c) sl
  have hlen := grown_length st.dict (temp_data st c) sl
  have hl := hinv.links
  have htn := inv_temp_node_lt s st hinv
  have hMlt := getElem?_lt _ _ _ hM
  have hNlt' := getElem?_lt _ _ _ hN
  rw [hlen] at hMlt hNlt'
  -- the node `N` is an old node
  have hNlt : N < st.dict.nodes.length := by
    by_contra hge
    have hNl : N = st.dict.nodes.length := by omega
    rw [hNl, hnewD] at hN
    rw [← Option.some.inj hN] at hr
    exact reach_none _ _ hr
  have hN0 : st.dict.nodes[N]? = some st.dict.nodes[N] := List.getElem?_eq_getElem hNlt
  obtain ⟨nN2, hN2, hdN⟩ := hdata N _ hN0
  rw [hN] at hN2
  rw [← Option.some.inj hN2] at hdN
  have hkN0 : HasLen st.dict.nodes (some N) kN :=
    haslen_old _ _ hl hdata _ (fun a e => by cases e; exact hNlt) _ hkN
  -- the phrase of the fresh node
  have hW : M = st.dict.nodes.length →
      ∃ km, kM = km + 1 ∧ HasLen st.dict.nodes st.temp_node km ∧
        nM'.data.prefix_node = st.temp_node := by
    intro e
    rw [e] at hM hkM
    rw [hnewD] at hM
    obtain ⟨k0, hk0, hk0'⟩ := haslen_node_inv _ _ _ _ hkM hnewD
    rw [← Option.some.inj hM]
    exact ⟨k0, hk0, haslen_old _ _ hl hdata _ htn _ hk0', rfl⟩
  cases hc : nN'.rght with
  | none => rw [hc] at hr; exact absurd hr (reach_none _ _)
  | some cc =>
    rw [hc] at hr
    rcases grown_rght _ _ sl rfl hown N cc nN' hN hc with ⟨hsN, hcc⟩ | ⟨hsN, nN3, hN3, hcN⟩
    · -- the fresh node is the right child of `N`
      rw [hcc] at hr
      have hMl : M = st.dict.nodes.length := reach_fresh _ _ _ hnewD rfl rfl M hr
      obtain ⟨km, hkM', hkm, hpre⟩ := hW hMl
      rcases search_branch_end_spec _ _ _ _ hsl with ⟨_, _, e⟩ | ⟨b, bn, hbr, _, _, e⟩ |
        ⟨start, p, n, _, hp, _, ⟨e, _, _⟩ | ⟨e, _, hgt⟩⟩
      · rw [e] at hsN; cases hsN
      · have hbN : b = N := by
          have := e.symm.trans hsN
          injection this
        rw [hbr, hbN] at hkm
        have := haslen_unique _ _ _ hkm _ hkN0
        constructor
        · omega
        · intro e2; omega
      · rw [e] at hsN; cases hsN
      · have hpN : p = N := by
          have := e.symm.trans hsN
          injection this
        rw [hpN, hN0] at hp
        rw [← Option.some.inj hp] at hgt
        have hpp := dictcmp_pos_prefix _ _ hgt
        rw [temp_data_prefix_node] at hpp
        obtain ⟨k0, hk0, hk0'⟩ := haslen_node_inv _ _ _ _ hkN0 hN0
        rw [← hpp] at hk0'
        have := haslen_unique _ _ _ hkm _ hk0'
        constructor
        · omega
        · intro _
          rw [hpre, hdN, hpp]
    · -- the right child of `N` is an old node
      rw [hN0] at hN3
      rw [← Option.some.inj hN3] at hcN
      have hcclt : cc < st.dict.nodes.length := ((hl N _ hN0).2.1 cc hcN).2
      have hNcc : N < cc := ((hl N _ hN0).2.1 cc hcN).1
      by_cases hMo : M < st.dict.nodes.length
      · have hM0 : st.dict.nodes[M]? = some st.dict.nodes[M] := List.getElem?_eq_getElem hMo
        obtain ⟨nM2, hM2, hdM⟩ := hdata M _ hM0
        rw [hM] at hM2
        rw [← Option.some.inj hM2] at hdM
        have hr0 := reach_grown_old _ _ sl hl rfl rfl hown _ M hr hMo
          (fun x e => by cases e; exact hcclt)
        have hkM0 : HasLen st.dict.nodes (some M) kM :=
          haslen_old _ _ hl hdata _ (fun a e => by cases e; exact hMo) _ hkM
        have := ht.len_ok N M _ _ kN kM hN0 hM0 (by rw [hcN]; exact hr0) hkN0 hkM0
        rw [hdM, hdN]
        exact this
      · have hMl : M = st.dict.nodes.length := by omega
        obtain ⟨km, hkM', hkm, hpre⟩ := hW hMl
        rw [hMl] at hr
        obtain ⟨p, hrp, hslp⟩ := reach_grown_new _ _ sl hl rfl rfl hown _
          (fun x e => by cases e; exact hcclt) hr
        have hplt : p < st.dict.nodes.length := hown p hslp
        have hp0 : st.dict.nodes[p]? = some st.dict.nodes[p] := List.getElem?_eq_getElem hplt
        obtain ⟨kp, hkp⟩ := haslen_total _ hl (some p) (fun a e => by cases e; exact hplt)
        have hold := ht.len_ok N p _ _ kN kp hN0 hp0 (by rw [hcN]; exact hrp) hkN0 hkp
        rcases search_branch_end_spec _ _ _ _ hsl with ⟨_, _, e⟩ | ⟨b, bn, hbr, _, _, e⟩ |
          ⟨start, p', n, hstart, hp', hpath, hside⟩
        · rcases hslp with e2 | e2 <;> (rw [e] at e2; cases e2)
        · have hbp : b = p := by
            rcases hslp with e2 | e2
            · rw [e] at e2; cases e2
            · have := e.symm.trans e2
              injection this
          rw [hbr, hbp] at hkm
          have := haslen_unique _ _ _ hkm _ hkp
          constructor
          · omega
          · intro e2; omega
        · rcases hside with ⟨e, _, hlt⟩ | ⟨e, _, hgt⟩
          · -- the search turned left at `p`
            have hpp : p' = p := by
              rcases hslp with e2 | e2
              · have := e.symm.trans e2
                injection this
              · rw [e] at e2; cases e2
            rw [hpp] at hpath
            rcases path_right _ ht.unshared _ _ _ hpath N _ hN0 (by rw [hcN]; exact hrp) with
              ⟨_, hgtN⟩ | ⟨y, hy, hry⟩
            · have hpN := dictcmp_pos_prefix _ _ hgtN
              rw [temp_data_prefix_node] at hpN
              obtain ⟨k0, hk0, hk0'⟩ := haslen_node_inv _ _ _ _ hkN0 hN0
              rw [← hpN] at hk0'
              have := haslen_unique _ _ _ hkm _ hk0'
              constructor
              · omega
              · intro _
                rw [hpre, hdN, hpN]
            · rw [hcN] at hry
              cases htmp : st.temp_node with
              | none =>
                exfalso
                rw [htmp] at hstart
                simp only [branch_start] at hstart
                have hroot : st.dict.root = some y := by
                  rw [← hy]; exact Option.some.inj hstart
                have h1 := hinv.reach N hNlt
                rw [hroot] at h1
                have h2 := reach_ge _ hl _ _ h1 y rfl
                have h3 := reach_ge _ hl _ _ hry cc rfl
                omega
              | some b =>
                have hblt := htn b htmp
                have hb0 : st.dict.nodes[b]? = some st.dict.nodes[b] :=
                  List.getElem?_eq_getElem hblt
                rw [htmp] at hstart hkm
                simp only [branch_start, hb0] at hstart
                have hby : st.dict.nodes[b].rght = some y := by
                  rw [← hy]; exact Option.some.inj hstart
                rcases reach_parent _ _ _ hry with e2 | ⟨q, nq, hq, hnq, hlink⟩
                · have hccy : cc = y := Option.some.inj e2
                  rw [hccy] at hcN
                  have hNb := (ht.unshared N b y _ _ hN0 hb0).2.1 hcN hby
                  rw [← hNb] at hkm
                  have := haslen_unique _ _ _ hkm _ hkN0
                  constructor
                  · omega
                  · intro e3; omega
                · rcases hlink with hcl | hcr
                  · exact absurd hby (fun e3 => (ht.unshared q b y _ _ hnq hb0).2.2 hcl e3)
                  · have hqb := (ht.unshared q b y _ _ hnq hb0).2.1 hcr hby
                    rw [hqb] at hq
                    obtain ⟨kb, hkb⟩ := haslen_total _ hl (some b)
                      (fun a e => by cases e; exact hblt)
                    have hold2 := ht.len_ok N b _ _ kN kb hN0 hb0 (by rw [hcN]; exact hq)
                      hkN0 hkb
                    have := haslen_unique _ _ _ hkm _ hkb
                    constructor
                    · omega
                    · intro e3; omega
          · -- the search turned right at `p`
            have hpp : p' = p := by
              rcases hslp with e2 | e2
              · rw [e] at e2; cases e2
              · have := e.symm.trans e2
                injection this
            rw [hpp, hp0] at hp'
            rw [← Option.some.inj hp'] at hgt
            have hpP := dictcmp_pos_prefix _ _ hgt
            rw [temp_data_prefix_node] at hpP
            obtain ⟨k0, hk0, hk0'⟩ := haslen_node_inv _ _ _ _ hkp hp0
            rw [← hpP] at hk0'
            have := haslen_unique _ _ _ hkm _ hk0'
            constructor
            · omega
            · intro e3
              have h4 := hold.2 (by omega)
              rw [hpre, hdN, hpP, h4]

/-- An encoder step keeps the shape invariant of the tree. -/
theorem treeinv_step (s : List (Fin 256)) (st : state_t) (b : Fin 256) (hinv : Inv s st)
    (ht : TreeInv st) :
    ∃ st', read_char st (to_char (b.val : Int)) = some st' ∧ Inv (s ++ [b]) st' ∧
      TreeInv st' := by
  rcases step_cases s st b hinv with ⟨f, fn, _, _, _, _, hread, hinv1⟩ |
    ⟨d, hmiss, hins, _, hread, hinv1⟩
  · exact ⟨_, hread, hinv1, ⟨ht.unshared, ht.len_ok⟩⟩
  · refine ⟨_, hread, hinv1, ?_⟩
    obtain ⟨sl, hsl, hempty, hins2, _⟩ := miss_slot s st hinv (to_char (b.val : Int)) hmiss
    rw [hins] at hins2
    have hd : d.nodes = grown st.dict (temp_data st (to_char (b.val : Int))) sl := by
      rw [Option.some.inj hins2, set_slot_nodes]
      rfl
    constructor
    · show Unshared d.nodes
      rw [hd]
      exact unshared_grown _ _ sl ht.unshared hinv.links rfl rfl
        (slot_owner_lt st.dict sl hempty)
    · show ∀ (N M : Nat) (nN nM : node_t) (kN kM : Nat),
        d.nodes[N]? = some nN → d.nodes[M]? = some nM →
        Reach d.nodes nN.rght M →
        HasLen d.nodes (some N) kN → HasLen d.nodes (some M) kM →
        kN ≤ kM ∧ (kN = kM → nM.data.prefix_node = nN.data.prefix_node)
      rw [hd]
      intro N M nN nM kN kM hN hM hr hkN hkM
      exact len_ok_grown s st hinv ht _ sl hsl N M nN nM kN kM hN hM hr hkN hkM

theorem process_bytes_treeinv (t : List (Fin 256)) :
    ∀ (s : List (Fin 256)) (st : state_t), Inv s st → TreeInv st →
      ∃ st', process_bytes st t = some st' ∧ Inv (s ++ t) st' ∧ TreeInv st' := by
  induction t with
  | nil => intro s st hinv ht; exact ⟨st, rfl, by simpa using hinv, ht⟩
  | cons b rest ih =>
    intro s st hinv ht
    obtain ⟨st1, h1, hinv1, ht1⟩ := treeinv_step s st b hinv ht
    obtain ⟨st2, h2, hinv2, ht2⟩ := ih (s ++ [b]) st1 hinv1 ht1
    exact ⟨st2, by rw [process_bytes_cons st st1 b rest h1]; exact h2,
      by simpa using hinv2, ht2⟩

/-- The encoder run with both invariants. -/
theorem run_treeinv (s : List (Fin 256)) :
    ∃ st, process_bytes init_state s = some st ∧ Inv s st ∧ TreeInv st := by
  obtain ⟨st, h, hinv, ht⟩ := process_bytes_treeinv s [] init_state inv_init treeinv_init
  exact ⟨st, h, by simpa using hinv, ht⟩

/-- C17 (phrase lengths in a right subtree).  After any number of encoder
steps, for every node `N` and every node `M` in the subtree rooted at the right
child of `N`, the phrases of `N` and `M` (spelled by following `prefix_node`
links) are defined, the phrase of `M` is at least as long as the phrase of
`N`, and if the two have the same length then `M` and `N` have the same
`prefix_node`. -/
theorem right_subtree_phrase_length (s : List (Fin 256)) :
    ∃ st, process_bytes init_state s = some st ∧
      ∀ (N M : Nat) (nN nM : node_t),
        st.dict.nodes[N]? = some nN → st.dict.nodes[M]? = some nM →
        Reach st.dict.nodes nN.rght M →
        ∃ wN wM : List Nat,
          phrase_of st.dict.nodes (st.dict.nodes.length + 1) (some N) = some wN ∧
          phrase_of st.dict.nodes (st.dict.nodes.length + 1) (some M) = some wM ∧
          wN.length ≤ wM.length ∧
          (wN.length = wM.length → nM.data.prefix_node = nN.data.prefix_node) := by
  obtain ⟨st, hrun, hinv, ht⟩ := run_treeinv s
  refine ⟨st, hrun, ?_⟩
  intro N M nN nM hN hM hr
  have hNlt := getElem?_lt _ _ _ hN
  have hMlt := getElem?_lt _ _ _ hM
  obtain ⟨wN, hwN⟩ := phrase_of_total _ hinv.links (st.dict.nodes.length + 1) (some N)
    (by omega) (fun a e => by cases e; exact ⟨hNlt, by omega⟩)
  obtain ⟨wM, hwM⟩ := phrase_of_total _ hinv.links (st.dict.nodes.length + 1) (some M)
    (by omega) (fun a e => by cases e; exact ⟨hMlt, by omega⟩)
  exact ⟨wN, wM, hwN, hwM, ht.len_ok N M nN nM _ _ hN hM hr
    (phrase_of_haslen _ _ _ _ hwN) (phrase_of_haslen _ _ _ _ hwM)⟩

theorem inorder_zero (h : List node_t) (r : Option Nat) : inorder h 0 r = none := by
  rw [inorder]

theorem inorder_null (h : List node_t) (f : Nat) : inorder h (f + 1) none = some [] := by
  rw [inorder]

theorem inorder_dangling (h : List node_t) (f x : Nat) (hx : h[x]? = none) :
    inorder h (f + 1) (some x) = none := by
  rw [inorder]
  simp only [hx]

theorem inorder_node (h : List node_t) (f x : Nat) (n : node_t) (l rr : List Nat)
    (hx : h[x]? = some n) (hl : inorder h f n.left = some l)
    (hr : inorder h f n.rght = some rr) :
    inorder h (f + 1) (some x) = some (l ++ x :: rr) := by
  rw [inorder]
  simp only [hx, hl, hr]

/-- A traversal that returns a list splits at the root of the subtree. -/
theorem inorder_inv (h : List node_t) (f x : Nat) (L : List Nat)
    (hL : inorder h (f + 1) (some x) = some L) :
    ∃ (n : node_t) (l rr : List Nat), h[x]? = some n ∧ inorder h f n.left = some l ∧
      inorder h f n.rght = some rr ∧ L = l ++ x :: rr := by
  cases hx : h[x]? with
  | none => rw [inorder_dangling h f x hx] at hL; cases hL
  | some n =>
    cases hl : inorder h f n.left with
    | none =>
      rw [inorder] at hL
      simp [hx, hl] at hL
    | some l =>
      cases hr : inorder h f n.rght with
      | none =>
        rw [inorder] at hL
        simp [hx, hl, hr] at hL
      | some rr =>
        rw [inorder_node h f x n l rr hx hl hr] at hL
        exact ⟨n, l, rr, rfl, hl, hr, (Option.some.inj hL).symm⟩

/-- With forward links the traversal ends within the fuel of one more than
the number of nodes. -/
theorem inorder_total (h : List node_t) (hl : LinksOk h) :
    ∀ (fuel : Nat) (r : Option Nat),
      (∀ x, r = some x → x < h.length) →
      h.length + 1 ≤ fuel + r.getD h.length →
      ∃ L, inorder h fuel r = some L := by
  intro fuel
  induction fuel with
  | zero =>
    intro r hr hf
    cases r with
    | none => simp at hf
    | some x => have := hr x rfl; simp at hf; omega
  | succ f ih =>
    intro r hr hf
    cases r with
    | none => exact ⟨[], inorder_null h f⟩
    | some x =>
      have hxl := hr x rfl
      have hx : h[x]? = some h[x] := List.getElem?_eq_getElem hxl
      obtain ⟨hleft, hrght, _⟩ := hl x h[x] hx
      simp only [Option.getD_some] at hf
      have h1 : ∃ l, inorder h f h[x].left = some l := by
        apply ih
        · intro y hy; exact (hleft y hy).2
        · cases hnl : h[x].left with
          | none => simp; omega
          | some l => have := hleft l hnl; simp; omega
      have h2 : ∃ rr, inorder h f h[x].rght = some rr := by
        apply ih
        · intro y hy; exact (hrght y hy).2
        · cases hnr : h[x].rght with
          | none => simp; omega
          | some l => have := hrght l hnr; simp; omega
      obtain ⟨l, hl1⟩ := h1
      obtain ⟨rr, hr1⟩ := h2
      exact ⟨_, inorder_node h f x _ l rr hx hl1 hr1⟩

/-- The traversal lists exactly the nodes of the subtree. -/
theorem inorder_mem (h : List node_t) :
    ∀ (fuel : Nat) (r : Option Nat) (L : List Nat), inorder h fuel r = some L →
      ∀ c, c ∈ L ↔ Reach h r c := by
  intro fuel
  induction fuel with
  | zero => intro r L hL; rw [inorder_zero] at hL; cases hL
  | succ f ih =>
    intro r L hL c
    cases r with
    | none =>
      rw [inorder_null] at hL
      rw [← Option.some.inj hL]
      constructor
      · intro hc; cases hc
      · intro hc; exact absurd hc (reach_none _ _)
    | some x =>
      obtain ⟨n, l, rr, hx, hl, hr, e⟩ := inorder_inv h f x L hL
      rw [e]
      simp only [List.mem_append, List.mem_cons]
      constructor
      · rintro (h1 | h1 | h1)
        · exact Reach.left x n c hx ((ih _ _ hl c).mp h1)
        · rw [h1]; exact Reach.here x
        · exact Reach.rght x n c hx ((ih _ _ hr c).mp h1)
      · intro hc
        cases hc with
        | here => exact Or.inr (Or.inl rfl)
        | left _ n' _ hn' hsub =>
          rw [hx] at hn'
          rw [← Option.some.inj hn'] at hsub
          exact Or.inl ((ih _ _ hl c).mpr hsub)
        | rght _ n' _ hn' hsub =>
          rw [hx] at hn'
          rw [← Option.some.inj hn'] at hsub
          exact Or.inr (Or.inr ((ih _ _ hr c).mpr hsub))

/-- The left and the right subtree of a node share no node. -/
theorem disjoint_children (h : List node_t) (hu : Unshared h) (hl : LinksOk h)
    (a : Nat) (n : node_t) (ha : h[a]? = some n) :
    ∀ c, Reach h n.left c → Reach h n.rght c → False := by
  intro c
  induction c using Nat.strong_induction_on with
  | _ c ih =>
    intro h1 h2
    have hna := reach_child_ne h hl a n ha
    rcases reach_parent _ _ _ h1 with e1 | ⟨q1, nq1, hq1, hnq1, hlink1⟩
    · rcases reach_parent _ _ _ h2 with e2 | ⟨q2, nq2, hq2, hnq2, hlink2⟩
      · exact (hu a a c n n ha ha).2.2 e1 e2
      · rcases hlink2 with hc | hc
        · have := (hu a q2 c n nq2 ha hnq2).1 e1 hc
          rw [← this] at hq2
          exact hna.2 hq2
        · exact (hu a q2 c n nq2 ha hnq2).2.2 e1 hc
    · rcases reach_parent _ _ _ h2 with e2 | ⟨q2, nq2, hq2, hnq2, hlink2⟩
      · rcases hlink1 with hc | hc
        · exact (hu q1 a c nq1 n hnq1 ha).2.2 hc e2
        · have := (hu q1 a c nq1 n hnq1 ha).2.1 hc e2
          rw [this] at hq1
          exact hna.1 hq1
      · rcases hlink1 with hc1 | hc1
        · rcases hlink2 with hc2 | hc2
          · have := (hu q1 q2 c nq1 nq2 hnq1 hnq2).1 hc1 hc2
            rw [← this] at hq2
            have hlt := ((hl q1 nq1 hnq1).1 c hc1).1
            exact ih q1 hlt hq1 hq2
          · exact (hu q1 q2 c nq1 nq2 hnq1 hnq2).2.2 hc1 hc2
        · rcases hlink2 with hc2 | hc2
          · exact (hu q2 q1 c nq2 nq1 hnq2 hnq1).2.2 hc2 hc1
          · have := (hu q1 q2 c nq1 nq2 hnq1 hnq2).2.1 hc1 hc2
            rw [← this] at hq2
            have hlt := ((hl q1 nq1 hnq1).2.1 c hc1).1
            exact ih q1 hlt hq1 hq2

/-- The traversal lists no node twice. -/
theorem inorder_nodup (h : List node_t) (hu : Unshared h) (hl : LinksOk h) :
    ∀ (fuel : Nat) (r : Option Nat) (L : List Nat), inorder h fuel r = some L →
      L.Nodup := by
  intro fuel
  induction fuel with
  | zero => intro r L hL; rw [inorder_zero] at hL; cases hL
  | succ f ih =>
    intro r L hL
    cases r with
    | none =>
      rw [inorder_null] at hL
      rw [← Option.some.inj hL]
      exact List.nodup_nil
    | some x =>
      obtain ⟨n, l, rr, hx, hl1, hr1, e⟩ := inorder_inv h f x L hL
      have hna := reach_child_ne h hl x n hx
      rw [e, List.nodup_append]
      refine ⟨ih _ _ hl1, ?_, ?_⟩
      · rw [List.nodup_cons]
        exact ⟨fun hm => hna.2 ((inorder_mem h f _ _ hr1 x).mp hm), ih _ _ hr1⟩
      · intro c hc1 hc2
        have h1 := (inorder_mem h f _ _ hl1 c).mp hc1
        rcases List.mem_cons.mp hc2 with e2 | hc3
        · rw [e2] at h1; exact hna.1 h1
        · exact disjoint_children h hu hl x n hx c h1 ((inorder_mem h f _ _ hr1 c).mp hc3)

theorem before_reach (h : List node_t) (r : Option Nat) (x y : Nat)
    (hb : Before h r x y) : Reach h r x ∧ Reach h r y := by
  induction hb with
  | left_node a n x ha hx => exact ⟨Reach.left a n x ha hx, Reach.here a⟩
  | node_rght a n y ha hy => exact ⟨Reach.here a, Reach.rght a n y ha hy⟩
  | left_rght a n x y ha hx hy => exact ⟨Reach.left a n x ha hx, Reach.rght a n y ha hy⟩
  | in_left a n x y ha _ ih => exact ⟨Reach.left a n x ha ih.1, Reach.left a n y ha ih.2⟩
  | in_rght a n x y ha _ ih => exact ⟨Reach.rght a n x ha ih.1, Reach.rght a n y ha ih.2⟩

/-- What is before in a subtree is before in every subtree that holds it. -/
theorem before_lift (h : List node_t) (r : Option Nat) (q : Nat) (hr : Reach h r q) :
    ∀ (nq : node_t) (x y : Nat), h[q]? = some nq → Before h nq.rght x y →
      Before h r x y := by
  induction hr with
  | here a => intro nq x y hq hb; exact Before.in_rght a nq x y hq hb
  | left a n b ha _ ih =>
    intro nq x y hq hb
    exact Before.in_left a n x y ha (ih nq x y hq hb)
  | rght a n b ha _ ih =>
    intro nq x y hq hb
    exact Before.in_rght a n x y ha (ih nq x y hq hb)

/-- In a tree without shared nodes, `Before` is the order of the positions in
the in-order traversal. -/
theorem before_index (h : List node_t) (hu : Unshared h) (hl : LinksOk h) :
    ∀ (fuel : Nat) (r : Option Nat) (L : List Nat), inorder h fuel r = some L →
      ∀ x y, Before h r x y → L.indexOf x < L.indexOf y := by
  intro fuel
  induction fuel with
  | zero => intro r L hL; rw [inorder_zero] at hL; cases hL
  | succ f ih =>
    intro r L hL x y hb
    cases r with
    | none => cases hb
    | some a =>
      obtain ⟨n, l, rr, ha, hl1, hr1, e⟩ := inorder_inv h f a L hL
      have hna := reach_child_ne h hl a n ha
      have hml := inorder_mem h f _ _ hl1
      have hmr := inorder_mem h f _ _ hr1
      have hal : a ∉ l := fun hm => hna.1 ((hml a).mp hm)
      have har : a ∉ rr := fun hm => hna.2 ((hmr a).mp hm)
      have hdis : ∀ c, c ∈ rr → c ∉ l := fun c h2 h1 =>
        disjoint_children h hu hl a n ha c ((hml c).mp h1) ((hmr c).mp h2)
      have hia : (l ++ a :: rr).indexOf a = l.length := by
        rw [List.indexOf_append_of_not_mem hal, List.indexOf_cons_self]
        rfl
      have hil : ∀ c, c ∈ l → (l ++ a :: rr).indexOf c = l.indexOf c ∧
          l.indexOf c < l.length := by
        intro c hc
        exact ⟨List.indexOf_append_of_mem hc, List.indexOf_lt_length.mpr hc⟩
      have hir : ∀ c, c ∈ rr → (l ++ a :: rr).indexOf c = l.length + (rr.indexOf c + 1) := by
        intro c hc
        have hca : a ≠ c := fun e2 => har (by rw [e2]; exact hc)
        rw [List.indexOf_append_of_not_mem (hdis c hc), List.indexOf_cons_ne _ hca]
      rw [e]
      have hn' : ∀ n' : node_t, h[a]? = some n' → n' = n := by
        intro n' hn'
        rw [ha] at hn'
        exact (Option.some.inj hn').symm
      cases hb with
      | left_node _ n' _ hn hx =>
        rw [hn' n' hn] at hx
        rw [hia, (hil x ((hml x).mpr hx)).1]
        exact (hil x ((hml x).mpr hx)).2
      | node_rght _ n' _ hn hy =>
        rw [hn' n' hn] at hy
        rw [hia, hir y ((hmr y).mpr hy)]
        omega
      | left_rght _ n' _ _ hn hx hy =>
        rw [hn' n' hn] at hx hy
        rw [hir y ((hmr y).mpr hy), (hil x ((hml x).mpr hx)).1]
        have := (hil x ((hml x).mpr hx)).2
        omega
      | in_left _ n' _ _ hn hsub =>
        rw [hn' n' hn] at hsub
        have hxy := before_reach _ _ _ _ hsub
        have := ih _ _ hl1 x y hsub
        rw [(hil x ((hml x).mpr hxy.1)).1, (hil y ((hml y).mpr hxy.2)).1]
        exact this
      | in_rght _ n' _ _ hn hsub =>
        rw [hn' n' hn] at hsub
        have hxy := before_reach _ _ _ _ hsub
        have := ih _ _ hr1 x y hsub
        rw [hir x ((hmr x).mpr hxy.1), hir y ((hmr y).mpr hxy.2)]
        omega

theorem dictcmp_cases (k n : data_t) :
    (k.prefix_node ≠ n.prefix_node ∧ dictcmp k n = -1) ∨
    (k.prefix_node = n.prefix_node ∧ dictcmp k n = k.ch - n.ch) := by
  unfold dictcmp LESSTHAN
  by_cases hp : k.prefix_node = n.prefix_node
  · right; simp [hp]
  · left; simp [hp]

/-- Two keys with the same prefix that are both found from the same pointer:
the node of the key with the smaller char comes first in in-order. -/
theorem search_before (h : List node_t) (kx ky : data_t)
    (hp : kx.prefix_node = ky.prefix_node) (hc : kx.ch < ky.ch) :
    ∀ (fuel : Nat) (r : Option Nat) (x y : Nat),
      recursive_search_tree h fuel r kx = some (some x) →
      recursive_search_tree h fuel r ky = some (some y) →
      Before h r x y := by
  intro fuel
  induction fuel with
  | zero => intro r x y hx; simp [search_zero] at hx
  | succ f ih =>
    intro r x y hx hy
    cases r with
    | none => simp [search_null] at hx
    | some a =>
      cases ha : h[a]? with
      | none => simp [search_dangling h f a kx ha] at hx
      | some n =>
        rw [search_node h f a n kx ha] at hx
        rw [search_node h f a n ky ha] at hy
        have hcx := dictcmp_cases kx n.data
        have hcy := dictcmp_cases ky n.data
        rw [hp] at hcx
        unfold CUTOFF at hx hy
        by_cases hx1 : dictcmp kx n.data < 0
        · rw [if_pos hx1] at hx
          by_cases hy1 : dictcmp ky n.data < 0
          · rw [if_pos hy1] at hy
            exact Before.in_left a n x y ha (ih _ _ _ hx hy)
          · rw [if_neg hy1] at hy
            by_cases hy2 : dictcmp ky n.data > 0
            · rw [if_pos hy2] at hy
              exact Before.left_rght a n x y ha (search_reach _ _ _ _ _ hx)
                (search_reach _ _ _ _ _ hy)
            · rw [if_neg hy2] at hy
              have hay : a = y := Option.some.inj (Option.some.inj hy)
              rw [← hay]
              exact Before.left_node a n x ha (search_reach _ _ _ _ _ hx)
        · rw [if_neg hx1] at hx
          have hsame : ky.prefix_node = n.data.prefix_node := by
            rcases hcx with ⟨_, e⟩ | ⟨e, _⟩
            · omega
            · exact e
          have ex : dictcmp kx n.data = kx.ch - n.data.ch := by
            rcases hcx with ⟨e, _⟩ | ⟨_, e⟩
            · exact absurd hsame e
            · exact e
          have ey : dictcmp ky n.data = ky.ch - n.data.ch := by
            rcases hcy with ⟨e, _⟩ | ⟨_, e⟩
            · exact absurd hsame e
            · exact e
          have hy2 : dictcmp ky n.data > 0 := by omega
          have hy1 : ¬ dictcmp ky n.data < 0 := by omega
          rw [if_neg hy1, if_pos hy2] at hy
          by_cases hx2 : dictcmp kx n.data > 0
          · rw [if_pos hx2] at hx
            exact Before.in_rght a n x y ha (ih _ _ _ hx hy)
          · rw [if_neg hx2] at hx
            have hax : a = x := Option.some.inj (Option.some.inj hx)
            rw [← hax]
            exact Before.node_rght a n y ha (search_reach _ _ _ _ _ hy)

/-- Of two nodes with the same prefix node, the one with the smaller char
comes first in the in-order of the tree. -/
theorem siblings_before (s : List (Fin 256)) (st : state_t) (hinv : Inv s st)
    (x y : Nat) (nx ny : node_t) (hx : st.dict.nodes[x]? = some nx)
    (hy : st.dict.nodes[y]? = some ny)
    (hp : nx.data.prefix_node = ny.data.prefix_node) (hc : nx.data.ch < ny.data.ch) :
    Before st.dict.nodes st.dict.root x y := by
  have fx := hinv.found x nx hx
  have fy := hinv.found y ny hy
  rw [← hp] at fy
  cases hpx : nx.data.prefix_node with
  | none =>
    rw [hpx, search_branch_null] at fx fy
    exact search_before _ _ _ hp hc _ _ _ _ fx fy
  | some p =>
    have hpa := (hinv.links x nx hx).2.2 p hpx
    have hxlt := getElem?_lt _ _ _ hx
    have hplt : p < st.dict.nodes.length := by omega
    have hp0 : st.dict.nodes[p]? = some st.dict.nodes[p] := List.getElem?_eq_getElem hplt
    rw [hpx, search_branch_node _ _ p _ hp0] at fx fy
    exact before_lift _ _ p (hinv.reach p hplt) _ x y hp0
      (search_before _ _ _ hp hc _ _ _ _ fx fy)

theorem to_char_small (b : Fin 256) (h : b.val < 128) : to_char (b.val : Int) = (b.val : Int) := by
  unfold to_char
  split <;> omega

theorem to_char_large (b : Fin 256) (h : 128 ≤ b.val) :
    to_char (b.val : Int) = (b.val : Int) - 256 := by
  unfold to_char
  split <;> omega

/-- C15 (counterexample).  After the bytes 97 and 200 the tree holds two nodes
with the same prefix (`NULL`); the in-order traversal lists the node of the
byte 200 (address 1) before the node of the byte 97 (address 0), although 200
is not smaller than 97. -/
theorem sibling_order_counterexample :
    (process_bytes init_state [97, 200]).map (fun st =>
      (inorder st.dict.nodes (st.dict.nodes.length + 1) st.dict.root,
       st.dict.nodes.map (fun n => (n.data.prefix_node, to_uchar n.data.ch, n.data.ch))))
      = some (some [1, 0], [(none, 97, 97), (none, 200, -56)]) ∧
    ¬ (List.indexOf 1 [1, 0] < List.indexOf 0 [1, 0] ↔ 200 < 97) := by
  decide

/-- C15 (amended sibling order).  After any number of encoder steps the
in-order traversal of the tree is defined and lists every node exactly once,
the char of every node is the signed `char` value of its extension byte, and
for two different nodes `x` and `y` with the same `prefix_node`, `x` comes
before `y` in the traversal if and only if the char of `x`, as the signed
`char` value stored in `ch`, is smaller than the char of `y`.  In terms of the
extension bytes: when both are below 128 this is the order of the bytes, a
byte of 128 or more comes before every byte below 128, and two bytes of 128
or more are again in the order of the bytes. -/
theorem sibling_order (s : List (Fin 256)) :
    ∃ st L, process_bytes init_state s = some st ∧
      inorder st.dict.nodes (st.dict.nodes.length + 1) st.dict.root = some L ∧
      L.Nodup ∧ (∀ a, a ∈ L ↔ a < st.dict.nodes.length) ∧
      (∀ (a : Nat) (n : node_t), st.dict.nodes[a]? = some n →
        to_uchar n.data.ch < 256 ∧ n.data.ch = to_char ((to_uchar n.data.ch : Nat) : Int)) ∧
      ∀ (x y : Nat) (nx ny : node_t), st.dict.nodes[x]? = some nx →
        st.dict.nodes[y]? = some ny → x ≠ y →
        nx.data.prefix_node = ny.data.prefix_node →
        (L.indexOf x < L.indexOf y ↔ nx.data.ch < ny.data.ch) ∧
        (to_uchar nx.data.ch < 128 → to_uchar ny.data.ch < 128 →
          (L.indexOf x < L.indexOf y ↔ to_uchar nx.data.ch < to_uchar ny.data.ch)) ∧
        (128 ≤ to_uchar nx.data.ch → to_uchar ny.data.ch < 128 →
          L.indexOf x < L.indexOf y) ∧
        (128 ≤ to_uchar nx.data.ch → 128 ≤ to_uchar ny.data.ch →
          (L.indexOf x < L.indexOf y ↔ to_uchar nx.data.ch < to_uchar ny.data.ch)) := by
  obtain ⟨st, hrun, hinv, ht⟩ := run_treeinv s
  obtain ⟨L, hL⟩ := inorder_total _ hinv.links (st.dict.nodes.length + 1) st.dict.root
    hinv.root_ok (by cases st.dict.root <;> simp)
  have hmem : ∀ a, a ∈ L ↔ a < st.dict.nodes.length := by
    intro a
    rw [inorder_mem _ _ _ _ hL a]
    exact ⟨inv_reach_lt s st hinv a, hinv.reach a⟩
  have hlt : ∀ (x y : Nat) (nx ny : node_t), st.dict.nodes[x]? = some nx →
      st.dict.nodes[y]? = some ny → nx.data.prefix_node = ny.data.prefix_node →
      nx.data.ch < ny.data.ch → L.indexOf x < L.indexOf y := by
    intro x y nx ny hx hy hp hc
    exact before_index _ ht.unshared hinv.links _ _ _ hL x y
      (siblings_before s st hinv x y nx ny hx hy hp hc)
  have hiff : ∀ (x y : Nat) (nx ny : node_t), st.dict.nodes[x]? = some nx →
      st.dict.nodes[y]? = some ny → x ≠ y → nx.data.prefix_node = ny.data.prefix_node →
      (L.indexOf x < L.indexOf y ↔ nx.data.ch < ny.data.ch) := by
    intro x y nx ny hx hy hne hp
    constructor
    · intro hxy
      by_contra hnc
      have hcne : nx.data.ch ≠ ny.data.ch := fun e => hne (inv_unique s st hinv x y nx ny hx hy hp e)
      have := hlt y x ny nx hy hx hp.symm (by omega)
      omega
    · exact hlt x y nx ny hx hy hp
  refine ⟨st, L, hrun, hL, inorder_nodup _ ht.unshared hinv.links _ _ _ hL, hmem, ?_, ?_⟩
  · intro a n ha
    obtain ⟨b, hb⟩ := hinv.ch_ok a n ha
    rw [hb, to_uchar_to_char]
    exact ⟨b.isLt, rfl⟩
  intro x y nx ny hx hy hne hp
  obtain ⟨bx, hbx'⟩ := hinv.ch_ok x nx hx
  obtain ⟨by', hby'⟩ := hinv.ch_ok y ny hy
  have hux : to_uchar nx.data.ch = bx.val := by rw [hbx', to_uchar_to_char]
  have huy : to_uchar ny.data.ch = by'.val := by rw [hby', to_uchar_to_char]
  have key := hiff x y nx ny hx hy hne hp
  rw [hux, huy]
  refine ⟨key, ?_, ?_, ?_⟩
  · intro hbx hby
    rw [key, hbx', hby', to_char_small bx hbx, to_char_small by' hby]
    omega
  · intro hbx hby
    rw [key, hbx', hby', to_char_large bx hbx, to_char_small by' hby]
    omega
  · intro hbx hby
    rw [key, hbx', hby', to_char_large bx hbx, to_char_large by' hby]
    omega

theorem sim_init : Sim init_state ref_init :=
  ⟨rfl, rfl, rfl, rfl, rfl⟩

theorem ptr_index_inj (p q : Option Nat) (h : ptr_index p = ptr_index q) : p = q := by
  cases p <;> cases q <;> simp [ptr_index] at h ⊢
  exact h

theorem inv_index_of (s : List (Fin 256)) (st : state_t) (hinv : Inv s st) (p : Option Nat)
    (hp : ∀ a, p = some a → a < st.dict.nodes.length) :
    index_of st.dict.nodes p = ptr_index p := by
  cases p with
  | none => rfl
  | some a =>
    have halt := hp a rfl
    rw [index_of_some _ a _ (List.getElem?_eq_getElem halt),
      hinv.index_ok a _ (List.getElem?_eq_getElem halt)]
    rfl

/-- The entries of the tree after the insertion: the old entries and the
entry of the fresh node. -/
theorem attached_entries (t d : tree_t) (v : data_t) (h : Attached t d v) :
    d.nodes.map entry_of =
      t.nodes.map entry_of ++ [entry_of { data := v, left := none, rght := none }] := by
  apply List.ext_getElem?
  intro i
  rw [List.getElem?_map]
  by_cases hlt : i < t.nodes.length
  · have hi : t.nodes[i]? = some t.nodes[i] := List.getElem?_eq_getElem hlt
    obtain ⟨n', hn', hd, _, _⟩ := attached_old t d v h i _ hi
    rw [hn', List.getElem?_append_left (by simpa using hlt), List.getElem?_map, hi]
    simp only [Option.map_some', entry_of, hd]
  · by_cases heq : i = t.nodes.length
    · rw [heq, attached_new t d v h]
      have : (t.nodes.map entry_of).length = t.nodes.length := by simp
      rw [← this, List.getElem?_concat_length]
      rfl
    · have h1 : d.nodes[i]? = none :=
        List.getElem?_eq_none (by rw [attached_length t d v h]; omega)
      rw [h1]
      symm
      exact List.getElem?_eq_none (by simp; omega)

/-- The key of the entry of a node is the given (index, byte) pair exactly
when the node has the given prefix node and the char of the byte. -/
theorem entry_key_iff (s : List (Fin 256)) (st : state_t) (hinv : Inv s st) (a : Nat)
    (n : node_t) (ha : st.dict.nodes[a]? = some n) (m : Option Nat) (b : Fin 256) :
    (entry_of n).1 = (ptr_index m, b.val) ↔
      (n.data.prefix_node = m ∧ n.data.ch = to_char (b.val : Int)) := by
  obtain ⟨b', hb'⟩ := hinv.ch_ok a n ha
  simp only [entry_of, Prod.mk.injEq]
  constructor
  · rintro ⟨h1, h2⟩
    refine ⟨ptr_index_inj _ _ h1, ?_⟩
    rw [hb', to_uchar_to_char] at h2
    rw [hb', Fin.ext h2]
  · rintro ⟨h1, h2⟩
    exact ⟨by rw [h1], by rw [h2, to_uchar_to_char]⟩

/-- An entry found by the lookup in the reference map comes from a node with
the prefix node and the char of the key. -/
theorem lookup_some_node (s : List (Fin 256)) (st : state_t) (hinv : Inv s st)
    (m : Option Nat) (b : Fin 256) (i : Nat)
    (h : ref_lookup (st.dict.nodes.map entry_of) (ptr_index m, b.val) = some i) :
    ∃ (a : Nat) (n : node_t), st.dict.nodes[a]? = some n ∧ n.data.prefix_node = m ∧
      n.data.ch = to_char (b.val : Int) ∧ n.data.index = i := by
  unfold ref_lookup at h
  cases hf : (st.dict.nodes.map entry_of).find? (fun e => decide (e.1 = (ptr_index m, b.val))) with
  | none => rw [hf] at h; cases h
  | some e =>
    rw [hf] at h
    have hp := List.find?_some hf
    have hmem := List.mem_of_find?_eq_some hf
    obtain ⟨n, hn, hne⟩ := List.mem_map.mp hmem
    obtain ⟨a, ha⟩ := List.getElem?_of_mem hn
    have hkey : (entry_of n).1 = (ptr_index m, b.val) := by
      rw [hne]; exact of_decide_eq_true hp
    obtain ⟨h1, h2⟩ := (entry_key_iff s st hinv a n ha m b).mp hkey
    refine ⟨a, n, ha, h1, h2, ?_⟩
    have : e.2 = i := Option.some.inj h
    rw [← this, ← hne]
    rfl

/-- The reference map has an entry for every node. -/
theorem lookup_node_some (s : List (Fin 256)) (st : state_t) (hinv : Inv s st)
    (m : Option Nat) (b : Fin 256) (a : Nat) (n : node_t)
    (ha : st.dict.nodes[a]? = some n) (hp : n.data.prefix_node = m)
    (hc : n.data.ch = to_char (b.val : Int)) :
    ref_lookup (st.dict.nodes.map entry_of) (ptr_index m, b.val) = some n.data.index := by
  cases hl : ref_lookup (st.dict.nodes.map entry_of) (ptr_index m, b.val) with
  | none =>
    exfalso
    unfold ref_lookup at hl
    cases hf : (st.dict.nodes.map entry_of).find?
        (fun e => decide (e.1 = (ptr_index m, b.val))) with
    | none =>
      have hall := List.find?_eq_none.mp hf (entry_of n)
        (List.mem_map.mpr ⟨n, List.getElem?_mem ha, rfl⟩)
      apply hall
      exact decide_eq_true ((entry_key_iff s st hinv a n ha m b).mpr ⟨hp, hc⟩)
    | some e => rw [hf] at hl; cases hl
  | some i =>
    obtain ⟨a', n', ha', hp', hc', hi'⟩ := lookup_some_node s st hinv m b i hl
    have := inv_unique s st hinv a a' n n' ha ha' (hp.trans hp'.symm) (hc.trans hc'.symm)
    subst this
    rw [ha] at ha'
    rw [← hi', Option.some.inj ha']

/-- One byte keeps the two encoders in step. -/
theorem sim_step (s : List (Fin 256)) (st : state_t) (rs : ref_state) (b : Fin 256)
    (hinv : Inv s st) (hsim : Sim st rs) :
    ∃ st', read_char st (to_char (b.val : Int)) = some st' ∧ Inv (s ++ [b]) st' ∧
      Sim st' (ref_step rs b.val) := by
  have htn := inv_temp_node_lt s st hinv
  have hcur : rs.cur = ptr_index st.temp_node := by
    rw [hsim.cur_eq, hinv.temp_ok]
    exact inv_index_of s st hinv _ htn
  rcases step_cases s st b hinv with ⟨f, fn, _, hf, hp, hc, hread, hinv1⟩ |
    ⟨d, hmiss, _, hatt, hread, hinv1⟩
  · refine ⟨_, hread, hinv1, ?_⟩
    have hl := lookup_node_some s st hinv st.temp_node b f fn hf hp hc
    have hstep : ref_step rs b.val =
        { rs with prev := rs.cur, cur := fn.data.index, last := some b.val } := by
      unfold ref_step
      rw [hsim.dict_eq, hcur, hl]
    rw [hstep]
    constructor
    · exact hsim.dict_eq
    · rfl
    · exact hsim.cur_eq
    · show some b.val = Option.map to_uchar (some (to_char (b.val : Int)))
      rw [Option.map_some', to_uchar_to_char]
    · exact hsim.out_eq
  · refine ⟨_, hread, hinv1, ?_⟩
    have hl : ref_lookup (st.dict.nodes.map entry_of) (ptr_index st.temp_node, b.val) = none := by
      cases hl : ref_lookup (st.dict.nodes.map entry_of) (ptr_index st.temp_node, b.val) with
      | none => rfl
      | some i =>
        exfalso
        obtain ⟨a, n, ha, hp, hc, _⟩ := lookup_some_node s st hinv st.temp_node b i hl
        obtain ⟨res, hres, hiff⟩ := search_branch_complete s st hinv st.temp_node htn
          (temp_data st (to_char (b.val : Int))) (temp_data_prefix_node _ _)
        rw [hmiss] at hres
        have := (hiff a).mpr ⟨n, ha, hp, by rw [temp_data_ch]; exact hc⟩
        rw [← Option.some.inj hres] at this
        cases this
    have hstep : ref_step rs b.val =
        { dict := rs.dict ++ [((rs.cur, b.val), rs.dict.length + 1)]
          cur := 0
          prev := 0
          last := none
          out := rs.out ++ [(b.val, rs.cur)] } := by
      unfold ref_step
      rw [hsim.dict_eq, hcur, hl]
    rw [hstep]
    constructor
    · show rs.dict ++ [((rs.cur, b.val), rs.dict.length + 1)] = d.nodes.map entry_of
      rw [attached_entries _ _ _ hatt, hsim.dict_eq, hcur]
      simp only [entry_of, temp_data_prefix_node, temp_data_ch, temp_data_index,
        to_uchar_to_char, List.length_map, hinv.count_eq]
    · rfl
    · rfl
    · rfl
    · show rs.out ++ [(b.val, rs.cur)] =
        st.out ++ [(to_uchar (to_char (b.val : Int)), st.index.temp)]
      rw [hsim.out_eq, hsim.cur_eq, to_uchar_to_char]

/-- The two encoders stay in step over a whole byte sequence. -/
theorem sim_run (t : List (Fin 256)) :
    ∀ (s : List (Fin 256)) (st : state_t) (rs : ref_state), Inv s st → Sim st rs →
      ∃ st', process_bytes st t = some st' ∧ Inv (s ++ t) st' ∧
        Sim st' (t.foldl (fun r b => ref_step r b.val) rs) := by
  induction t with
  | nil => intro s st rs hinv hsim; exact ⟨st, rfl, by simpa using hinv, hsim⟩
  | cons b rest ih =>
    intro s st rs hinv hsim
    obtain ⟨st1, h1, hinv1, hsim1⟩ := sim_step s st rs b hinv hsim
    obtain ⟨st2, h2, hinv2, hsim2⟩ := ih (s ++ [b]) st1 _ hinv1 hsim1
    exact ⟨st2, by rw [process_bytes_cons st st1 b rest h1]; exact h2,
      by simpa using hinv2, hsim2⟩

/-- The flush of the tree-based encoder prints what the reference encoder
emits at the end of the input. -/
theorem sim_flush (st : state_t) (rs : ref_state) (hsim : Sim st rs) :
    (flush st).out = ref_flush rs := by
  unfold ref_flush
  cases hch : st.temp_ch with
  | none =>
    have := hsim.last_eq
    rw [hch] at this
    rw [flush_none st hch, this]
    exact hsim.out_eq.symm
  | some c =>
    have := hsim.last_eq
    rw [hch] at this
    rw [flush_some st c hch, this]
    show st.out ++ [(to_uchar c, st.index.pre)] = rs.out ++ [(to_uchar c, rs.prev)]
    rw [hsim.out_eq, hsim.prev_eq]

/-- The reference encoder on "aaaa" and on "abab". -/
theorem ref_encode_examples :
    ref_encode [97, 97, 97, 97] = [(97, 0), (97, 1), (97, 0)] ∧
    ref_encode [97, 98, 97, 98] = [(97, 0), (98, 0), (98, 1)] := by
  decide

/-- C19 (refinement of the reference encoder).  For every input byte sequence
the tree-based encoder returns, and the factor list it prints is the factor
list of the reference LZ78 encoder `ref_encode`, which keeps the dictionary as
a finite map from (parent index, byte) to index. -/
theorem encode_eq_reference (s : List (Fin 256)) :
    (encode s).map (fun st => st.out) = some (ref_encode s) := by
  obtain ⟨st, hrun, _, hsim⟩ := sim_run s [] init_state ref_init inv_init sim_init
  rw [encode_eq, hrun]
  simp only [Option.map_some']
  rw [sim_flush st _ hsim]
  rfl

end Ass2e
